import Mathlib

/-!
# Verlet integration kernels and constraint orchestration

A shallow embedding of

* `platforms/common/src/kernels/verlet.cc`
  (`integrateVerletPart1`, `integrateVerletPart2`, `selectVerletStepSize`),
* `platforms/cuda/src/CudaIntegrationUtilities.cpp` and
  `platforms/opencl/src/OpenCLIntegrationUtilities.cpp`
  (`applyConstraintsImpl`, `distributeForcesFromVirtualSites`),
* `platforms/brook/src/BrookKernels.cpp` (`BrookCalcKineticEnergyKernel::execute`,
  `copyToArray`, the scratch array of `executeEnergy`).

Numbers of the kernel types `real` and `mixed` are rationals and the arithmetic
operators are exact.  The explicit narrowing casts `(float)` and `(real)`, the
single-precision reciprocal and `SQRT` are fields of `Arith`, so that a
statement can be made for every rounding behaviour or for the exact one.
Division follows the convention `x / 0 = 0` of the rationals.
-/

namespace OpenMM

/-! ## Data model of the kernels -/

/-- The two-component vector type `mixed2`. -/
structure Vec2 where
  x : ℚ
  y : ℚ
deriving DecidableEq

/-- The four-component vector types `real4` and `mixed4`. -/
structure Vec4 where
  x : ℚ
  y : ℚ
  z : ℚ
  w : ℚ
deriving DecidableEq

/-- Compile-time switches and the rounding primitives of a kernel build. -/
structure Arith where
  /-- `USE_MIXED_PRECISION` is defined. -/
  useMixedPrecision : Bool
  /-- `SUPPORTS_DOUBLE_PRECISION` is defined. -/
  supportsDoublePrecision : Bool
  /-- The cast `(float) x`. -/
  toFloat : ℚ → ℚ
  /-- The conversion of a `mixed` value to `real`: the cast `(real) x`, and the
  conversion of a `mixed` argument handed to `make_real4`. -/
  toReal : ℚ → ℚ
  /-- The single-precision quotient `1.0f/(float) x`. -/
  recipFloat : ℚ → ℚ
  /-- The function `SQRT`. -/
  sqrt : ℚ → ℚ

/-- The device buffers the three Verlet kernels work on.  `dt` is the single
entry `dt[0]`; the other buffers are indexed by particle. -/
structure Buffers where
  dt : Vec2
  posq : Nat → Vec4
  posqCorrection : Nat → Vec4
  velm : Nat → Vec4
  posDelta : Nat → Vec4
  force : Nat → Int

/-- The store `buf[index] = v`. -/
def store {α : Type} (buf : Nat → α) (index : Nat) (v : α) : Nat → α :=
  fun j => if j = index then v else buf j

/-- The loop `for (int index = start; index < bound; index += stride) body`,
run on a state of type `σ`.  `fuel` bounds the number of iterations; `bound`
iterations always suffice when `stride` is positive. -/
def forStride {σ : Type} (body : Nat → σ → σ) (bound stride : Nat) : Nat → Nat → σ → σ
  | 0, _, s => s
  | fuel + 1, index, s =>
    if index < bound then forStride body bound stride fuel (index + stride) (body index s)
    else s

/-- A kernel whose threads `0, ..., size - 1` each run `thread id`.  The threads
of the kernels below write disjoint entries (a thread writes only the particles
of its own stride class), so they are run one after the other. -/
def runThreads {σ : Type} (thread : Nat → σ → σ) (size : Nat) (s : σ) : σ :=
  (List.range size).foldl (fun st id => thread id st) s

/-! ## `selectVerletStepSize` -/

/-- The constant `scale = RECIP((float) 0x100000000)`. -/
def forceScale : ℚ := 1 / 4294967296

/-- One pass of the accumulation loop of `selectVerletStepSize` (lines 146-148):
the error term of particle `index` added to `err`. -/
def errorTerm (paddedNumAtoms : Nat) (b : Buffers) (index : Nat) (err : ℚ) : ℚ :=
  let fx := forceScale * (b.force index : ℚ)
  let fy := forceScale * (b.force (index + paddedNumAtoms) : ℚ)
  let fz := forceScale * (b.force (index + paddedNumAtoms * 2) : ℚ)
  let invMass := (b.velm index).w
  err + (fx * fx + fy * fy + fz * fz) * invMass * invMass

/-- The value `err` thread `localId` stores into `error[LOCAL_ID]` (lines 143-150). -/
def threadError (localSize numAtoms paddedNumAtoms : Nat) (b : Buffers) (localId : Nat) : ℚ :=
  forStride (errorTerm paddedNumAtoms b) numAtoms localSize numAtoms localId 0

/-- The local array `error` after every thread has stored its sum and passed
the first barrier. -/
def initialError (localSize numAtoms paddedNumAtoms : Nat) (b : Buffers) : Nat → ℚ :=
  runThreads (fun localId error =>
    store error localId (threadError localSize numAtoms paddedNumAtoms b localId))
    localSize (fun _ => 0)

/-- One round of the tree reduction (lines 156-158) for a given `offset`: every
thread adds `error[LOCAL_ID+offset]` to its own entry when the guard holds.  The
entries read in a round are not written in that round, so the threads are run
one after the other. -/
def reduceRound (localSize offset : Nat) (error : Nat → ℚ) : Nat → ℚ :=
  runThreads (fun localId e =>
    if localId + offset < localSize ∧ localId &&& (2 * offset - 1) = 0 then
      store e localId (e localId + e (localId + offset))
    else e) localSize error

/-- The loop `for (offset = 1; offset < LOCAL_SIZE; offset *= 2)` (lines 155-159). -/
def reduceLoop (localSize : Nat) : Nat → Nat → (Nat → ℚ) → (Nat → ℚ)
  | 0, _, error => error
  | fuel + 1, offset, error =>
    if offset < localSize then
      reduceLoop localSize fuel (offset * 2) (reduceRound localSize offset error)
    else error

/-- The local array `error` when thread 0 reads `error[0]`. -/
def reducedError (localSize numAtoms paddedNumAtoms : Nat) (b : Buffers) : Nat → ℚ :=
  reduceLoop localSize localSize 1 (initialError localSize numAtoms paddedNumAtoms b)

/-- The argument `error[0]/(mixed)(numAtoms*3)` of `SQRT` in line 161. -/
def meanSquareError (localSize numAtoms paddedNumAtoms : Nat) (b : Buffers) : ℚ :=
  reducedError localSize numAtoms paddedNumAtoms b 0 / ((numAtoms * 3 : Nat) : ℚ)

/-- The variable `totalError` (line 161). -/
def totalError (A : Arith) (localSize numAtoms paddedNumAtoms : Nat) (b : Buffers) : ℚ :=
  A.sqrt (meanSquareError localSize numAtoms paddedNumAtoms b)

/-- The first value of `newStepSize` (line 162), before any limiting. -/
def rawStepSize (A : Arith) (localSize numAtoms paddedNumAtoms : Nat) (errorTol : ℚ)
    (b : Buffers) : ℚ :=
  A.sqrt (errorTol / totalError A localSize numAtoms paddedNumAtoms b)

/-- The limiting of `newStepSize` (lines 163-169). -/
def limitStepSize (A : Arith) (newStepSize oldStepSize maxStepSize : ℚ) : ℚ :=
  let newStepSize :=
    if oldStepSize > 0 then min (A.toFloat newStepSize) (A.toFloat (oldStepSize * 2))
    else newStepSize
  let newStepSize :=
    if newStepSize > oldStepSize ∧ newStepSize < (11 / 10 : ℚ) * oldStepSize then oldStepSize
    else newStepSize
  let newStepSize := if newStepSize > maxStepSize then maxStepSize else newStepSize
  newStepSize

/-- The kernel `selectVerletStepSize`, run by one work group of `localSize`
threads.  Thread 0, present in every launch, runs lines 160-171. -/
def selectVerletStepSize (A : Arith) (localSize numAtoms paddedNumAtoms : Nat)
    (maxStepSize errorTol : ℚ) (b : Buffers) : Buffers :=
  let newStepSize := rawStepSize A localSize numAtoms paddedNumAtoms errorTol b
  let oldStepSize := b.dt.y
  { b with dt := { b.dt with y := limitStepSize A newStepSize oldStepSize maxStepSize } }

/-! ## `integrateVerletPart1` and `integrateVerletPart2` -/

/-- The position `pos` read at lines 27-33 and 92-98: the sum of `posq` and
`posqCorrection` with `USE_MIXED_PRECISION`, else `posq[index]`. -/
def loadPos (A : Arith) (b : Buffers) (index : Nat) : Vec4 :=
  if A.useMixedPrecision then
    let pos1 := b.posq index
    let pos2 := b.posqCorrection index
    ⟨pos1.x + pos2.x, pos1.y + pos2.y, pos1.z + pos2.z, pos1.w⟩
  else b.posq index

/-- The body of the loop of `integrateVerletPart1` (lines 20-48) for one
`index`; `stepSize` is the thread's copy of `dt[0]`. -/
def part1Body (A : Arith) (paddedNumAtoms : Nat) (stepSize : Vec2) (index : Nat)
    (b : Buffers) : Buffers :=
  let dtPos := stepSize.y
  let dtVel := (1 / 2 : ℚ) * (stepSize.x + stepSize.y)
  let scale := dtVel / 4294967296
  let velocity := b.velm index
  if velocity.w ≠ 0 then
    let pos := loadPos A b index
    let velocity := { velocity with
      x := velocity.x + scale * (b.force index : ℚ) * velocity.w }
    let velocity := { velocity with
      y := velocity.y + scale * (b.force (index + paddedNumAtoms) : ℚ) * velocity.w }
    let velocity := { velocity with
      z := velocity.z + scale * (b.force (index + paddedNumAtoms * 2) : ℚ) * velocity.w }
    let pos := { pos with x := velocity.x * dtPos }
    let pos := { pos with y := velocity.y * dtPos }
    let pos := { pos with z := velocity.z * dtPos }
    { b with posDelta := store b.posDelta index pos, velm := store b.velm index velocity }
  else b

/-- One thread of `integrateVerletPart1`: it copies `dt[0]` and runs the loop
`for (index = GLOBAL_ID; index < numAtoms; index += GLOBAL_SIZE)`. -/
def part1Thread (A : Arith) (globalSize numAtoms paddedNumAtoms : Nat) (globalId : Nat)
    (b : Buffers) : Buffers :=
  forStride (part1Body A paddedNumAtoms b.dt) numAtoms globalSize numAtoms globalId b

/-- The kernel `integrateVerletPart1`, launched with `globalSize` threads. -/
def integrateVerletPart1 (A : Arith) (globalSize numAtoms paddedNumAtoms : Nat)
    (b : Buffers) : Buffers :=
  runThreads (part1Thread A globalSize numAtoms paddedNumAtoms) globalSize b

/-- The variable `oneOverDt` of `integrateVerletPart2` (lines 73-78). -/
def oneOverDt (A : Arith) (stepSize : Vec2) : ℚ :=
  if A.supportsDoublePrecision then 1 / stepSize.y else A.recipFloat stepSize.y

/-- The variable `correction` of `integrateVerletPart2` (line 77). -/
def correction (A : Arith) (stepSize : Vec2) : ℚ :=
  (1 - oneOverDt A stepSize * stepSize.y) / stepSize.y

/-- One component of the new velocity (lines 109-113). -/
def newVelocity (A : Arith) (stepSize : Vec2) (delta : ℚ) : ℚ :=
  if A.supportsDoublePrecision then A.toFloat delta * oneOverDt A stepSize
  else delta * oneOverDt A stepSize + delta * correction A stepSize

/-- The body of the loop of `integrateVerletPart2` (lines 84-126) for one
`index`; `stepSize` is the thread's copy of `dt[0]`.  In a mixed-precision build
the differences `pos.x-(real) pos.x` (line 116) have type `mixed` and
`make_real4` takes parameters of type `real`, so each difference is converted to
`real` on the way into `posqCorrection`. -/
def part2Body (A : Arith) (stepSize : Vec2) (index : Nat) (b : Buffers) : Buffers :=
  let velocity := b.velm index
  if velocity.w ≠ 0 then
    let pos := loadPos A b index
    let delta := b.posDelta index
    let pos := { pos with x := pos.x + delta.x }
    let pos := { pos with y := pos.y + delta.y }
    let pos := { pos with z := pos.z + delta.z }
    let velocity : Vec4 :=
      ⟨newVelocity A stepSize delta.x, newVelocity A stepSize delta.y,
        newVelocity A stepSize delta.z, velocity.w⟩
    if A.useMixedPrecision then
      { b with
        posq := store b.posq index
          ⟨A.toReal pos.x, A.toReal pos.y, A.toReal pos.z, A.toReal pos.w⟩
        posqCorrection := store b.posqCorrection index
          ⟨A.toReal (pos.x - A.toReal pos.x), A.toReal (pos.y - A.toReal pos.y),
            A.toReal (pos.z - A.toReal pos.z), 0⟩
        velm := store b.velm index velocity }
    else
      { b with posq := store b.posq index pos, velm := store b.velm index velocity }
  else b

/-- One thread of `integrateVerletPart2`: it copies `dt[0]`, thread 0 stores
`dt[0].x = stepSize.y` (lines 79-80), and after the barrier the thread runs its
loop over the particles. -/
def part2Thread (A : Arith) (globalSize numAtoms : Nat) (globalId : Nat)
    (b : Buffers) : Buffers :=
  let stepSize := b.dt
  let b := if globalId = 0 then { b with dt := { b.dt with x := stepSize.y } } else b
  forStride (part2Body A stepSize) numAtoms globalSize numAtoms globalId b

/-- The kernel `integrateVerletPart2`, launched with `globalSize` threads. -/
def integrateVerletPart2 (A : Arith) (globalSize numAtoms : Nat) (b : Buffers) : Buffers :=
  runThreads (part2Thread A globalSize numAtoms) globalSize b

/-- Exact arithmetic: the casts lose nothing and the single-precision
reciprocal is the true one. -/
def Arith.Exact (A : Arith) : Prop :=
  (∀ x, A.toFloat x = x) ∧ (∀ x, A.toReal x = x) ∧ (∀ x, A.recipFloat x = 1 / x)

/-- A square root on the rationals, exact on squares of rationals. -/
def ratSqrt (q : ℚ) : ℚ := (Nat.sqrt q.num.toNat : ℚ) / (Nat.sqrt q.den : ℚ)

/-- Exact arithmetic: every cast is the identity and the reciprocal is exact. -/
def exactArith (useMixedPrecision supportsDoublePrecision : Bool) : Arith :=
  { useMixedPrecision := useMixedPrecision
    supportsDoublePrecision := supportsDoublePrecision
    toFloat := fun x => x
    toReal := fun x => x
    recipFloat := fun x => 1 / x
    sqrt := ratSqrt }

/-- A one-particle system with unit force components and unit inverse mass. -/
def unitBuffers (dt : Vec2) : Buffers :=
  { dt := dt
    posq := fun _ => ⟨0, 0, 0, 0⟩
    posqCorrection := fun _ => ⟨0, 0, 0, 0⟩
    velm := fun _ => ⟨0, 0, 0, 1⟩
    posDelta := fun _ => ⟨0, 0, 0, 0⟩
    force := fun _ => 4294967296 }

/-- A single particle at `p0` moving with velocity `v` (inverse mass `v.w`),
with no force on it. -/
def freeParticle (dt : Vec2) (p0 v : Vec4) : Buffers :=
  { dt := dt
    posq := fun _ => p0
    posqCorrection := fun _ => ⟨0, 0, 0, 0⟩
    velm := fun _ => v
    posDelta := fun _ => ⟨0, 0, 0, 0⟩
    force := fun _ => 0 }

/-! ## Host side: constraint orchestration and virtual sites

A call of a host function is described by the list of device operations it
issues, in order.  `Event.execute kernel args size block` stands for the
`setArg` calls the function makes on `kernel` (slot and value, in the order
they are made) followed by `kernel->execute(size)` or
`kernel->execute(size, block)`. -/

/-- Modelled from the spec: the type `PrecisionLevel`, whose declaration is
outside the sources at hand; the spec gives the precision mode as one of half,
single, double and mixed, and the `switch` statements name these four cases. -/
inductive PrecisionLevel
  | Double
  | Mixed
  | Single
  | F16
deriving DecidableEq

/-- The C++ type of the tolerance handed to `setArg`: `tol` itself (a
`double`), `(float) tol` or `(half) tol`. -/
inductive TolArg
  | asDouble
  | asFloat
  | asHalf
deriving DecidableEq

/-- The width in bits of a tolerance argument. -/
def TolArg.bits : TolArg → Nat
  | .asDouble => 64
  | .asFloat => 32
  | .asHalf => 16

/-- The `switch (context.getPrecision())` that precedes each solver launch. -/
def tolArg : PrecisionLevel → TolArg
  | .Double => .asDouble
  | .Mixed => .asDouble
  | .Single => .asFloat
  | .F16 => .asHalf

/-- The kernels the two host functions launch. -/
inductive Kernel
  | settleVelKernel
  | settlePosKernel
  | shakeVelKernel
  | shakePosKernel
  | ccmaVelForceKernel
  | ccmaPosForceKernel
  | ccmaFullKernel
  | ccmaDirectionsKernel
  | ccmaMultiplyKernel
  | ccmaUpdateKernel
  | vsiteForceKernel
  | vsiteSaveForcesKernel
deriving DecidableEq

/-- Device memory passed as a kernel argument. -/
inductive DeviceBuffer
  | velm
  | posDelta
  | longForceBuffer
  | forceBuffers
  | ccmaConvergedDeviceMemory
  | ccmaConvergedHostBuffer
deriving DecidableEq

/-- A value given to `setArg`. -/
inductive Arg
  | tol (t : TolArg)
  | int (v : Int)
  | buffer (b : DeviceBuffer)
deriving DecidableEq

/-- One device operation issued by the host. -/
inductive Event
  /-- The `setArg` calls on a kernel and its launch. -/
  | execute (kernel : Kernel) (args : List (Nat × Arg)) (size : Nat) (block : Option Nat)
  /-- The call `cuEventRecord(ccmaEvent, 0)`. -/
  | eventRecord
  /-- The call `cuEventSynchronize(ccmaEvent)`. -/
  | eventSynchronize
  /-- The asynchronous `queue.enqueueReadBuffer` of `ccmaConverged`. -/
  | enqueueReadBuffer
  /-- The call `event.wait()`. -/
  | eventWait
  /-- The mapping of `ccmaConvergedHostBuffer`, the wait for its completion
  and the copy into `converged[i%2]` (lines 172-177). -/
  | mapConvergedBuffer
  /-- The host tests the convergence flag in iteration `i`. -/
  | readConverged (i : Nat)
deriving DecidableEq

/-- Whether an event is a kernel launch. -/
def Event.isExecute : Event → Bool
  | .execute _ _ _ _ => true
  | _ => false

/-- Whether an event is a launch of the given kernel. -/
def Event.launches (k : Kernel) : Event → Bool
  | .execute kernel _ _ _ => decide (kernel = k)
  | _ => false

/-- What a call of a host function did: the operations issued and, when the
call threw an `OpenMMException`, its message. -/
structure Outcome where
  trace : List Event
  error : Option String
deriving DecidableEq

/-- The outcome of issuing `evs` and then continuing with `o`. -/
def Outcome.after (evs : List Event) (o : Outcome) : Outcome :=
  ⟨evs ++ o.trace, o.error⟩

/-- The constraint data of an `IntegrationUtilities` object that
`applyConstraintsImpl` reads.  An array is `none` when it is not initialized and
`some n` when `getSize()` is `n`. -/
structure Constraints where
  precision : PrecisionLevel
  settleAtoms : Option Nat
  shakeAtoms : Option Nat
  ccmaConstraintAtoms : Option Nat
  numAtoms : Nat

/-- The values `applyConstraintsImpl` obtains from the device in the staged
loop.  Each is indexed by the iteration `i` in which it is obtained.

The macro `CHECK_RESULT2(result, pre)` names its argument `result` three times:
in the test `result != CUDA_SUCCESS`, in `getErrorString(result)` and in
`<<result`.  Its argument here is the call itself, so after a failed test the
call is made twice more, and the message is built from what those two calls
return. -/
structure Device where
  /-- The status returned by `cuEventRecord` in the test of `CHECK_RESULT2`. -/
  recordStatus : Nat → Int
  /-- The status returned by `cuEventSynchronize` in the test of `CHECK_RESULT2`. -/
  synchronizeStatus : Nat → Int
  /-- The status returned by the `n`-th further call of `cuEventRecord` that the
  macro makes after a failed test: `n = 1` inside `getErrorString(...)`, `n = 2`
  for the printed code. -/
  recordAgain : Nat → Nat → Int
  /-- The status returned by the `n`-th further call of `cuEventSynchronize`
  after a failed test. -/
  synchronizeAgain : Nat → Nat → Int
  /-- The convergence flag the host reads (`ccmaConvergedMemory[0]`, or
  `converged[i%2]` for OpenCL). -/
  converged : Nat → Int
  /-- The function `getErrorString` of the context. -/
  getErrorString : Int → String
  /-- The value of `__FILE__`. -/
  file : String

/-- The status `CUDA_SUCCESS`. -/
def CUDA_SUCCESS : Int := 0

/-- The message built by `CHECK_RESULT2(result, pre)` at source line `line`;
`described` is the value of `result` inside `getErrorString(result)` and `code`
its value in `<<result`. -/
def checkResultMessage (dev : Device) (described code : Int) (pre : String) (line : Nat) :
    String :=
  pre ++ ": " ++ dev.getErrorString described ++ " (" ++ toString code ++ ")" ++ " at "
    ++ dev.file ++ ":" ++ toString line

/-- The launch of the SETTLE kernel (lines 82-102 for CUDA, 64-84 for OpenCL). -/
def settleLaunch (c : Constraints) (constrainVelocities : Bool) : List Event :=
  let settleKernel := if constrainVelocities then Kernel.settleVelKernel else Kernel.settlePosKernel
  match c.settleAtoms with
  | some size => [Event.execute settleKernel [(1, Arg.tol (tolArg c.precision))] size none]
  | none => []

/-- The launch of the SHAKE kernel (lines 103-123 for CUDA, 85-105 for OpenCL). -/
def shakeLaunch (c : Constraints) (constrainVelocities : Bool) : List Event :=
  let shakeKernel := if constrainVelocities then Kernel.shakeVelKernel else Kernel.shakePosKernel
  match c.shakeAtoms with
  | some size => [Event.execute shakeKernel [(1, Arg.tol (tolArg c.precision))] size none]
  | none => []

/-- The launch of `ccmaFullKernel` (lines 127-147 for CUDA, 109-128 for OpenCL). -/
def ccmaFullLaunch (c : Constraints) (constrainVelocities : Bool) : Event :=
  Event.execute Kernel.ccmaFullKernel
    [(0, Arg.int (if constrainVelocities then 1 else 0)), (14, Arg.tol (tolArg c.precision))]
    128 (some 128)

/-- The launch of `ccmaForceKernel` in iteration `i` of the staged loop. -/
def ccmaForceLaunch (c : Constraints) (constrainVelocities : Bool) (flag : DeviceBuffer)
    (size i : Nat) : Event :=
  let ccmaForceKernel :=
    if constrainVelocities then Kernel.ccmaVelForceKernel else Kernel.ccmaPosForceKernel
  Event.execute ccmaForceKernel
    [(6, Arg.buffer flag), (7, Arg.tol (tolArg c.precision)), (8, Arg.int i)] size none

/-- The launch of `ccmaMultiplyKernel` in iteration `i`. -/
def ccmaMultiplyLaunch (size i : Nat) : Event :=
  Event.execute Kernel.ccmaMultiplyKernel [(5, Arg.int i)] size none

/-- The launch of `ccmaUpdateKernel` in iteration `i`. -/
def ccmaUpdateLaunch (c : Constraints) (constrainVelocities : Bool) (i : Nat) : Event :=
  Event.execute Kernel.ccmaUpdateKernel
    [(4, Arg.buffer (if constrainVelocities then DeviceBuffer.velm else DeviceBuffer.posDelta)),
      (9, Arg.int i)] c.numAtoms none

namespace CudaIntegrationUtilities

/-- The loop `for (int i = 0; i < 150; i++)` of the staged strategy (lines
173-187), from iteration `i` on.  `fuel` bounds the number of iterations. -/
def stagedLoop (c : Constraints) (dev : Device) (constrainVelocities : Bool) (size : Nat) :
    Nat → Nat → Outcome
  | 0, _ => ⟨[], none⟩
  | fuel + 1, i =>
    if i < 150 then
      let force := ccmaForceLaunch c constrainVelocities .ccmaConvergedDeviceMemory size i
      let multiply := ccmaMultiplyLaunch size i
      let update := ccmaUpdateLaunch c constrainVelocities i
      if (i + 1) % 4 = 0 then
        if dev.recordStatus i ≠ CUDA_SUCCESS then
          ⟨[force, .eventRecord, .eventRecord, .eventRecord],
            some (checkResultMessage dev (dev.recordAgain i 1) (dev.recordAgain i 2)
              "Error recording event for CCMA" 177)⟩
        else if dev.synchronizeStatus i ≠ CUDA_SUCCESS then
          ⟨[force, .eventRecord, multiply, update, .eventSynchronize, .eventSynchronize,
              .eventSynchronize],
            some (checkResultMessage dev (dev.synchronizeAgain i 1) (dev.synchronizeAgain i 2)
              "Error synchronizing on event for CCMA" 183)⟩
        else if dev.converged i ≠ 0 then
          ⟨[force, .eventRecord, multiply, update, .eventSynchronize, .readConverged i], none⟩
        else
          Outcome.after
            [force, .eventRecord, multiply, update, .eventSynchronize, .readConverged i]
            (stagedLoop c dev constrainVelocities size fuel (i + 1))
      else
        Outcome.after [force, multiply, update]
          (stagedLoop c dev constrainVelocities size fuel (i + 1))
    else ⟨[], none⟩

/-- The CCMA part of `applyConstraintsImpl` (lines 124-189). -/
def ccmaPart (c : Constraints) (dev : Device) (constrainVelocities : Bool) : Outcome :=
  match c.ccmaConstraintAtoms with
  | some size =>
    if size ≤ 1024 then ⟨[ccmaFullLaunch c constrainVelocities], none⟩
    else
      Outcome.after [Event.execute Kernel.ccmaDirectionsKernel [] size none]
        (stagedLoop c dev constrainVelocities size 150 0)
  | none => ⟨[], none⟩

/-- The function `CudaIntegrationUtilities::applyConstraintsImpl`. -/
def applyConstraintsImpl (c : Constraints) (dev : Device) (constrainVelocities : Bool) :
    Outcome :=
  Outcome.after (settleLaunch c constrainVelocities ++ shakeLaunch c constrainVelocities)
    (ccmaPart c dev constrainVelocities)

/-- The loop `for (int i = numVsiteStages-1; i >= 0; i--)` (lines 194-198),
from stage `i` on. -/
def vsiteLoop (numVsites : Nat) : Nat → Int → List Event
  | 0, _ => []
  | fuel + 1, i =>
    if i ≥ 0 then
      Event.execute Kernel.vsiteForceKernel
          [(2, Arg.buffer .longForceBuffer), (15, Arg.int i)] numVsites none ::
        vsiteLoop numVsites fuel (i - 1)
    else []

/-- The function `CudaIntegrationUtilities::distributeForcesFromVirtualSites`. -/
def distributeForcesFromVirtualSites (numVsiteStages : Int) (numVsites : Nat) : List Event :=
  vsiteLoop numVsites numVsiteStages.toNat (numVsiteStages - 1)

end CudaIntegrationUtilities

namespace OpenCLIntegrationUtilities

/-- The loop `for (int i = 0; i < 150; i++)` of the staged strategy (lines
160-184), from iteration `i` on; `ccmaUseDirectBuffer` selects how the flag is
fetched.  No call in this loop has its status tested by the source. -/
def stagedLoop (c : Constraints) (dev : Device) (ccmaUseDirectBuffer constrainVelocities : Bool)
    (size : Nat) : Nat → Nat → Outcome
  | 0, _ => ⟨[], none⟩
  | fuel + 1, i =>
    if i < 150 then
      let force := ccmaForceLaunch c constrainVelocities .ccmaConvergedHostBuffer size i
      let multiply := ccmaMultiplyLaunch size i
      let update := ccmaUpdateLaunch c constrainVelocities i
      if (i + 1) % 4 = 0 then
        let evs :=
          if ccmaUseDirectBuffer then
            [force, multiply, update, .mapConvergedBuffer, .readConverged i]
          else [force, .enqueueReadBuffer, multiply, update, .eventWait, .readConverged i]
        if dev.converged i ≠ 0 then ⟨evs, none⟩
        else
          Outcome.after evs
            (stagedLoop c dev ccmaUseDirectBuffer constrainVelocities size fuel (i + 1))
      else
        Outcome.after [force, multiply, update]
          (stagedLoop c dev ccmaUseDirectBuffer constrainVelocities size fuel (i + 1))
    else ⟨[], none⟩

/-- The CCMA part of `applyConstraintsImpl` (lines 106-186). -/
def ccmaPart (c : Constraints) (dev : Device) (ccmaUseDirectBuffer constrainVelocities : Bool) :
    Outcome :=
  match c.ccmaConstraintAtoms with
  | some size =>
    if size ≤ 1024 then ⟨[ccmaFullLaunch c constrainVelocities], none⟩
    else
      Outcome.after [Event.execute Kernel.ccmaDirectionsKernel [] size none]
        (stagedLoop c dev ccmaUseDirectBuffer constrainVelocities size 150 0)
  | none => ⟨[], none⟩

/-- The function `OpenCLIntegrationUtilities::applyConstraintsImpl`. -/
def applyConstraintsImpl (c : Constraints) (dev : Device)
    (ccmaUseDirectBuffer constrainVelocities : Bool) : Outcome :=
  Outcome.after (settleLaunch c constrainVelocities ++ shakeLaunch c constrainVelocities)
    (ccmaPart c dev ccmaUseDirectBuffer constrainVelocities)

/-- The loop `for (int i = numVsiteStages-1; i >= 0; i--)` (lines 190-197),
from stage `i` on. -/
def vsiteLoop (numVsites numAtoms : Nat) : Nat → Int → List Event
  | 0, _ => []
  | fuel + 1, i =>
    if i ≥ 0 then
      Event.execute Kernel.vsiteForceKernel
          [(2, Arg.buffer .longForceBuffer), (15, Arg.int i)] numVsites none ::
        Event.execute Kernel.vsiteSaveForcesKernel
          [(0, Arg.buffer .longForceBuffer), (1, Arg.buffer .forceBuffers)] numAtoms none ::
        vsiteLoop numVsites numAtoms fuel (i - 1)
    else []

/-- The function `OpenCLIntegrationUtilities::distributeForcesFromVirtualSites`. -/
def distributeForcesFromVirtualSites (numVsiteStages : Int) (numVsites numAtoms : Nat) :
    List Event :=
  vsiteLoop numVsites numAtoms numVsiteStages.toNat (numVsiteStages - 1)

end OpenCLIntegrationUtilities

/-- The stage argument (slot 15) of a launch of `vsiteForceKernel`. -/
def Event.vsiteStage : Event → Option Int
  | .execute Kernel.vsiteForceKernel [(2, _), (15, Arg.int i)] _ _ => some i
  | _ => none

/-- The stage arguments of the launches of `vsiteForceKernel` in a trace, in
launch order. -/
def vsiteStages (trace : List Event) : List Int :=
  trace.filterMap Event.vsiteStage

/-- The kernel launches of a trace, in order. -/
def kernelLaunches (trace : List Event) : List Event :=
  trace.filter Event.isExecute

/-- The three launches of iteration `i` of the staged loop. -/
def iterationLaunches (c : Constraints) (constrainVelocities : Bool) (flag : DeviceBuffer)
    (size i : Nat) : List Event :=
  [ccmaForceLaunch c constrainVelocities flag size i, ccmaMultiplyLaunch size i,
    ccmaUpdateLaunch c constrainVelocities i]

/-- The iteration in which an event tests the convergence flag. -/
def Event.flagRead : Event → Option Nat
  | .readConverged i => some i
  | _ => none

/-- The iterations in which the host tested the convergence flag, in order. -/
def flagReads (trace : List Event) : List Nat :=
  trace.filterMap Event.flagRead

/-- The number of iterations of the staged loop a trace contains: its launches
of `ccmaUpdateKernel`, the last kernel of an iteration. -/
def iterationsDone (trace : List Event) : Nat :=
  (trace.filter (Event.launches Kernel.ccmaUpdateKernel)).length

/-- A device on which every call succeeds and the flag reads `converged i` in
iteration `i`. -/
def okDevice (converged : Nat → Int) : Device :=
  { recordStatus := fun _ => CUDA_SUCCESS
    synchronizeStatus := fun _ => CUDA_SUCCESS
    recordAgain := fun _ _ => CUDA_SUCCESS
    synchronizeAgain := fun _ _ => CUDA_SUCCESS
    converged := converged
    getErrorString := fun _ => "CUDA_SUCCESS"
    file := "CudaIntegrationUtilities.cpp" }

/-- A system whose only constraints are `size` CCMA constraints. -/
def ccmaOnly (precision : PrecisionLevel) (size numAtoms : Nat) : Constraints :=
  { precision := precision
    settleAtoms := none
    shakeAtoms := none
    ccmaConstraintAtoms := some size
    numAtoms := numAtoms }

/-- The launches of either CCMA force kernel in a trace. -/
def forceLaunches (trace : List Event) : List Event :=
  trace.filter (fun e =>
    e.launches Kernel.ccmaVelForceKernel || e.launches Kernel.ccmaPosForceKernel)

/-- The launch of `ccmaDirectionsKernel`. -/
def ccmaDirectionsLaunch (size : Nat) : Event :=
  Event.execute Kernel.ccmaDirectionsKernel [] size none

/-- Every operation of a complete iteration `i` of the CUDA staged loop. -/
def CudaIntegrationUtilities.iterationEvents (c : Constraints) (constrainVelocities : Bool)
    (size i : Nat) : List Event :=
  if (i + 1) % 4 = 0 then
    [ccmaForceLaunch c constrainVelocities .ccmaConvergedDeviceMemory size i, .eventRecord,
      ccmaMultiplyLaunch size i, ccmaUpdateLaunch c constrainVelocities i, .eventSynchronize,
      .readConverged i]
  else
    [ccmaForceLaunch c constrainVelocities .ccmaConvergedDeviceMemory size i,
      ccmaMultiplyLaunch size i, ccmaUpdateLaunch c constrainVelocities i]

/-- Every operation of an iteration `i` of the OpenCL staged loop. -/
def OpenCLIntegrationUtilities.iterationEvents (c : Constraints)
    (ccmaUseDirectBuffer constrainVelocities : Bool) (size i : Nat) : List Event :=
  if (i + 1) % 4 = 0 then
    if ccmaUseDirectBuffer then
      [ccmaForceLaunch c constrainVelocities .ccmaConvergedHostBuffer size i,
        ccmaMultiplyLaunch size i, ccmaUpdateLaunch c constrainVelocities i,
        .mapConvergedBuffer, .readConverged i]
    else
      [ccmaForceLaunch c constrainVelocities .ccmaConvergedHostBuffer size i,
        .enqueueReadBuffer, ccmaMultiplyLaunch size i, ccmaUpdateLaunch c constrainVelocities i,
        .eventWait, .readConverged i]
  else
    [ccmaForceLaunch c constrainVelocities .ccmaConvergedHostBuffer size i,
      ccmaMultiplyLaunch size i, ccmaUpdateLaunch c constrainVelocities i]

/-- The launch sequence of the staged strategy as the spec words it: the
direction kernel once, then `k` iterations, `1 ≤ k ≤ 150`, each launching the
force, the multiply and the update kernel in that order with the iteration
index `i = 0, ..., k - 1`. -/
def StagedLaunchSequence (c : Constraints) (constrainVelocities : Bool) (flag : DeviceBuffer)
    (size : Nat) (launches : List Event) : Prop :=
  ∃ k, 1 ≤ k ∧ k ≤ 150 ∧
    launches = ccmaDirectionsLaunch size ::
      (List.range k).flatMap (iterationLaunches c constrainVelocities flag size)

/-- The convergence polling of the staged strategy as the spec words it: the
flag is read after the iterations 4, 8, 12, ... that were executed and after no
other; the number of iterations executed is the smallest multiple `m` of 4 in
`4, ..., 148` with a nonzero flag after iteration `m` (read in the iteration of
index `m - 1`), or 150 when there is none. -/
def StagedPolling (converged : Nat → Int) (trace : List Event) : Prop :=
  flagReads trace = (List.range (iterationsDone trace)).filter (fun i => (i + 1) % 4 = 0) ∧
  ((∃ m, m % 4 = 0 ∧ 4 ≤ m ∧ m ≤ 148 ∧ converged (m - 1) ≠ 0 ∧
      (∀ m', m' % 4 = 0 → 4 ≤ m' → m' < m → converged (m' - 1) = 0) ∧
      iterationsDone trace = m) ∨
    ((∀ m, m % 4 = 0 → 4 ≤ m → m ≤ 148 → converged (m - 1) = 0) ∧ iterationsDone trace = 150))

/-- A device on which every call of `cuEventRecord` in iteration `i` returns
the status `status` and every other call succeeds; the flag always reads 0. -/
def recordFailure (i : Nat) (status : Int) : Device :=
  { okDevice (fun _ => 0) with
    recordStatus := fun j => if j = i then status else CUDA_SUCCESS
    recordAgain := fun j _ => if j = i then status else CUDA_SUCCESS
    getErrorString := fun r => if r = CUDA_SUCCESS then "no error" else "an illegal memory access was encountered" }

/-- A device on which every call of `cuEventSynchronize` in iteration `i`
returns the status `status` and every other call succeeds; the flag always
reads 0. -/
def synchronizeFailure (i : Nat) (status : Int) : Device :=
  { okDevice (fun _ => 0) with
    synchronizeStatus := fun j => if j = i then status else CUDA_SUCCESS
    synchronizeAgain := fun j _ => if j = i then status else CUDA_SUCCESS
    getErrorString := fun r => if r = CUDA_SUCCESS then "no error" else "an illegal memory access was encountered" }

/-- A device on which `cuEventRecord` returns `status` in iteration `i` when the
host calls it, and `CUDA_SUCCESS` when `CHECK_RESULT2` calls it again for the
message; every other call succeeds and the flag always reads 0. -/
def transientRecordFailure (i : Nat) (status : Int) : Device :=
  { okDevice (fun _ => 0) with
    recordStatus := fun j => if j = i then status else CUDA_SUCCESS
    getErrorString := fun r =>
      if r = CUDA_SUCCESS then "no error" else "an illegal memory access was encountered" }

/-- One particle with inverse mass 5 and velocity `(1, 1, 2)`, on which the
force `(1, 2, 0)` acts (in units of `2^-32`, with `paddedNumAtoms = 32`). -/
def pushedParticle : Buffers :=
  { freeParticle ⟨1, 3⟩ ⟨1, 2, 3, 7⟩ ⟨1, 1, 2, 5⟩ with
    force := fun k => if k = 0 then 4294967296 else if k = 32 then 8589934592 else 0 }

/-! ## Further definitions for the step-size kernel -/

/-- The error term of one particle as the spec words it: the squared force
components, converted from fixed point by the factor `2^-32`, summed and
multiplied by the squared inverse mass. -/
def particleError (paddedNumAtoms : Nat) (b : Buffers) (index : Nat) : ℚ :=
  (((b.force index : ℚ) / 2 ^ 32) ^ 2 + ((b.force (index + paddedNumAtoms) : ℚ) / 2 ^ 32) ^ 2
    + ((b.force (index + 2 * paddedNumAtoms) : ℚ) / 2 ^ 32) ^ 2) * (b.velm index).w ^ 2

/-- The sum of the error terms of the particles `0, ..., numAtoms - 1`. -/
def errorSum (numAtoms paddedNumAtoms : Nat) (b : Buffers) : ℚ :=
  ∑ i ∈ Finset.range numAtoms, particleError paddedNumAtoms b i

/-- The particle indices thread `localId` handles in the accumulation loop of
`selectVerletStepSize` (line 145), in the order it handles them. -/
def threadIndices (localSize numAtoms localId : Nat) : List Nat :=
  forStride (fun index visited => visited ++ [index]) numAtoms localSize numAtoms localId []

/-- The indices of `error[]` accessed in one round of the tree reduction: a
thread whose guard holds accesses `error[LOCAL_ID]` and `error[LOCAL_ID+offset]`. -/
def roundAccesses (localSize offset : Nat) : List Nat :=
  (List.range localSize).flatMap (fun localId =>
    if localId + offset < localSize ∧ localId &&& (2 * offset - 1) = 0 then
      [localId, localId + offset]
    else [])

/-- The indices of `error[]` accessed in the reduction loop (lines 155-159). -/
def reduceAccesses (localSize : Nat) : Nat → Nat → List Nat
  | 0, _ => []
  | fuel + 1, offset =>
    if offset < localSize then
      roundAccesses localSize offset ++ reduceAccesses localSize fuel (offset * 2)
    else []

/-- Every index of the local array `error[256]` that `selectVerletStepSize`
accesses: the store `error[LOCAL_ID] = err` of each thread (line 150), the
accesses of the reduction loop, and the read of `error[0]` (line 161). -/
def errorAccesses (localSize : Nat) : List Nat :=
  List.range localSize ++ reduceAccesses localSize localSize 1 ++ [0]

/-- The function `BrookCalcKineticEnergyKernel::execute` (BrookKernels.cpp,
lines 306-312); `masses` is the vector stored by `initialize` and
`velData[i][k]` the velocity stream. -/
def BrookCalcKineticEnergyKernel.execute (masses : List ℚ) (velData : Nat → Nat → ℚ) : ℚ :=
  let energy := forStride (fun i energy =>
    energy + masses.getD i 0
      * (velData i 0 * velData i 0 + velData i 1 * velData i 1 + velData i 2 * velData i 2))
    masses.length 1 masses.length 0 0
  (1 / 2 : ℚ) * energy

/-- The velocity stream holding the velocities `vels`. -/
def velDataOf (vels : List (ℚ × ℚ × ℚ)) : Nat → Nat → ℚ :=
  fun i k =>
    match k with
    | 0 => (vels.getD i (0, 0, 0)).1
    | 1 => (vels.getD i (0, 0, 0)).2.1
    | _ => (vels.getD i (0, 0, 0)).2.2

/-- The kinetic energy `0.5 * sum_i m_i * (vx_i^2 + vy_i^2 + vz_i^2)` of
particles given by their masses and velocities. -/
def kineticEnergy (masses : List ℚ) (vels : List (ℚ × ℚ × ℚ)) : ℚ :=
  (1 / 2 : ℚ) * (List.zipWith (fun m v => m * (v.1 ^ 2 + v.2.1 ^ 2 + v.2.2 ^ 2)) masses vels).sum

/-! ## Reading a trace -/

/-- The value an event's launch was given in an argument slot. -/
def Event.arg (slot : Nat) : Event → Option Arg
  | .execute _ args _ _ => args.lookup slot
  | _ => none

/-- The slot in which a solver kernel receives the tolerance. -/
def toleranceSlot : Kernel → Option Nat
  | .settleVelKernel => some 1
  | .settlePosKernel => some 1
  | .shakeVelKernel => some 1
  | .shakePosKernel => some 1
  | .ccmaFullKernel => some 14
  | .ccmaVelForceKernel => some 7
  | .ccmaPosForceKernel => some 7
  | _ => none

/-- The width in bits the spec gives for the scalars of a precision mode, the
mixed mode passing the tolerance as a double. -/
def precisionBits : PrecisionLevel → Nat
  | .Double => 64
  | .Mixed => 64
  | .Single => 32
  | .F16 => 16

/-- Whether a kernel is the velocity variant of a solver kernel. -/
def Kernel.isVelocityVariant : Kernel → Bool
  | .settleVelKernel => true
  | .shakeVelKernel => true
  | .ccmaVelForceKernel => true
  | _ => false

/-- Whether a kernel is the position variant of a solver kernel. -/
def Kernel.isPositionVariant : Kernel → Bool
  | .settlePosKernel => true
  | .shakePosKernel => true
  | .ccmaPosForceKernel => true
  | _ => false

/-- Whether a kernel belongs to the staged CCMA strategy. -/
def Kernel.isStaged : Kernel → Bool
  | .ccmaDirectionsKernel => true
  | .ccmaVelForceKernel => true
  | .ccmaPosForceKernel => true
  | .ccmaMultiplyKernel => true
  | .ccmaUpdateKernel => true
  | _ => false

/-- The kernel an event launches. -/
def Event.kernel : Event → Option Kernel
  | .execute k _ _ _ => some k
  | _ => none

/-- An operation of the staged loop: a launch of the force, the multiply or
the update kernel with the arguments of some iteration, or one of the calls
that fetch the convergence flag. -/
def StagedEvent (c : Constraints) (constrainVelocities : Bool) (flag : DeviceBuffer)
    (size : Nat) (e : Event) : Prop :=
  (∃ i, e = ccmaForceLaunch c constrainVelocities flag size i) ∨
  (∃ i, e = ccmaMultiplyLaunch size i) ∨
  (∃ i, e = ccmaUpdateLaunch c constrainVelocities i) ∨
  e.kernel = none

/-- A system with SETTLE, SHAKE and CCMA constraints. -/
def allSolvers (precision : PrecisionLevel) (ccmaSize : Nat) : Constraints :=
  { precision := precision
    settleAtoms := some 30
    shakeAtoms := some 20
    ccmaConstraintAtoms := some ccmaSize
    numAtoms := 3000 }

/-- Two particles, the first massless, the second with inverse mass 2; forces,
velocities and deltas are nonzero everywhere (`paddedNumAtoms = 32`). -/
def frozenPair : Buffers :=
  { dt := ⟨1, 1 / 2⟩
    posq := fun _ => ⟨1, 2, 3, 4⟩
    posqCorrection := fun _ => ⟨0, 0, 0, 0⟩
    velm := fun i => if i = 0 then ⟨5, 6, 7, 0⟩ else ⟨5, 6, 7, 2⟩
    posDelta := fun _ => ⟨8, 9, 10, 11⟩
    force := fun _ => 4294967296 }

/-! ## Builds with inexact conversions -/

/-- A build without double-precision support whose single-precision reciprocal
is far off: `1.0f/(float) x` gives 3 for every `x`. -/
def crudeReciprocal : Arith :=
  { useMixedPrecision := false
    supportsDoublePrecision := false
    toFloat := fun x => x
    toReal := fun x => x
    recipFloat := fun _ => 3
    sqrt := ratSqrt }

/-- A mixed-precision build whose low-precision type holds the integers: the
conversion to `real` rounds down to the next integer. -/
def floorArith : Arith :=
  { useMixedPrecision := true
    supportsDoublePrecision := true
    toFloat := fun x => x
    toReal := fun x => (⌊x⌋ : ℚ)
    recipFloat := fun x => 1 / x
    sqrt := ratSqrt }

/-- A build with double-precision support whose cast `(float) x` rounds to the
nearest multiple of `2^-32`, the spacing of the single-precision numbers
between `2^-9` and `2^-8`. -/
def gridArith : Arith :=
  { useMixedPrecision := false
    supportsDoublePrecision := true
    toFloat := fun x => (⌊x * 4294967296 + 1 / 2⌋ : ℚ) / 4294967296
    toReal := fun x => x
    recipFloat := fun x => 1 / x
    sqrt := ratSqrt }

/-- A build with double-precision support whose cast `(float) x` gives 0 for
the values of magnitude below `2^-150`, as the conversion to single precision
does, and leaves every other value unchanged. -/
def underflowArith : Arith :=
  { useMixedPrecision := false
    supportsDoublePrecision := true
    toFloat := fun x => if -(1 / 2 ^ 150) < x ∧ x < 1 / 2 ^ 150 then 0 else x
    toReal := fun x => x
    recipFloat := fun x => 1 / x
    sqrt := ratSqrt }

/-- One particle at the origin with inverse mass 1, no correction and a stored
displacement of 1/2 in x. -/
def halfParticle : Buffers :=
  { dt := ⟨1, 1⟩
    posq := fun _ => ⟨0, 0, 0, 1⟩
    posqCorrection := fun _ => ⟨0, 0, 0, 0⟩
    velm := fun _ => ⟨0, 0, 0, 1⟩
    posDelta := fun _ => ⟨1 / 2, 0, 0, 0⟩
    force := fun _ => 0 }

/-! ## Comparing the launches of the two backends -/

/-- Whether an argument is one of the two buffers a force kernel writes the
convergence flag to (slot 6: `ccmaConvergedDeviceMemory` for CUDA,
`ccmaConvergedHostBuffer` for OpenCL). -/
def Arg.isFlagBuffer : Arg → Bool
  | .buffer .ccmaConvergedDeviceMemory => true
  | .buffer .ccmaConvergedHostBuffer => true
  | _ => false

/-- A launch with its flag buffer argument left out; every other argument, the
tolerance and the iteration index among them, is kept. -/
def Event.withoutFlagBuffer : Event → Event
  | .execute kernel args size block =>
    .execute kernel (args.filter (fun a => !a.2.isFlagBuffer)) size block
  | e => e

/-- The kernel launches of a trace, in order, each without its flag buffer
argument. -/
def solverLaunches (trace : List Event) : List Event :=
  (kernelLaunches trace).map Event.withoutFlagBuffer

/-- The solver group a kernel belongs to: 0 for SETTLE, 1 for SHAKE, 2 for CCMA
and 3 for the virtual-site kernels. -/
def Kernel.solverGroup : Kernel → Nat
  | .settleVelKernel => 0
  | .settlePosKernel => 0
  | .shakeVelKernel => 1
  | .shakePosKernel => 1
  | .ccmaVelForceKernel => 2
  | .ccmaPosForceKernel => 2
  | .ccmaFullKernel => 2
  | .ccmaDirectionsKernel => 2
  | .ccmaMultiplyKernel => 2
  | .ccmaUpdateKernel => 2
  | .vsiteForceKernel => 3
  | .vsiteSaveForcesKernel => 3

/-- The solver groups of the kernel launches of a trace, in launch order. -/
def launchGroups (trace : List Event) : List Nat :=
  trace.filterMap (fun e => e.kernel.map Kernel.solverGroup)

/-- The launches in a trace of the kernels of solver group `g`. -/
def groupLaunches (g : Nat) (trace : List Event) : List Event :=
  trace.filter (fun e => decide (e.kernel.map Kernel.solverGroup = some g))

/-! ## The Brook force field kernel: array helpers and scratch array -/

/-- The result of `allocateIntArray(length, width)` or
`allocateRealArray(length, width)`: `length` rows of `width` entries each.  An
entry is `none` until it is written. -/
structure RowArray (α : Type) where
  length : Nat
  width : Nat
  entry : Nat → Nat → Option α

/-- The functions `allocateIntArray` and `allocateRealArray` (lines 49-61). -/
def allocateArray (α : Type) (length width : Nat) : RowArray α :=
  ⟨length, width, fun _ _ => none⟩

/-- The store `array[i][j] = v`.  It is `none` when row `i` is not allocated or
`j` is not inside the row. -/
def RowArray.write {α : Type} (array : RowArray α) (i j : Nat) (v : α) : Option (RowArray α) :=
  if i < array.length ∧ j < array.width then
    some { array with entry := fun i2 j2 => if i2 = i ∧ j2 = j then some v else array.entry i2 j2 }
  else none

/-- The inner loop `for (int j = 0; j < vec[i].size(); ++j) array[i][j] = vec[i][j]`
of `copyToArray`, run on an array that is `none` once a store went outside the
allocated rows.  `convert` is the conversion of the assignment. -/
def copyRow {α β : Type} (convert : β → α) (row : List β) (i : Nat) (array : Option (RowArray α)) :
    Option (RowArray α) :=
  forStride
    (fun j st => st.bind (fun a => (row.get? j).bind (fun v => a.write i j (convert v))))
    row.length 1 row.length 0 array

/-- The two overloads of `copyToArray` (lines 63-81).  `convert` is the
conversion of the assignment `array[i][j] = vec[i][j]`: none for the overload on
`int`, the conversion from `double` to `RealOpenMM` for the other.  The result is
`none` when a store goes outside the allocated rows. -/
def copyToArray {α β : Type} (convert : β → α) (vec : List (List β)) : Option (RowArray α) :=
  match vec with
  | [] => some ⟨0, 0, fun _ _ => none⟩
  | first :: _ =>
    forStride (fun i st => copyRow convert (vec.getD i []) i st) vec.length 1 vec.length 0
      (some (allocateArray α vec.length first.length))

/-- The term counts `BrookCalcStandardMMForceFieldKernel::initialize` stores
(lines 116-121): the sizes of the vectors it is given. -/
structure ForceFieldCounts where
  numAtoms : Int
  numBonds : Int
  numAngles : Int
  numPeriodicTorsions : Int
  numRBTorsions : Int
  num14 : Int

/-- The variable `arraySize` of `executeEnergy` (line 181), the length of
`energyArray`. -/
def executeEnergyArraySize (k : ForceFieldCounts) : Int :=
  max (max (max (max k.numAtoms k.numBonds) k.numAngles) k.numPeriodicTorsions) k.numRBTorsions

/-- The numbers of terms of the calls of `calculateForce` in `executeEnergy`
that are handed `energyArray` (lines 187, 191, 195, 199 and 206), in order. -/
def executeEnergyTermCounts (k : ForceFieldCounts) : List Int :=
  [k.numBonds, k.numAngles, k.numPeriodicTorsions, k.numRBTorsions, k.num14]

/-- The dispatch of the solver groups as the claim words it: the launches come
in the order SETTLE, SHAKE, CCMA; the SETTLE kernel and the SHAKE kernel are
launched exactly once, with the group size as work size, when their atom array
is initialized and not at all otherwise; a CCMA kernel is launched exactly when
the CCMA array is initialized; with no array initialized nothing is issued. -/
def DispatchOrder (c : Constraints) (constrainVelocities : Bool) (trace : List Event) : Prop :=
  (launchGroups trace).Pairwise (fun g h => g ≤ h) ∧
  groupLaunches 0 trace
    = (match c.settleAtoms with
      | some size =>
        [Event.execute
          (if constrainVelocities then Kernel.settleVelKernel else Kernel.settlePosKernel)
          [(1, Arg.tol (tolArg c.precision))] size none]
      | none => []) ∧
  groupLaunches 1 trace
    = (match c.shakeAtoms with
      | some size =>
        [Event.execute
          (if constrainVelocities then Kernel.shakeVelKernel else Kernel.shakePosKernel)
          [(1, Arg.tol (tolArg c.precision))] size none]
      | none => []) ∧
  (groupLaunches 2 trace ≠ [] ↔ c.ccmaConstraintAtoms ≠ none) ∧
  (c.settleAtoms = none → c.shakeAtoms = none → c.ccmaConstraintAtoms = none → trace = [])

/-! ## Step-size selection: the limiting stage -/

theorem limitStepSize_le_max (A : Arith) (c old max : ℚ) :
    limitStepSize A c old max ≤ max := by
  unfold limitStepSize
  simp only
  split_ifs <;> first | exact le_refl _ | (apply le_of_not_lt; assumption)

/-- The three rules of `limitStepSize`, one after the other: the growth cap
with its casts, the hysteresis rule, the ceiling. -/
theorem limitStepSize_stages (A : Arith) (c old max : ℚ) :
    limitStepSize A c old max
      = (fun x : ℚ => if x > max then max else x)
          ((fun x : ℚ => if x > old ∧ x < (11 / 10 : ℚ) * old then old else x)
            (if old > 0 then min (A.toFloat c) (A.toFloat (old * 2)) else c)) := by
  unfold limitStepSize
  rfl

theorem hysteresis_le (old x : ℚ) :
    (if x > old ∧ x < (11 / 10 : ℚ) * old then old else x) ≤ x := by
  split_ifs with h
  · exact le_of_lt h.1
  · exact le_refl _

theorem ceiling_le (max x : ℚ) : (if x > max then max else x) ≤ x := by
  split_ifs with h
  · exact le_of_lt h
  · exact le_refl _

theorem hysteresis_mono (old x y : ℚ) (hxy : x ≤ y) :
    (if x > old ∧ x < (11 / 10 : ℚ) * old then old else x)
      ≤ (if y > old ∧ y < (11 / 10 : ℚ) * old then old else y) := by
  by_cases hx : x > old ∧ x < (11 / 10 : ℚ) * old
  · rw [if_pos hx]
    by_cases hy : y > old ∧ y < (11 / 10 : ℚ) * old
    · rw [if_pos hy]
    · rw [if_neg hy]
      exact le_trans (le_of_lt hx.1) hxy
  · rw [if_neg hx]
    by_cases hy : y > old ∧ y < (11 / 10 : ℚ) * old
    · rw [if_pos hy]
      by_contra hlt
      exact hx ⟨not_le.mp hlt, lt_of_le_of_lt hxy hy.2⟩
    · rw [if_neg hy]
      exact hxy

theorem ceiling_mono (max x y : ℚ) (hxy : x ≤ y) :
    (if x > max then max else x) ≤ (if y > max then max else y) := by
  by_cases hx : x > max
  · rw [if_pos hx, if_pos (lt_of_lt_of_le hx hxy)]
  · rw [if_neg hx]
    by_cases hy : y > max
    · rw [if_pos hy]
      exact not_lt.mp hx
    · rw [if_neg hy]
      exact hxy

/-- The value written when the growth-limited candidate `g` falls inside the
hysteresis band. -/
theorem limitStepSize_in_band (A : Arith) (c old max : ℚ) (hold : 0 < old) (hmax : old ≤ max)
    (hlo : old < min (A.toFloat c) (A.toFloat (old * 2)))
    (hhi : min (A.toFloat c) (A.toFloat (old * 2)) < (11 / 10 : ℚ) * old) :
    limitStepSize A c old max = old := by
  rw [limitStepSize_stages]
  simp only [gt_iff_lt, hold, if_true, hlo, hhi, and_self]
  rw [if_neg (not_lt.mpr hmax)]

theorem limitStepSize_le_growth (A : Arith) (c old max : ℚ) (hold : 0 < old) :
    limitStepSize A c old max ≤ min (A.toFloat c) (A.toFloat (old * 2)) := by
  rw [limitStepSize_stages]
  simp only [gt_iff_lt, hold, if_true]
  exact le_trans (ceiling_le max _) (hysteresis_le old _)

theorem limitStepSize_at_cap (A : Arith) (c old max : ℚ) (hold : 0 < old)
    (h2 : A.toFloat (old * 2) = old * 2) (hc : 2 * old ≤ A.toFloat c) :
    limitStepSize A c old max = min (2 * old) max := by
  have hmin : min (A.toFloat c) (old * 2) = old * 2 := min_eq_right (by linarith)
  have hnot : ¬ (old * 2 > old ∧ old * 2 < (11 / 10 : ℚ) * old) := by
    rintro ⟨-, h⟩
    linarith
  rw [limitStepSize_stages]
  simp only [gt_iff_lt, hold, if_true, h2, hmin]
  rw [if_neg hnot]
  by_cases h : max < old * 2
  · rw [if_pos h, min_eq_right (by linarith)]
  · rw [if_neg h, min_eq_left (by linarith)]
    ring

theorem limitStepSize_le_cast (A : Arith) (c old max : ℚ) :
    limitStepSize A c old max ≤ (if old > 0 then A.toFloat c else c) := by
  rw [limitStepSize_stages]
  refine le_trans (ceiling_le max _) (le_trans (hysteresis_le old _) ?_)
  split_ifs
  · exact min_le_left _ _
  · exact le_refl _

theorem limitStepSize_mono (A : Arith) (hmono : ∀ x y, x ≤ y → A.toFloat x ≤ A.toFloat y)
    (c1 c2 old max : ℚ) (hc : c1 ≤ c2) :
    limitStepSize A c1 old max ≤ limitStepSize A c2 old max := by
  rw [limitStepSize_stages, limitStepSize_stages]
  apply ceiling_mono
  apply hysteresis_mono
  split_ifs
  · exact min_le_min (hmono _ _ hc) (le_refl _)
  · exact hc

theorem limitStepSize_pos (A : Arith) (c old max : ℚ) (hc : 0 < c) (hold : 0 ≤ old)
    (hmax : 0 < max)
    (hcast : 0 < old → 0 < A.toFloat c ∧ 0 < A.toFloat (old * 2)) :
    0 < limitStepSize A c old max := by
  rw [limitStepSize_stages]
  have hG : 0 < (if old > 0 then min (A.toFloat c) (A.toFloat (old * 2)) else c) := by
    split_ifs with h
    · exact lt_min (hcast h).1 (hcast h).2
    · exact hc
  have hH : ∀ x : ℚ, 0 < x → 0 < (if x > old ∧ x < (11 / 10 : ℚ) * old then old else x) := by
    intro x hx
    split_ifs with h
    · by_contra hneg
      have h0 : old = 0 := le_antisymm (not_lt.mp hneg) hold
      rw [h0] at h
      linarith [h.1, h.2]
    · exact hx
  have hM : ∀ x : ℚ, 0 < x → 0 < (if x > max then max else x) := by
    intro x hx
    split_ifs
    · exact hmax
    · exact hx
  exact hM _ (hH _ hG)

/-! ## The exact square root and the one-particle system -/

theorem ratSqrt_mul_self (r : ℚ) (hr : 0 ≤ r) : ratSqrt (r * r) = r := by
  have hnum : 0 ≤ r.num := Rat.num_nonneg.mpr hr
  obtain ⟨n, hn⟩ := Int.eq_ofNat_of_zero_le hnum
  unfold ratSqrt
  rw [Rat.mul_self_num, Rat.mul_self_den, hn]
  have h1 : ((n : ℤ) * (n : ℤ)).toNat = n * n := by
    rw [← Int.natCast_mul, Int.toNat_natCast]
  rw [h1, Nat.sqrt_eq, Nat.sqrt_eq]
  have h2 := Rat.num_div_den r
  rw [hn, Int.cast_natCast] at h2
  exact h2

theorem reducedError_unitBuffers (dt : Vec2) : reducedError 1 1 1 (unitBuffers dt) 0 = 3 := by
  simp [reducedError, reduceLoop, initialError, runThreads, threadError, forStride, errorTerm,
    forceScale, unitBuffers, store, List.range_succ]
  norm_num

theorem rawStepSize_unitBuffers (m d : Bool) (dt : Vec2) (c : ℚ) (hc : 0 ≤ c) :
    rawStepSize (exactArith m d) 1 1 1 (c * c) (unitBuffers dt) = c := by
  have h1 : ratSqrt 1 = 1 := by
    have := ratSqrt_mul_self 1 (by norm_num)
    simpa using this
  unfold rawStepSize totalError meanSquareError
  rw [reducedError_unitBuffers]
  simp only [exactArith]
  norm_num
  rw [h1]
  simpa using ratSqrt_mul_self c hc

/-- The raw candidate depends on the arithmetic through `SQRT` only. -/
theorem rawStepSize_of_sqrt (A B : Arith) (h : A.sqrt = B.sqrt) (localSize numAtoms p : Nat)
    (errorTol : ℚ) (b : Buffers) :
    rawStepSize A localSize numAtoms p errorTol b = rawStepSize B localSize numAtoms p errorTol b := by
  unfold rawStepSize totalError
  rw [h]

theorem rawStepSize_unitBuffers_of_sqrt (A : Arith) (h : A.sqrt = ratSqrt) (dt : Vec2) (c : ℚ)
    (hc : 0 ≤ c) : rawStepSize A 1 1 1 (c * c) (unitBuffers dt) = c := by
  rw [rawStepSize_of_sqrt A (exactArith false true) h]
  exact rawStepSize_unitBuffers false true dt c hc

/-! ## Claims on `selectVerletStepSize` -/

/-- C1, as amended: step-size hysteresis.  For every build, every previous step
size `prev > 0` and every `maxStepSize ≥ prev`: when the candidate as the growth
limiter of line 165 leaves it, `min((float) c, (float)(2 * prev))`, is strictly
between `prev` and `1.1 * prev`, the kernel writes `prev` to `dt[0].y`.  In
particular, when the casts leave `c` and `2 * prev` unchanged, it does so for
every raw candidate `c` with `prev < c < 1.1 * prev`. -/
theorem selectVerletStepSize_hysteresis (A : Arith)
    (localSize numAtoms paddedNumAtoms : Nat) (maxStepSize errorTol : ℚ) (b : Buffers)
    (hprev : 0 < b.dt.y) (hmax : b.dt.y ≤ maxStepSize) :
    (b.dt.y < min (A.toFloat (rawStepSize A localSize numAtoms paddedNumAtoms errorTol b))
        (A.toFloat (b.dt.y * 2)) →
      min (A.toFloat (rawStepSize A localSize numAtoms paddedNumAtoms errorTol b))
        (A.toFloat (b.dt.y * 2)) < (11 / 10 : ℚ) * b.dt.y →
      (selectVerletStepSize A localSize numAtoms paddedNumAtoms maxStepSize errorTol b).dt.y
        = b.dt.y) ∧
    (A.toFloat (rawStepSize A localSize numAtoms paddedNumAtoms errorTol b)
        = rawStepSize A localSize numAtoms paddedNumAtoms errorTol b →
      A.toFloat (b.dt.y * 2) = b.dt.y * 2 →
      b.dt.y < rawStepSize A localSize numAtoms paddedNumAtoms errorTol b →
      rawStepSize A localSize numAtoms paddedNumAtoms errorTol b < (11 / 10 : ℚ) * b.dt.y →
      (selectVerletStepSize A localSize numAtoms paddedNumAtoms maxStepSize errorTol b).dt.y
        = b.dt.y) := by
  simp only [selectVerletStepSize]
  refine ⟨fun hlo hhi => limitStepSize_in_band A _ _ _ hprev hmax hlo hhi, ?_⟩
  intro hc h2 hlo hhi
  apply limitStepSize_in_band A _ _ _ hprev hmax
  · rw [hc, h2, min_eq_left (by linarith)]
    exact hlo
  · rw [hc, h2, min_eq_left (by linarith)]
    exact hhi

/-- Witness of C1: with exact casts, previous step size 0.001 and raw candidate
0.00105 (error tolerance `0.00105^2` on the one-particle system) give 0.001. -/
theorem selectVerletStepSize_hysteresis_witness :
    rawStepSize (exactArith false true) 1 1 1 ((21 / 20000) * (21 / 20000))
        (unitBuffers ⟨1 / 1000, 1 / 1000⟩) = 21 / 20000 ∧
    (selectVerletStepSize (exactArith false true) 1 1 1 (1 / 100) ((21 / 20000) * (21 / 20000))
        (unitBuffers ⟨1 / 1000, 1 / 1000⟩)).dt.y = 1 / 1000 := by
  have hraw := rawStepSize_unitBuffers false true ⟨1 / 1000, 1 / 1000⟩ (21 / 20000) (by norm_num)
  refine ⟨hraw, ?_⟩
  have h := (selectVerletStepSize_hysteresis (exactArith false true) 1 1 1 (1 / 100)
    ((21 / 20000) * (21 / 20000)) (unitBuffers ⟨1 / 1000, 1 / 1000⟩)
    (by norm_num [unitBuffers]) (by norm_num [unitBuffers])).2 rfl rfl
    (by rw [hraw]; norm_num [unitBuffers]) (by rw [hraw]; norm_num [unitBuffers])
  simpa [unitBuffers] using h

/-- Counterexample to C1 as stated: in a build with double-precision support
whose `(float)` cast rounds to the nearest multiple of `2^-32`, previous step
size `prev = 0.0025`, `maxStepSize = 0.01` and raw candidate
`c = prev * (1 + 2^-30)`, strictly between `prev` and `1.1 * prev`: the cast
takes `c` to `10737418 / 2^32 = 0.00249999994...`, below `prev`, the hysteresis
rule does not apply and the kernel writes that value, not `prev`. -/
theorem selectVerletStepSize_hysteresis_counterexample :
    rawStepSize gridArith 1 1 1
        ((1 / 400 * (1 + 1 / 2 ^ 30)) * (1 / 400 * (1 + 1 / 2 ^ 30)))
        (unitBuffers ⟨1 / 400, 1 / 400⟩) = 1 / 400 * (1 + 1 / 2 ^ 30) ∧
    (1 / 400 : ℚ) < 1 / 400 * (1 + 1 / 2 ^ 30) ∧
    (1 / 400 * (1 + 1 / 2 ^ 30) : ℚ) < 11 / 10 * (1 / 400) ∧
    (selectVerletStepSize gridArith 1 1 1 (1 / 100)
        ((1 / 400 * (1 + 1 / 2 ^ 30)) * (1 / 400 * (1 + 1 / 2 ^ 30)))
        (unitBuffers ⟨1 / 400, 1 / 400⟩)).dt.y = 10737418 / 4294967296 ∧
    (selectVerletStepSize gridArith 1 1 1 (1 / 100)
        ((1 / 400 * (1 + 1 / 2 ^ 30)) * (1 / 400 * (1 + 1 / 2 ^ 30)))
        (unitBuffers ⟨1 / 400, 1 / 400⟩)).dt.y ≠ (unitBuffers ⟨1 / 400, 1 / 400⟩).dt.y := by
  have hraw := rawStepSize_unitBuffers_of_sqrt gridArith rfl ⟨1 / 400, 1 / 400⟩
    (1 / 400 * (1 + 1 / 2 ^ 30)) (by norm_num)
  have hsel : (selectVerletStepSize gridArith 1 1 1 (1 / 100)
      ((1 / 400 * (1 + 1 / 2 ^ 30)) * (1 / 400 * (1 + 1 / 2 ^ 30)))
      (unitBuffers ⟨1 / 400, 1 / 400⟩)).dt.y = 10737418 / 4294967296 := by
    simp only [selectVerletStepSize, hraw]
    norm_num [limitStepSize, gridArith, unitBuffers]
  refine ⟨hraw, by norm_num, by norm_num, hsel, ?_⟩
  rw [hsel]
  norm_num [unitBuffers]

/-- C2, as amended: growth limiter.  For every build and every previous step
size `prev > 0` the value written to `dt[0].y` is at most `(float)(2 * prev)`,
the bound as line 165 casts it.  When the cast leaves `2 * prev` unchanged the
value is at most `2 * prev`, and it is exactly `min (2 * prev) maxStepSize` when
in addition the cast candidate `(float) c` is at least `2 * prev`, as it is for
a raw candidate `c > 2 * prev` that the cast leaves unchanged. -/
theorem selectVerletStepSize_growth (A : Arith)
    (localSize numAtoms paddedNumAtoms : Nat) (maxStepSize errorTol : ℚ) (b : Buffers)
    (hprev : 0 < b.dt.y) :
    (selectVerletStepSize A localSize numAtoms paddedNumAtoms maxStepSize errorTol b).dt.y
        ≤ A.toFloat (b.dt.y * 2) ∧
    (A.toFloat (b.dt.y * 2) = b.dt.y * 2 →
      (selectVerletStepSize A localSize numAtoms paddedNumAtoms maxStepSize errorTol b).dt.y
          ≤ 2 * b.dt.y ∧
      (2 * b.dt.y ≤ A.toFloat (rawStepSize A localSize numAtoms paddedNumAtoms errorTol b) →
        (selectVerletStepSize A localSize numAtoms paddedNumAtoms maxStepSize errorTol b).dt.y
          = min (2 * b.dt.y) maxStepSize) ∧
      (A.toFloat (rawStepSize A localSize numAtoms paddedNumAtoms errorTol b)
          = rawStepSize A localSize numAtoms paddedNumAtoms errorTol b →
        2 * b.dt.y < rawStepSize A localSize numAtoms paddedNumAtoms errorTol b →
        (selectVerletStepSize A localSize numAtoms paddedNumAtoms maxStepSize errorTol b).dt.y
          = min (2 * b.dt.y) maxStepSize)) := by
  simp only [selectVerletStepSize]
  have hle := limitStepSize_le_growth A
    (rawStepSize A localSize numAtoms paddedNumAtoms errorTol b) b.dt.y maxStepSize hprev
  refine ⟨le_trans hle (min_le_right _ _), ?_⟩
  intro h2
  refine ⟨?_, ?_, ?_⟩
  · have := le_trans hle (min_le_right _ _)
    rw [h2] at this
    linarith
  · intro hc
    exact limitStepSize_at_cap A _ _ _ hprev h2 hc
  · intro hc hlt
    exact limitStepSize_at_cap A _ _ _ hprev h2 (by rw [hc]; exact le_of_lt hlt)

/-- Witness of C2: with exact casts, previous step size 0.001, raw candidate
0.003 and `maxStepSize = 0.01` give the growth-limited value 0.002. -/
theorem selectVerletStepSize_growth_witness :
    rawStepSize (exactArith false true) 1 1 1 ((3 / 1000) * (3 / 1000))
        (unitBuffers ⟨1 / 1000, 1 / 1000⟩) = 3 / 1000 ∧
    (selectVerletStepSize (exactArith false true) 1 1 1 (1 / 100) ((3 / 1000) * (3 / 1000))
        (unitBuffers ⟨1 / 1000, 1 / 1000⟩)).dt.y = 2 / 1000 := by
  have hraw := rawStepSize_unitBuffers false true ⟨1 / 1000, 1 / 1000⟩ (3 / 1000) (by norm_num)
  refine ⟨hraw, ?_⟩
  have h := ((selectVerletStepSize_growth (exactArith false true) 1 1 1 (1 / 100)
    ((3 / 1000) * (3 / 1000)) (unitBuffers ⟨1 / 1000, 1 / 1000⟩)
    (by norm_num [unitBuffers])).2 rfl).2.2 rfl (by rw [hraw]; norm_num [unitBuffers])
  rw [h]
  norm_num [unitBuffers]

/-- Counterexample to C2 as stated: in a build with double-precision support
whose `(float)` cast rounds to the nearest multiple of `2^-32`, as single
precision does between `2^-9` and `2^-8`, previous step size 0.001, raw
candidate 0.003 and `maxStepSize = 0.01`: `(float) 0.002` is
`8589935 / 2^32 = 0.00200000009...`, and the kernel writes that value, which
exceeds `2 * prev` and is not `min (2 * prev) maxStepSize`. -/
theorem selectVerletStepSize_growth_counterexample :
    rawStepSize gridArith 1 1 1 ((3 / 1000) * (3 / 1000)) (unitBuffers ⟨1 / 1000, 1 / 1000⟩)
      = 3 / 1000 ∧
    (selectVerletStepSize gridArith 1 1 1 (1 / 100) ((3 / 1000) * (3 / 1000))
        (unitBuffers ⟨1 / 1000, 1 / 1000⟩)).dt.y = 8589935 / 4294967296 ∧
    ¬ (selectVerletStepSize gridArith 1 1 1 (1 / 100) ((3 / 1000) * (3 / 1000))
        (unitBuffers ⟨1 / 1000, 1 / 1000⟩)).dt.y ≤ 2 * (unitBuffers ⟨1 / 1000, 1 / 1000⟩).dt.y ∧
    (selectVerletStepSize gridArith 1 1 1 (1 / 100) ((3 / 1000) * (3 / 1000))
        (unitBuffers ⟨1 / 1000, 1 / 1000⟩)).dt.y
      ≠ min (2 * (unitBuffers ⟨1 / 1000, 1 / 1000⟩).dt.y) (1 / 100) := by
  have hraw := rawStepSize_unitBuffers_of_sqrt gridArith rfl ⟨1 / 1000, 1 / 1000⟩ (3 / 1000)
    (by norm_num)
  have hsel : (selectVerletStepSize gridArith 1 1 1 (1 / 100) ((3 / 1000) * (3 / 1000))
      (unitBuffers ⟨1 / 1000, 1 / 1000⟩)).dt.y = 8589935 / 4294967296 := by
    simp only [selectVerletStepSize, hraw]
    norm_num [limitStepSize, gridArith, unitBuffers]
  refine ⟨hraw, hsel, ?_, ?_⟩
  · rw [hsel]
    norm_num [unitBuffers]
  · rw [hsel]
    norm_num [unitBuffers]

/-- C3: hard ceiling.  For every arithmetic, work-group size, particle count,
forces, inverse masses, error tolerance and previous step size (zero and
negative ones included), the step size written to `dt[0].y` is at most
`maxStepSize`. -/
theorem selectVerletStepSize_le_max (A : Arith) (localSize numAtoms paddedNumAtoms : Nat)
    (maxStepSize errorTol : ℚ) (b : Buffers) :
    (selectVerletStepSize A localSize numAtoms paddedNumAtoms maxStepSize errorTol b).dt.y
      ≤ maxStepSize := by
  simp only [selectVerletStepSize]
  exact limitStepSize_le_max A _ _ _

/-! ## Strided loops and thread grids -/

theorem stride_succ_le {s i j : Nat} (h1 : j % s = i % s) (h2 : i < j) : i + s ≤ j := by
  by_contra hlt
  push_neg at hlt
  have h3 : (j - i) % s = 0 := Nat.sub_mod_eq_zero_of_mod_eq h1
  have h4 : (j - i) % s = j - i := Nat.mod_eq_of_lt (by omega)
  omega

/-- An invariant indexed by the set of particles already handled is carried
through one thread's strided loop: the loop handles exactly the particles
`j < bound` with `index ≤ j` in the thread's residue class. -/
theorem forStride_inv {σ : Type} (body : Nat → σ → σ) (bound stride gid : Nat)
    (Inv : Set Nat → σ → Prop)
    (hstep : ∀ D i s, i < bound → i ∉ D → Inv D s → Inv (insert i D) (body i s)) :
    ∀ (fuel index : Nat) (D : Set Nat) (s : σ), 0 < stride → index % stride = gid →
      bound ≤ index + fuel * stride → (∀ j ∈ D, j % stride = gid → j < index) → Inv D s →
      Inv (D ∪ {j | j < bound ∧ index ≤ j ∧ j % stride = gid})
        (forStride body bound stride fuel index s) := by
  intro fuel
  induction fuel with
  | zero =>
    intro index D s _ _ hfuel _ hinv
    have hset : D ∪ {j | j < bound ∧ index ≤ j ∧ j % stride = gid} = D := by
      ext j
      simp only [Set.mem_union, Set.mem_setOf_eq, or_iff_left_iff_imp]
      rintro ⟨h1, h2, -⟩
      omega
    rw [hset]
    exact hinv
  | succ fuel ih =>
    intro index D s hs hmod hfuel hD hinv
    simp only [forStride]
    split_ifs with hlt
    · have h1 := hstep D index s hlt (fun h => lt_irrefl _ (hD index h hmod)) hinv
      have hfuel' : bound ≤ index + stride + fuel * stride := by
        have : (fuel + 1) * stride = fuel * stride + stride := by ring
        omega
      have hD' : ∀ j ∈ insert index D, j % stride = gid → j < index + stride := by
        intro j hj hjm
        rcases hj with rfl | hj
        · omega
        · have := hD j hj hjm
          omega
      have h2 := ih (index + stride) (insert index D) (body index s) hs
        (by rw [Nat.add_mod_right]; exact hmod) hfuel' hD' h1
      have hset : insert index D ∪ {j | j < bound ∧ index + stride ≤ j ∧ j % stride = gid}
          = D ∪ {j | j < bound ∧ index ≤ j ∧ j % stride = gid} := by
        ext j
        simp only [Set.mem_union, Set.mem_insert_iff, Set.mem_setOf_eq]
        constructor
        · rintro ((rfl | h) | ⟨h1, h2, h3⟩)
          · exact Or.inr ⟨hlt, le_refl _, hmod⟩
          · exact Or.inl h
          · exact Or.inr ⟨h1, by omega, h3⟩
        · rintro (h | ⟨h1, h2, h3⟩)
          · exact Or.inl (Or.inr h)
          · rcases Nat.eq_or_lt_of_le h2 with heq | hlt2
            · exact Or.inl (Or.inl heq.symm)
            · exact Or.inr ⟨h1, stride_succ_le (by rw [h3, hmod]) hlt2, h3⟩
      rw [← hset]
      exact h2
    · have hset : D ∪ {j | j < bound ∧ index ≤ j ∧ j % stride = gid} = D := by
        ext j
        simp only [Set.mem_union, Set.mem_setOf_eq, or_iff_left_iff_imp]
        rintro ⟨h1, h2, -⟩
        omega
      rw [hset]
      exact hinv

/-- A grid of `size` threads, thread `gid` handling the particles below `bound`
in its residue class, handles every particle below `bound`. -/
theorem runThreads_inv {σ : Type} (thread : Nat → σ → σ) (bound size : Nat)
    (Inv : Set Nat → σ → Prop) (hsize : 0 < size)
    (hthread : ∀ gid D s, gid < size → (∀ j ∈ D, j % size ≠ gid) → Inv D s →
      Inv (D ∪ {j | j < bound ∧ j % size = gid}) (thread gid s))
    (s : σ) (hinit : Inv ∅ s) : Inv {j | j < bound} (runThreads thread size s) := by
  have key : ∀ g, g ≤ size →
      Inv {j | j < bound ∧ j % size < g} ((List.range g).foldl (fun st id => thread id st) s) := by
    intro g
    induction g with
    | zero =>
      intro _
      have hset : {j | j < bound ∧ j % size < 0} = (∅ : Set Nat) := by
        ext j
        simp
      rw [hset]
      exact hinit
    | succ g ih =>
      intro hg
      rw [List.range_succ, List.foldl_append]
      simp only [List.foldl_cons, List.foldl_nil]
      have h1 := hthread g _ _ (by omega) (fun j hj => by
        have : j % size < g := hj.2
        omega) (ih (by omega))
      have hset : {j | j < bound ∧ j % size < g} ∪ {j | j < bound ∧ j % size = g}
          = {j | j < bound ∧ j % size < g + 1} := by
        ext j
        simp only [Set.mem_union, Set.mem_setOf_eq]
        constructor
        · rintro (⟨h1, h2⟩ | ⟨h1, h2⟩)
          · exact ⟨h1, by omega⟩
          · exact ⟨h1, by omega⟩
        · rintro ⟨h1, h2⟩
          rcases Nat.lt_succ_iff_lt_or_eq.mp h2 with h | h
          · exact Or.inl ⟨h1, h⟩
          · exact Or.inr ⟨h1, h⟩
      rw [← hset]
      exact h1
  have hfin := key size (le_refl _)
  have hset : {j | j < bound ∧ j % size < size} = {j | j < bound} := by
    ext j
    simp only [Set.mem_setOf_eq, and_iff_left_iff_imp]
    intro _
    exact Nat.mod_lt _ hsize
  rw [hset] at hfin
  exact hfin

/-- The strided loop of thread `gid` started at `index = gid` with `bound`
units of fuel, as used by the kernels. -/
theorem strideThread_inv {σ : Type} (body : Nat → σ → σ) (bound size gid : Nat)
    (Inv : Set Nat → σ → Prop) (hgid : gid < size)
    (hstep : ∀ D i s, i < bound → i ∉ D → Inv D s → Inv (insert i D) (body i s))
    (D : Set Nat) (s : σ) (hD : ∀ j ∈ D, j % size ≠ gid) (hinv : Inv D s) :
    Inv (D ∪ {j | j < bound ∧ j % size = gid}) (forStride body bound size bound gid s) := by
  have hs : 0 < size := by omega
  have h := forStride_inv body bound size gid Inv hstep bound gid D s hs
    (Nat.mod_eq_of_lt hgid)
    (by
      have : bound * 1 ≤ bound * size := Nat.mul_le_mul_left _ hs
      omega)
    (fun j hj hjm => absurd hjm (hD j hj)) hinv
  have hset : {j | j < bound ∧ gid ≤ j ∧ j % size = gid} = {j | j < bound ∧ j % size = gid} := by
    ext j
    simp only [Set.mem_setOf_eq]
    constructor
    · rintro ⟨h1, -, h3⟩
      exact ⟨h1, h3⟩
    · rintro ⟨h1, h3⟩
      exact ⟨h1, by rw [← h3]; exact Nat.mod_le _ _, h3⟩
  rw [hset] at h
  exact h

/-! ## `integrateVerletPart1`: effect on each particle -/

theorem part1Body_frame (A : Arith) (p : Nat) (st : Vec2) (i : Nat) (s : Buffers) :
    (part1Body A p st i s).dt = s.dt ∧ (part1Body A p st i s).posq = s.posq ∧
    (part1Body A p st i s).posqCorrection = s.posqCorrection ∧
    (part1Body A p st i s).force = s.force ∧
    ∀ j, j ≠ i → (part1Body A p st i s).velm j = s.velm j ∧
      (part1Body A p st i s).posDelta j = s.posDelta j := by
  unfold part1Body
  simp only
  split_ifs with hw
  · refine ⟨rfl, rfl, rfl, rfl, fun j hj => ?_⟩
    simp [store, hj]
  · exact ⟨rfl, rfl, rfl, rfl, fun j _ => ⟨rfl, rfl⟩⟩

theorem part1Body_congr (A : Arith) (p : Nat) (st : Vec2) (i : Nat) (s b : Buffers)
    (hv : s.velm i = b.velm i) (hd : s.posDelta i = b.posDelta i) (hp : s.posq i = b.posq i)
    (hc : s.posqCorrection i = b.posqCorrection i) (hf : s.force = b.force) :
    (part1Body A p st i s).velm i = (part1Body A p st i b).velm i ∧
    (part1Body A p st i s).posDelta i = (part1Body A p st i b).posDelta i := by
  unfold part1Body loadPos
  simp only [hv, hp, hc, hf]
  split_ifs <;> simp [store, hv, hd]

/-- The effect of `integrateVerletPart1`: `dt`, `posq`, `posqCorrection` and
`force` are not written, every particle below `numAtoms` gets the velocity and
the delta the loop body computes for it from the initial buffers, and every other
entry is left as it was. -/
theorem integrateVerletPart1_spec (A : Arith) (globalSize numAtoms p : Nat) (b : Buffers)
    (hsize : 0 < globalSize) :
    (integrateVerletPart1 A globalSize numAtoms p b).dt = b.dt ∧
    (integrateVerletPart1 A globalSize numAtoms p b).posq = b.posq ∧
    (integrateVerletPart1 A globalSize numAtoms p b).posqCorrection = b.posqCorrection ∧
    (integrateVerletPart1 A globalSize numAtoms p b).force = b.force ∧
    ∀ j, (j < numAtoms →
        (integrateVerletPart1 A globalSize numAtoms p b).velm j
          = (part1Body A p b.dt j b).velm j ∧
        (integrateVerletPart1 A globalSize numAtoms p b).posDelta j
          = (part1Body A p b.dt j b).posDelta j) ∧
      (¬ j < numAtoms →
        (integrateVerletPart1 A globalSize numAtoms p b).velm j = b.velm j ∧
        (integrateVerletPart1 A globalSize numAtoms p b).posDelta j = b.posDelta j) := by
  let Inv : Set Nat → Buffers → Prop := fun D s =>
    s.dt = b.dt ∧ s.posq = b.posq ∧ s.posqCorrection = b.posqCorrection ∧ s.force = b.force ∧
    ∀ j, (j ∈ D → s.velm j = (part1Body A p b.dt j b).velm j ∧
        s.posDelta j = (part1Body A p b.dt j b).posDelta j) ∧
      (j ∉ D → s.velm j = b.velm j ∧ s.posDelta j = b.posDelta j)
  have hstep : ∀ D i s, i < numAtoms → i ∉ D → Inv D s →
      Inv (insert i D) (part1Body A p b.dt i s) := by
    rintro D i s - hi ⟨h1, h2, h3, h4, h5⟩
    obtain ⟨f1, f2, f3, f4, f5⟩ := part1Body_frame A p b.dt i s
    have hi5 := (h5 i).2 hi
    have hc := part1Body_congr A p b.dt i s b hi5.1 hi5.2 (by rw [h2]) (by rw [h3]) h4
    refine ⟨f1.trans h1, f2.trans h2, f3.trans h3, f4.trans h4, fun j => ⟨?_, ?_⟩⟩
    · intro hj
      by_cases hji : j = i
      · subst hji
        exact hc
      · have hjD : j ∈ D := by
          rcases hj with h | h
          · exact absurd h hji
          · exact h
        rw [(f5 j hji).1, (f5 j hji).2]
        exact (h5 j).1 hjD
    · intro hj
      have hji : j ≠ i := fun h => hj (by rw [h]; exact Set.mem_insert _ _)
      have hjD : j ∉ D := fun h => hj (Set.mem_insert_of_mem _ h)
      rw [(f5 j hji).1, (f5 j hji).2]
      exact (h5 j).2 hjD
  have hthread : ∀ gid D s, gid < globalSize → (∀ j ∈ D, j % globalSize ≠ gid) → Inv D s →
      Inv (D ∪ {j | j < numAtoms ∧ j % globalSize = gid})
        (part1Thread A globalSize numAtoms p gid s) := by
    intro gid D s hgid hD hinv
    unfold part1Thread
    rw [hinv.1]
    exact strideThread_inv _ numAtoms globalSize gid Inv hgid hstep D s hD hinv
  have hfin := runThreads_inv (part1Thread A globalSize numAtoms p) numAtoms globalSize Inv hsize
    hthread b ⟨rfl, rfl, rfl, rfl, fun j => ⟨fun h => absurd h (Set.not_mem_empty j),
      fun _ => ⟨rfl, rfl⟩⟩⟩
  exact hfin

/-! ## `integrateVerletPart2`: effect on each particle -/

theorem part2Body_stepSize (A : Arith) (st st' : Vec2) (h : st.y = st'.y) :
    part2Body A st = part2Body A st' := by
  funext i s
  unfold part2Body newVelocity correction oneOverDt
  simp only [h]

theorem part2Body_frame (A : Arith) (st : Vec2) (i : Nat) (s : Buffers) :
    (part2Body A st i s).dt = s.dt ∧ (part2Body A st i s).posDelta = s.posDelta ∧
    (part2Body A st i s).force = s.force ∧
    ∀ j, j ≠ i → (part2Body A st i s).velm j = s.velm j ∧
      (part2Body A st i s).posq j = s.posq j ∧
      (part2Body A st i s).posqCorrection j = s.posqCorrection j := by
  unfold part2Body
  simp only
  split_ifs with hw hm
  · refine ⟨rfl, rfl, rfl, fun j hj => ?_⟩
    simp [store, hj]
  · refine ⟨rfl, rfl, rfl, fun j hj => ?_⟩
    simp [store, hj]
  · exact ⟨rfl, rfl, rfl, fun j _ => ⟨rfl, rfl, rfl⟩⟩

theorem part2Body_congr (A : Arith) (st : Vec2) (i : Nat) (s b : Buffers)
    (hv : s.velm i = b.velm i) (hd : s.posDelta i = b.posDelta i) (hp : s.posq i = b.posq i)
    (hc : s.posqCorrection i = b.posqCorrection i) :
    (part2Body A st i s).velm i = (part2Body A st i b).velm i ∧
    (part2Body A st i s).posq i = (part2Body A st i b).posq i ∧
    (part2Body A st i s).posqCorrection i = (part2Body A st i b).posqCorrection i := by
  unfold part2Body loadPos
  simp only [hv, hp, hc, hd]
  split_ifs <;> simp [store, hv, hp, hc]

/-- The effect of `integrateVerletPart2` on the particle buffers: `dt[0].y`,
`posDelta` and `force` are not written, every particle below `numAtoms` gets the
position and the velocity the loop body computes for it from the initial buffers,
and every other entry is left as it was. -/
theorem integrateVerletPart2_spec (A : Arith) (globalSize numAtoms : Nat) (b : Buffers)
    (hsize : 0 < globalSize) :
    (integrateVerletPart2 A globalSize numAtoms b).dt.y = b.dt.y ∧
    (integrateVerletPart2 A globalSize numAtoms b).posDelta = b.posDelta ∧
    (integrateVerletPart2 A globalSize numAtoms b).force = b.force ∧
    ∀ j, (j < numAtoms →
        (integrateVerletPart2 A globalSize numAtoms b).velm j
          = (part2Body A b.dt j b).velm j ∧
        (integrateVerletPart2 A globalSize numAtoms b).posq j
          = (part2Body A b.dt j b).posq j ∧
        (integrateVerletPart2 A globalSize numAtoms b).posqCorrection j
          = (part2Body A b.dt j b).posqCorrection j) ∧
      (¬ j < numAtoms →
        (integrateVerletPart2 A globalSize numAtoms b).velm j = b.velm j ∧
        (integrateVerletPart2 A globalSize numAtoms b).posq j = b.posq j ∧
        (integrateVerletPart2 A globalSize numAtoms b).posqCorrection j
          = b.posqCorrection j) := by
  let Inv : Set Nat → Buffers → Prop := fun D s =>
    s.dt.y = b.dt.y ∧ s.posDelta = b.posDelta ∧ s.force = b.force ∧
    ∀ j, (j ∈ D → s.velm j = (part2Body A b.dt j b).velm j ∧
        s.posq j = (part2Body A b.dt j b).posq j ∧
        s.posqCorrection j = (part2Body A b.dt j b).posqCorrection j) ∧
      (j ∉ D → s.velm j = b.velm j ∧ s.posq j = b.posq j ∧
        s.posqCorrection j = b.posqCorrection j)
  have hstep : ∀ D i s, i < numAtoms → i ∉ D → Inv D s →
      Inv (insert i D) (part2Body A b.dt i s) := by
    rintro D i s - hi ⟨h1, h2, h3, h5⟩
    obtain ⟨f1, f2, f3, f5⟩ := part2Body_frame A b.dt i s
    have hi5 := (h5 i).2 hi
    have hc := part2Body_congr A b.dt i s b hi5.1 (by rw [h2]) hi5.2.1 hi5.2.2
    refine ⟨by rw [f1]; exact h1, f2.trans h2, f3.trans h3, fun j => ⟨?_, ?_⟩⟩
    · intro hj
      by_cases hji : j = i
      · subst hji
        exact hc
      · have hjD : j ∈ D := by
          rcases hj with h | h
          · exact absurd h hji
          · exact h
        rw [(f5 j hji).1, (f5 j hji).2.1, (f5 j hji).2.2]
        exact (h5 j).1 hjD
    · intro hj
      have hji : j ≠ i := fun h => hj (by rw [h]; exact Set.mem_insert _ _)
      have hjD : j ∉ D := fun h => hj (Set.mem_insert_of_mem _ h)
      rw [(f5 j hji).1, (f5 j hji).2.1, (f5 j hji).2.2]
      exact (h5 j).2 hjD
  have hthread : ∀ gid D s, gid < globalSize → (∀ j ∈ D, j % globalSize ≠ gid) → Inv D s →
      Inv (D ∪ {j | j < numAtoms ∧ j % globalSize = gid})
        (part2Thread A globalSize numAtoms gid s) := by
    intro gid D s hgid hD hinv
    unfold part2Thread
    simp only
    rw [part2Body_stepSize A s.dt b.dt hinv.1]
    apply strideThread_inv _ numAtoms globalSize gid Inv hgid hstep D _ hD
    obtain ⟨h1, h2, h3, h5⟩ := hinv
    split_ifs
    · exact ⟨h1, h2, h3, h5⟩
    · exact ⟨h1, h2, h3, h5⟩
  have hfin := runThreads_inv (part2Thread A globalSize numAtoms) numAtoms globalSize Inv hsize
    hthread b ⟨rfl, rfl, rfl, fun j => ⟨fun h => absurd h (Set.not_mem_empty j),
      fun _ => ⟨rfl, rfl, rfl⟩⟩⟩
  exact hfin

theorem exactArith_exact (m d : Bool) : (exactArith m d).Exact :=
  ⟨fun _ => rfl, fun _ => rfl, fun _ => rfl⟩

theorem newVelocity_of_ne_zero (A : Arith) (hfloat : ∀ x, A.toFloat x = x) (st : Vec2)
    (hdt : st.y ≠ 0) (delta : ℚ) : newVelocity A st delta = delta / st.y := by
  unfold newVelocity correction oneOverDt
  split_ifs
  · rw [hfloat]
    field_simp
  · field_simp
    ring

theorem newVelocity_of_exact (A : Arith) (hA : A.Exact) (st : Vec2) (delta : ℚ) :
    newVelocity A st delta = delta / st.y := by
  by_cases hdt : st.y = 0
  · unfold newVelocity correction oneOverDt
    simp [hA.1, hA.2.2, hdt]
  · exact newVelocity_of_ne_zero A hA.1 st hdt delta

theorem part1Body_velm_self (A : Arith) (p : Nat) (st : Vec2) (i : Nat) (s : Buffers)
    (hw : (s.velm i).w ≠ 0) :
    (part1Body A p st i s).velm i
      = ⟨(s.velm i).x + (1 / 2 : ℚ) * (st.x + st.y) / 4294967296 * (s.force i : ℚ) * (s.velm i).w,
          (s.velm i).y
            + (1 / 2 : ℚ) * (st.x + st.y) / 4294967296 * (s.force (i + p) : ℚ) * (s.velm i).w,
          (s.velm i).z
            + (1 / 2 : ℚ) * (st.x + st.y) / 4294967296 * (s.force (i + p * 2) : ℚ) * (s.velm i).w,
          (s.velm i).w⟩ := by
  unfold part1Body
  simp [hw, store]

theorem part1Body_posDelta_self (A : Arith) (p : Nat) (st : Vec2) (i : Nat) (s : Buffers)
    (hw : (s.velm i).w ≠ 0) :
    (part1Body A p st i s).posDelta i
      = ⟨((part1Body A p st i s).velm i).x * st.y, ((part1Body A p st i s).velm i).y * st.y,
          ((part1Body A p st i s).velm i).z * st.y, (s.posq i).w⟩ := by
  unfold part1Body loadPos
  by_cases hm : A.useMixedPrecision = true <;> simp [hw, store, hm]

theorem part2Body_velm_self (A : Arith) (st : Vec2) (i : Nat) (s : Buffers)
    (hw : (s.velm i).w ≠ 0) :
    (part2Body A st i s).velm i
      = ⟨newVelocity A st (s.posDelta i).x, newVelocity A st (s.posDelta i).y,
          newVelocity A st (s.posDelta i).z, (s.velm i).w⟩ := by
  unfold part2Body
  by_cases hm : A.useMixedPrecision = true <;> simp [hw, store, hm]

theorem part2Body_loadPos_self (A : Arith) (hreal : ∀ x, A.toReal x = x) (st : Vec2) (i : Nat)
    (s : Buffers) (hw : (s.velm i).w ≠ 0) :
    loadPos A (part2Body A st i s) i
      = ⟨(loadPos A s i).x + (s.posDelta i).x, (loadPos A s i).y + (s.posDelta i).y,
          (loadPos A s i).z + (s.posDelta i).z, (s.posq i).w⟩ := by
  unfold part2Body loadPos
  by_cases hm : A.useMixedPrecision = true <;> simp [hw, store, hm, hreal]

theorem part2Body_posq_w (A : Arith) (st : Vec2) (i : Nat) (s : Buffers)
    (hw : (s.velm i).w ≠ 0) :
    ((part2Body A st i s).posq i).w
      = if A.useMixedPrecision then A.toReal (s.posq i).w else (s.posq i).w := by
  unfold part2Body loadPos
  by_cases hm : A.useMixedPrecision = true <;> simp [hw, store, hm]

theorem loadPos_congr (A : Arith) (s b : Buffers) (i : Nat) (hp : s.posq i = b.posq i)
    (hc : s.posqCorrection i = b.posqCorrection i) : loadPos A s i = loadPos A b i := by
  unfold loadPos
  rw [hp, hc]

/-! ## Claims on the two-phase update -/

/-- C4: free-particle integration.  With exact casts, for a particle
`index < numAtoms` with nonzero inverse mass and zero force components, and a
step size `dt[0].y ≠ 0`, `integrateVerletPart1` followed directly by
`integrateVerletPart2` leaves the particle at `p0 + v * dt[0].y` with velocity
exactly `v`; the `w` components of position and velocity are unchanged. -/
theorem freeParticle_integration (A : Arith) (hfloat : ∀ x, A.toFloat x = x)
    (hreal : ∀ x, A.toReal x = x) (size1 size2 numAtoms paddedNumAtoms : Nat) (b : Buffers)
    (index : Nat) (hsize1 : 0 < size1) (hsize2 : 0 < size2) (hindex : index < numAtoms)
    (hmass : (b.velm index).w ≠ 0) (hfx : b.force index = 0)
    (hfy : b.force (index + paddedNumAtoms) = 0)
    (hfz : b.force (index + paddedNumAtoms * 2) = 0) (hdt : b.dt.y ≠ 0) :
    loadPos A (integrateVerletPart2 A size2 numAtoms
        (integrateVerletPart1 A size1 numAtoms paddedNumAtoms b)) index
      = ⟨(loadPos A b index).x + (b.velm index).x * b.dt.y,
          (loadPos A b index).y + (b.velm index).y * b.dt.y,
          (loadPos A b index).z + (b.velm index).z * b.dt.y, (loadPos A b index).w⟩ ∧
    (integrateVerletPart2 A size2 numAtoms
        (integrateVerletPart1 A size1 numAtoms paddedNumAtoms b)).velm index = b.velm index ∧
    ((integrateVerletPart2 A size2 numAtoms
        (integrateVerletPart1 A size1 numAtoms paddedNumAtoms b)).posq index).w
      = (b.posq index).w := by
  obtain ⟨p1dt, p1posq, p1corr, -, p1⟩ :=
    integrateVerletPart1_spec A size1 numAtoms paddedNumAtoms b hsize1
  obtain ⟨p1v, p1d⟩ := (p1 index).1 hindex
  obtain ⟨-, -, -, p2⟩ := integrateVerletPart2_spec A size2 numAtoms
    (integrateVerletPart1 A size1 numAtoms paddedNumAtoms b) hsize2
  obtain ⟨p2v, p2p, p2c⟩ := (p2 index).1 hindex
  have hv1 : (integrateVerletPart1 A size1 numAtoms paddedNumAtoms b).velm index
      = b.velm index := by
    rw [p1v, part1Body_velm_self A _ _ _ _ hmass, hfx, hfy, hfz]
    simp
  have hd1 : (integrateVerletPart1 A size1 numAtoms paddedNumAtoms b).posDelta index
      = ⟨(b.velm index).x * b.dt.y, (b.velm index).y * b.dt.y, (b.velm index).z * b.dt.y,
          (b.posq index).w⟩ := by
    rw [p1d, part1Body_posDelta_self A _ _ _ _ hmass, ← p1v, hv1]
  have hmass1 : ((integrateVerletPart1 A size1 numAtoms paddedNumAtoms b).velm index).w ≠ 0 := by
    rw [hv1]
    exact hmass
  have hcancel : ∀ v : ℚ, v * b.dt.y / b.dt.y = v := fun v => by field_simp
  have hload : loadPos A (integrateVerletPart1 A size1 numAtoms paddedNumAtoms b) index
      = loadPos A b index := loadPos_congr A _ _ _ (by rw [p1posq]) (by rw [p1corr])
  have hw : (loadPos A b index).w = (b.posq index).w := by
    unfold loadPos
    split_ifs <;> rfl
  refine ⟨?_, ?_, ?_⟩
  · rw [loadPos_congr A _ _ _ p2p p2c, part2Body_loadPos_self A hreal _ _ _ hmass1, hload, hd1,
      p1posq, hw]
  · rw [p2v, part2Body_velm_self A _ _ _ hmass1, hd1, hv1]
    simp only [p1dt, newVelocity_of_ne_zero A hfloat _ hdt, hcancel]
  · rw [p2p, part2Body_posq_w A _ _ _ hmass1, p1posq, hreal]
    simp

/-- Witness of C4: one particle at `(1, 2, 3)` with velocity `(1, 1, 2)`,
inverse mass 5 and no force, stepped with `dt[0].y = 1/4`. -/
theorem freeParticle_integration_witness :
    (integrateVerletPart2 (exactArith false true) 4 1
        (integrateVerletPart1 (exactArith false true) 4 1 32
          (freeParticle ⟨1 / 2, 1 / 4⟩ ⟨1, 2, 3, 7⟩ ⟨1, 1, 2, 5⟩))).posq 0
      = ⟨5 / 4, 9 / 4, 7 / 2, 7⟩ ∧
    (integrateVerletPart2 (exactArith false true) 4 1
        (integrateVerletPart1 (exactArith false true) 4 1 32
          (freeParticle ⟨1 / 2, 1 / 4⟩ ⟨1, 2, 3, 7⟩ ⟨1, 1, 2, 5⟩))).velm 0 = ⟨1, 1, 2, 5⟩ := by
  have h := freeParticle_integration (exactArith false true) (fun _ => rfl) (fun _ => rfl) 4 4 1 32
    (freeParticle ⟨1 / 2, 1 / 4⟩ ⟨1, 2, 3, 7⟩ ⟨1, 1, 2, 5⟩) 0 (by decide) (by decide) (by decide)
    (by norm_num [freeParticle]) rfl rfl rfl (by norm_num [freeParticle])
  refine ⟨?_, h.2.1⟩
  have h1 := h.1
  norm_num [loadPos, exactArith, freeParticle] at h1 ⊢
  exact h1

/-- C5, as amended: phase 2 commit.  For every build and every particle
`index < numAtoms` with nonzero inverse mass, `integrateVerletPart2` sets the
velocity to `(float) posDelta / dt[0].y` in a build with double-precision
support (line 110 narrows `posDelta` to single precision) and to
`posDelta / dt[0].y`, for `dt[0].y ≠ 0`, in a build without; so it is
`posDelta / dt[0].y` whenever the cast leaves the three components of `posDelta`
unchanged.  In every build the new velocity is `newVelocity`, a value of
`dt[0]` and `posDelta` in which the velocity stored before the call does not
occur, and `velm.w` is kept.  Without mixed precision `posq` becomes the old
position plus `posDelta` in x, y and z; with mixed precision and an exact
conversion to `real` the same holds of `posq + posqCorrection`.  `posq.w`, a
value of type `real` that the conversion returns unchanged, is kept. -/
theorem integrateVerletPart2_commit (A : Arith) (globalSize numAtoms : Nat)
    (b : Buffers) (index : Nat) (hsize : 0 < globalSize) (hindex : index < numAtoms)
    (hmass : (b.velm index).w ≠ 0) :
    (A.supportsDoublePrecision = true →
      (integrateVerletPart2 A globalSize numAtoms b).velm index
        = ⟨A.toFloat (b.posDelta index).x / b.dt.y, A.toFloat (b.posDelta index).y / b.dt.y,
            A.toFloat (b.posDelta index).z / b.dt.y, (b.velm index).w⟩) ∧
    (A.supportsDoublePrecision = false → b.dt.y ≠ 0 →
      (integrateVerletPart2 A globalSize numAtoms b).velm index
        = ⟨(b.posDelta index).x / b.dt.y, (b.posDelta index).y / b.dt.y,
            (b.posDelta index).z / b.dt.y, (b.velm index).w⟩) ∧
    (A.toFloat (b.posDelta index).x = (b.posDelta index).x →
      A.toFloat (b.posDelta index).y = (b.posDelta index).y →
      A.toFloat (b.posDelta index).z = (b.posDelta index).z →
      (A.supportsDoublePrecision = true ∨ b.dt.y ≠ 0) →
      (integrateVerletPart2 A globalSize numAtoms b).velm index
        = ⟨(b.posDelta index).x / b.dt.y, (b.posDelta index).y / b.dt.y,
            (b.posDelta index).z / b.dt.y, (b.velm index).w⟩) ∧
    (A.useMixedPrecision = false →
      (integrateVerletPart2 A globalSize numAtoms b).posq index
        = ⟨(b.posq index).x + (b.posDelta index).x, (b.posq index).y + (b.posDelta index).y,
            (b.posq index).z + (b.posDelta index).z, (b.posq index).w⟩) ∧
    ((∀ x, A.toReal x = x) →
      loadPos A (integrateVerletPart2 A globalSize numAtoms b) index
        = ⟨(loadPos A b index).x + (b.posDelta index).x,
            (loadPos A b index).y + (b.posDelta index).y,
            (loadPos A b index).z + (b.posDelta index).z, (b.posq index).w⟩ ∧
      ((integrateVerletPart2 A globalSize numAtoms b).posq index).w = (b.posq index).w) ∧
    (integrateVerletPart2 A globalSize numAtoms b).velm index
      = ⟨newVelocity A b.dt (b.posDelta index).x, newVelocity A b.dt (b.posDelta index).y,
          newVelocity A b.dt (b.posDelta index).z, (b.velm index).w⟩ ∧
    (A.toReal (b.posq index).w = (b.posq index).w →
      ((integrateVerletPart2 A globalSize numAtoms b).posq index).w = (b.posq index).w) := by
  obtain ⟨-, -, -, p2⟩ := integrateVerletPart2_spec A globalSize numAtoms b hsize
  obtain ⟨p2v, p2p, p2c⟩ := (p2 index).1 hindex
  have hdouble : A.supportsDoublePrecision = true →
      (integrateVerletPart2 A globalSize numAtoms b).velm index
        = ⟨A.toFloat (b.posDelta index).x / b.dt.y, A.toFloat (b.posDelta index).y / b.dt.y,
            A.toFloat (b.posDelta index).z / b.dt.y, (b.velm index).w⟩ := by
    intro hd
    rw [p2v, part2Body_velm_self A _ _ _ hmass]
    simp only [newVelocity, oneOverDt, hd, if_true, mul_one_div]
  have hsingle : A.supportsDoublePrecision = false → b.dt.y ≠ 0 →
      (integrateVerletPart2 A globalSize numAtoms b).velm index
        = ⟨(b.posDelta index).x / b.dt.y, (b.posDelta index).y / b.dt.y,
            (b.posDelta index).z / b.dt.y, (b.velm index).w⟩ := by
    intro hd hdt
    have hnew : ∀ d : ℚ, newVelocity A b.dt d = d / b.dt.y := by
      intro d
      unfold newVelocity correction oneOverDt
      rw [hd]
      simp only [Bool.false_eq_true, if_false]
      field_simp
      ring
    rw [p2v, part2Body_velm_self A _ _ _ hmass]
    simp only [hnew]
  refine ⟨hdouble, hsingle, ?_, ?_, ?_, ?_, ?_⟩
  · intro hx hy hz hor
    cases hd : A.supportsDoublePrecision with
    | true => rw [hdouble hd, hx, hy, hz]
    | false =>
      rcases hor with h | h
      · rw [hd] at h
        exact absurd h (by decide)
      · exact hsingle hd h
  · intro hm
    rw [p2p]
    unfold part2Body loadPos
    simp [hmass, store, hm]
  · intro hreal
    refine ⟨?_, ?_⟩
    · rw [loadPos_congr A _ _ _ p2p p2c, part2Body_loadPos_self A hreal _ _ _ hmass]
    · rw [p2p, part2Body_posq_w A _ _ _ hmass, hreal]
      simp
  · rw [p2v, part2Body_velm_self A _ _ _ hmass]
  · intro hw
    rw [p2p, part2Body_posq_w A _ _ _ hmass, hw]
    simp

/-- Witness of C5: one particle at `(1, 2, 3)` with stored delta `(1, 2, 4)`,
committed with `dt[0].y = 1/2` by a grid of three threads in a build with exact
casts. -/
theorem integrateVerletPart2_commit_witness :
    (integrateVerletPart2 (exactArith false false) 3 1
        { freeParticle ⟨1, 1 / 2⟩ ⟨1, 2, 3, 7⟩ ⟨9, 9, 9, 5⟩ with
          posDelta := fun _ => ⟨1, 2, 4, 0⟩ }).posq 0 = ⟨2, 4, 7, 7⟩ ∧
    (integrateVerletPart2 (exactArith false false) 3 1
        { freeParticle ⟨1, 1 / 2⟩ ⟨1, 2, 3, 7⟩ ⟨9, 9, 9, 5⟩ with
          posDelta := fun _ => ⟨1, 2, 4, 0⟩ }).velm 0 = ⟨2, 4, 8, 5⟩ := by
  have h := integrateVerletPart2_commit (exactArith false false) 3 1
    { freeParticle ⟨1, 1 / 2⟩ ⟨1, 2, 3, 7⟩ ⟨9, 9, 9, 5⟩ with posDelta := fun _ => ⟨1, 2, 4, 0⟩ }
    0 (by decide) (by decide) (by norm_num [freeParticle])
  refine ⟨?_, ?_⟩
  · rw [h.2.2.2.1 rfl]
    norm_num [freeParticle]
  · rw [h.2.2.1 rfl rfl rfl (Or.inr (by norm_num [freeParticle]))]
    norm_num [freeParticle]

/-- Counterexample to C5 as stated: in a build with double-precision support
whose `(float)` cast rounds to the nearest multiple of `2^-32`, as single
precision does between `2^-9` and `2^-8`, a particle with stored delta 0.002 in
x and `dt[0].y = 1` gets the velocity `(float) 0.002 = 8589935 / 2^32`, which is
not `posDelta / dt[0].y = 0.002`. -/
theorem integrateVerletPart2_commit_counterexample :
    ((integrateVerletPart2 gridArith 1 1
        { freeParticle ⟨1, 1⟩ ⟨0, 0, 0, 1⟩ ⟨0, 0, 0, 1⟩ with
          posDelta := fun _ => ⟨1 / 500, 0, 0, 0⟩ }).velm 0).x = 8589935 / 4294967296 ∧
    ((integrateVerletPart2 gridArith 1 1
        { freeParticle ⟨1, 1⟩ ⟨0, 0, 0, 1⟩ ⟨0, 0, 0, 1⟩ with
          posDelta := fun _ => ⟨1 / 500, 0, 0, 0⟩ }).velm 0).x ≠ (1 / 500) / 1 := by
  obtain ⟨-, -, -, p2⟩ := integrateVerletPart2_spec gridArith 1 1
    { freeParticle ⟨1, 1⟩ ⟨0, 0, 0, 1⟩ ⟨0, 0, 0, 1⟩ with
      posDelta := fun _ => ⟨1 / 500, 0, 0, 0⟩ } (by decide)
  obtain ⟨p2v, -, -⟩ := (p2 0).1 (by decide)
  have hv : ((integrateVerletPart2 gridArith 1 1
      { freeParticle ⟨1, 1⟩ ⟨0, 0, 0, 1⟩ ⟨0, 0, 0, 1⟩ with
        posDelta := fun _ => ⟨1 / 500, 0, 0, 0⟩ }).velm 0).x = 8589935 / 4294967296 := by
    rw [p2v, part2Body_velm_self gridArith _ _ _ (by norm_num [freeParticle])]
    norm_num [newVelocity, oneOverDt, gridArith, freeParticle]
  refine ⟨hv, ?_⟩
  rw [hv]
  norm_num

/-- C6: phase 1 update.  For every particle `index < numAtoms` with nonzero
inverse mass `w`, `integrateVerletPart1` sets the velocity to
`v + (dtVel / 2^32) * F * w` componentwise, `F` being the force entries at
`index`, `index + paddedNumAtoms` and `index + 2 * paddedNumAtoms` and
`dtVel = 0.5 * (dt[0].x + dt[0].y)`; it stores the new velocity times `dt[0].y` in
`posDelta.xyz`; and it leaves the position buffer `posq` as it was. -/
theorem integrateVerletPart1_update (A : Arith) (globalSize numAtoms paddedNumAtoms : Nat)
    (b : Buffers) (index : Nat) (hsize : 0 < globalSize) (hindex : index < numAtoms)
    (hmass : (b.velm index).w ≠ 0) :
    (integrateVerletPart1 A globalSize numAtoms paddedNumAtoms b).velm index
      = ⟨(b.velm index).x
            + (1 / 2 : ℚ) * (b.dt.x + b.dt.y) / 2 ^ 32 * (b.force index : ℚ) * (b.velm index).w,
          (b.velm index).y
            + (1 / 2 : ℚ) * (b.dt.x + b.dt.y) / 2 ^ 32
              * (b.force (index + paddedNumAtoms) : ℚ) * (b.velm index).w,
          (b.velm index).z
            + (1 / 2 : ℚ) * (b.dt.x + b.dt.y) / 2 ^ 32
              * (b.force (index + 2 * paddedNumAtoms) : ℚ) * (b.velm index).w,
          (b.velm index).w⟩ ∧
    ((integrateVerletPart1 A globalSize numAtoms paddedNumAtoms b).posDelta index).x
      = ((integrateVerletPart1 A globalSize numAtoms paddedNumAtoms b).velm index).x * b.dt.y ∧
    ((integrateVerletPart1 A globalSize numAtoms paddedNumAtoms b).posDelta index).y
      = ((integrateVerletPart1 A globalSize numAtoms paddedNumAtoms b).velm index).y * b.dt.y ∧
    ((integrateVerletPart1 A globalSize numAtoms paddedNumAtoms b).posDelta index).z
      = ((integrateVerletPart1 A globalSize numAtoms paddedNumAtoms b).velm index).z * b.dt.y ∧
    (integrateVerletPart1 A globalSize numAtoms paddedNumAtoms b).posq = b.posq := by
  obtain ⟨-, p1posq, -, -, p1⟩ :=
    integrateVerletPart1_spec A globalSize numAtoms paddedNumAtoms b hsize
  obtain ⟨p1v, p1d⟩ := (p1 index).1 hindex
  have h32 : (2 : ℚ) ^ 32 = 4294967296 := by norm_num
  refine ⟨?_, ?_, ?_, ?_, p1posq⟩
  · rw [p1v, part1Body_velm_self A _ _ _ _ hmass, h32, Nat.mul_comm 2 paddedNumAtoms]
  · rw [p1d, part1Body_posDelta_self A _ _ _ _ hmass, p1v]
  · rw [p1d, part1Body_posDelta_self A _ _ _ _ hmass, p1v]
  · rw [p1d, part1Body_posDelta_self A _ _ _ _ hmass, p1v]

/-- Witness of C6: the particle of `pushedParticle`, with `dtVel = 2` and
`dt[0].y = 3`, gets the velocity `(11, 21, 2)` and the delta `(33, 63, 6)`. -/
theorem integrateVerletPart1_update_witness :
    (integrateVerletPart1 (exactArith false true) 2 1 32 pushedParticle).velm 0
      = ⟨11, 21, 2, 5⟩ ∧
    ((integrateVerletPart1 (exactArith false true) 2 1 32 pushedParticle).posDelta 0).x = 33 ∧
    (integrateVerletPart1 (exactArith false true) 2 1 32 pushedParticle).posq
      = pushedParticle.posq := by
  have h := integrateVerletPart1_update (exactArith false true) 2 1 32 pushedParticle 0
    (by decide) (by decide) (by norm_num [pushedParticle, freeParticle])
  have hv : (integrateVerletPart1 (exactArith false true) 2 1 32 pushedParticle).velm 0
      = ⟨11, 21, 2, 5⟩ := by
    rw [h.1]
    norm_num [pushedParticle, freeParticle]
  refine ⟨hv, ?_, h.2.2.2.2⟩
  rw [h.2.1, hv]
  norm_num [pushedParticle, freeParticle]

/-! ## Virtual-site force redistribution -/

theorem cuda_vsiteLoop_trace (numVsites : Nat) :
    ∀ (k fuel : Nat), k ≤ fuel →
      vsiteStages (CudaIntegrationUtilities.vsiteLoop numVsites fuel ((k : Int) - 1))
          = (List.range k).reverse.map Int.ofNat ∧
      ((CudaIntegrationUtilities.vsiteLoop numVsites fuel ((k : Int) - 1)).filter
          (Event.launches Kernel.vsiteForceKernel)).length = k := by
  intro k
  induction k with
  | zero =>
    intro fuel _
    cases fuel <;> simp [CudaIntegrationUtilities.vsiteLoop, vsiteStages]
  | succ k ih =>
    intro fuel hk
    obtain ⟨fuel, rfl⟩ : ∃ f, fuel = f + 1 := ⟨fuel - 1, by omega⟩
    have hnn : ((k + 1 : Nat) : Int) - 1 ≥ 0 := by omega
    have hpred : ((k + 1 : Nat) : Int) - 1 - 1 = (k : Int) - 1 := by omega
    obtain ⟨ih1, ih2⟩ := ih fuel (by omega)
    have hcast : ((k + 1 : Nat) : Int) - 1 = Int.ofNat k := by
      simp
    simp only [CudaIntegrationUtilities.vsiteLoop, hnn, if_true, hpred]
    refine ⟨?_, ?_⟩
    · simp only [vsiteStages, List.filterMap_cons, Event.vsiteStage]
      rw [List.range_succ, List.reverse_append]
      simp only [List.reverse_cons, List.reverse_nil, List.nil_append, List.singleton_append,
        List.map_cons]
      rw [hcast]
      exact congrArg _ ih1
    · simp [List.filter_cons, Event.launches, ih2]

theorem opencl_vsiteLoop_trace (numVsites numAtoms : Nat) :
    ∀ (k fuel : Nat), k ≤ fuel →
      vsiteStages (OpenCLIntegrationUtilities.vsiteLoop numVsites numAtoms fuel ((k : Int) - 1))
          = (List.range k).reverse.map Int.ofNat ∧
      ((OpenCLIntegrationUtilities.vsiteLoop numVsites numAtoms fuel ((k : Int) - 1)).filter
          (Event.launches Kernel.vsiteForceKernel)).length = k := by
  intro k
  induction k with
  | zero =>
    intro fuel _
    cases fuel <;> simp [OpenCLIntegrationUtilities.vsiteLoop, vsiteStages]
  | succ k ih =>
    intro fuel hk
    obtain ⟨fuel, rfl⟩ : ∃ f, fuel = f + 1 := ⟨fuel - 1, by omega⟩
    have hnn : ((k + 1 : Nat) : Int) - 1 ≥ 0 := by omega
    have hpred : ((k + 1 : Nat) : Int) - 1 - 1 = (k : Int) - 1 := by omega
    obtain ⟨ih1, ih2⟩ := ih fuel (by omega)
    have hcast : ((k + 1 : Nat) : Int) - 1 = Int.ofNat k := by
      simp
    simp only [OpenCLIntegrationUtilities.vsiteLoop, hnn, if_true, hpred]
    refine ⟨?_, ?_⟩
    · simp only [vsiteStages, List.filterMap_cons, Event.vsiteStage]
      rw [List.range_succ, List.reverse_append]
      simp only [List.reverse_cons, List.reverse_nil, List.nil_append, List.singleton_append,
        List.map_cons]
      rw [hcast]
      exact congrArg _ ih1
    · simp [List.filter_cons, Event.launches, ih2]

/-- C7: virtual-site stage order.  For every `numVsiteStages = n ≥ 0`, both the
CUDA and the OpenCL `distributeForcesFromVirtualSites` launch `vsiteForceKernel`
exactly `n` times, with the stage arguments `n - 1, n - 2, ..., 0` in this
order (none at all for `n = 0`). -/
theorem distributeForcesFromVirtualSites_stage_order (n numVsites numAtoms : Nat) :
    vsiteStages (CudaIntegrationUtilities.distributeForcesFromVirtualSites n numVsites)
      = (List.range n).reverse.map Int.ofNat ∧
    ((CudaIntegrationUtilities.distributeForcesFromVirtualSites n numVsites).filter
      (Event.launches Kernel.vsiteForceKernel)).length = n ∧
    vsiteStages (OpenCLIntegrationUtilities.distributeForcesFromVirtualSites n numVsites numAtoms)
      = (List.range n).reverse.map Int.ofNat ∧
    ((OpenCLIntegrationUtilities.distributeForcesFromVirtualSites n numVsites numAtoms).filter
      (Event.launches Kernel.vsiteForceKernel)).length = n := by
  have h1 := cuda_vsiteLoop_trace numVsites n n (le_refl _)
  have h2 := opencl_vsiteLoop_trace numVsites numAtoms n n (le_refl _)
  simp only [CudaIntegrationUtilities.distributeForcesFromVirtualSites,
    OpenCLIntegrationUtilities.distributeForcesFromVirtualSites, Int.toNat_natCast]
  exact ⟨h1.1, h1.2, h2.1, h2.2⟩

/-! ## The staged CCMA loop -/

theorem kernelLaunches_flatMap {f g : Nat → List Event}
    (h : ∀ i, kernelLaunches (f i) = g i) (l : List Nat) :
    kernelLaunches (l.flatMap f) = l.flatMap g := by
  induction l with
  | nil => rfl
  | cons a l ih =>
    simp only [List.flatMap_cons]
    unfold kernelLaunches at *
    rw [List.filter_append, h a, ih]

theorem flagReads_flatMap {f : Nat → List Event}
    (h : ∀ i, flagReads (f i) = if (i + 1) % 4 = 0 then [i] else []) (l : List Nat) :
    flagReads (l.flatMap f) = l.filter (fun i => (i + 1) % 4 = 0) := by
  induction l with
  | nil => rfl
  | cons a l ih =>
    simp only [List.flatMap_cons]
    unfold flagReads at *
    rw [List.filterMap_append, h a, ih]
    by_cases ha : (a + 1) % 4 = 0 <;> simp [List.filter_cons, ha]

theorem filter_flatMap_length {f : Nat → List Event} {p : Event → Bool}
    (h : ∀ i, ((f i).filter p).length = 1) (l : List Nat) :
    ((l.flatMap f).filter p).length = l.length := by
  induction l with
  | nil => rfl
  | cons a l ih =>
    simp only [List.flatMap_cons, List.filter_append, List.length_append, h a, ih,
      List.length_cons]
    omega

theorem iterationLaunches_flatMap_length (c : Constraints) (vel : Bool) (flag : DeviceBuffer)
    (size : Nat) (l : List Nat) :
    (l.flatMap (iterationLaunches c vel flag size)).length = 3 * l.length := by
  induction l with
  | nil => rfl
  | cons a l ih =>
    simp only [List.flatMap_cons, List.length_append, ih, List.length_cons, iterationLaunches,
      List.length_nil]
    omega

theorem cuda_iterationEvents_launches (c : Constraints) (vel : Bool) (size i : Nat) :
    kernelLaunches (CudaIntegrationUtilities.iterationEvents c vel size i)
      = iterationLaunches c vel .ccmaConvergedDeviceMemory size i := by
  unfold CudaIntegrationUtilities.iterationEvents kernelLaunches iterationLaunches
  split_ifs <;>
    simp [ccmaForceLaunch, ccmaMultiplyLaunch, ccmaUpdateLaunch, Event.isExecute]

theorem cuda_iterationEvents_flagReads (c : Constraints) (vel : Bool) (size i : Nat) :
    flagReads (CudaIntegrationUtilities.iterationEvents c vel size i)
      = if (i + 1) % 4 = 0 then [i] else [] := by
  unfold CudaIntegrationUtilities.iterationEvents flagReads
  split_ifs <;>
    simp [ccmaForceLaunch, ccmaMultiplyLaunch, ccmaUpdateLaunch, Event.flagRead]

theorem cuda_iterationEvents_updates (c : Constraints) (vel : Bool) (size i : Nat) :
    ((CudaIntegrationUtilities.iterationEvents c vel size i).filter
      (Event.launches Kernel.ccmaUpdateKernel)).length = 1 := by
  unfold CudaIntegrationUtilities.iterationEvents
  cases vel <;> split_ifs <;>
    simp [ccmaForceLaunch, ccmaMultiplyLaunch, ccmaUpdateLaunch, Event.launches]

theorem opencl_iterationEvents_launches (c : Constraints) (direct vel : Bool) (size i : Nat) :
    kernelLaunches (OpenCLIntegrationUtilities.iterationEvents c direct vel size i)
      = iterationLaunches c vel .ccmaConvergedHostBuffer size i := by
  unfold OpenCLIntegrationUtilities.iterationEvents kernelLaunches iterationLaunches
  split_ifs <;>
    simp [ccmaForceLaunch, ccmaMultiplyLaunch, ccmaUpdateLaunch, Event.isExecute]

theorem opencl_iterationEvents_flagReads (c : Constraints) (direct vel : Bool) (size i : Nat) :
    flagReads (OpenCLIntegrationUtilities.iterationEvents c direct vel size i)
      = if (i + 1) % 4 = 0 then [i] else [] := by
  unfold OpenCLIntegrationUtilities.iterationEvents flagReads
  split_ifs <;>
    simp [ccmaForceLaunch, ccmaMultiplyLaunch, ccmaUpdateLaunch, Event.flagRead]

theorem opencl_iterationEvents_updates (c : Constraints) (direct vel : Bool) (size i : Nat) :
    ((OpenCLIntegrationUtilities.iterationEvents c direct vel size i).filter
      (Event.launches Kernel.ccmaUpdateKernel)).length = 1 := by
  unfold OpenCLIntegrationUtilities.iterationEvents
  cases vel <;> split_ifs <;>
    simp [ccmaForceLaunch, ccmaMultiplyLaunch, ccmaUpdateLaunch, Event.launches]

/-- The CUDA staged loop when no event call fails: started at iteration `i`
with the fuel of the source loop, it runs the complete iterations `i, ..., k - 1`
and returns normally, where `k - 1` is the first iteration from `i` on in which
the flag is tested and reads nonzero, and `k = 150` when there is none. -/
theorem cuda_stagedLoop_ok (c : Constraints) (dev : Device) (vel : Bool) (size : Nat)
    (hrec : ∀ i, dev.recordStatus i = CUDA_SUCCESS)
    (hsync : ∀ i, dev.synchronizeStatus i = CUDA_SUCCESS) :
    ∀ fuel i, i + fuel = 150 → ∃ k, i ≤ k ∧ k ≤ 150 ∧ (i < 150 → i < k) ∧
      (∀ j, i ≤ j → j + 1 < k → ¬ ((j + 1) % 4 = 0 ∧ dev.converged j ≠ 0)) ∧
      (k = 150 ∨ (i < k ∧ k % 4 = 0 ∧ dev.converged (k - 1) ≠ 0)) ∧
      CudaIntegrationUtilities.stagedLoop c dev vel size fuel i
        = ⟨(List.range' i (k - i)).flatMap (CudaIntegrationUtilities.iterationEvents c vel size),
            none⟩ := by
  intro fuel
  induction fuel with
  | zero =>
    intro i hi
    refine ⟨150, by omega, le_refl _, fun h => by omega, fun j h1 h2 => by omega, Or.inl rfl, ?_⟩
    have : 150 - i = 0 := by omega
    simp [CudaIntegrationUtilities.stagedLoop, this]
  | succ fuel ih =>
    intro i hi
    have hlt : i < 150 := by omega
    obtain ⟨k, hk1, hk2, -, hk4, hk5, hk6⟩ := ih (i + 1) (by omega)
    have hsplit : k - i = (k - (i + 1)) + 1 := by omega
    simp only [CudaIntegrationUtilities.stagedLoop, if_pos hlt]
    by_cases hc : (i + 1) % 4 = 0
    · by_cases hconv : dev.converged i = 0
      · refine ⟨k, by omega, hk2, fun _ => by omega, ?_, ?_, ?_⟩
        · intro j h1 h2
          rcases Nat.eq_or_lt_of_le h1 with heq | hlt2
          · subst heq
            exact fun h => h.2 hconv
          · exact hk4 j hlt2 h2
        · rcases hk5 with h | h
          · exact Or.inl h
          · exact Or.inr ⟨by omega, h.2⟩
        · rw [hsplit, List.range'_succ, List.flatMap_cons, hk6]
          simp [hc, hrec, hsync, hconv, Outcome.after, CudaIntegrationUtilities.iterationEvents]
      · refine ⟨i + 1, by omega, by omega, fun _ => by omega, fun j h1 h2 => by omega,
          Or.inr ⟨by omega, hc, by simpa using hconv⟩, ?_⟩
        have : i + 1 - i = 1 := by omega
        rw [this]
        simp [hc, hrec, hsync, hconv, CudaIntegrationUtilities.iterationEvents]
    · refine ⟨k, by omega, hk2, fun _ => by omega, ?_, ?_, ?_⟩
      · intro j h1 h2
        rcases Nat.eq_or_lt_of_le h1 with heq | hlt2
        · subst heq
          exact fun h => hc h.1
        · exact hk4 j hlt2 h2
      · rcases hk5 with h | h
        · exact Or.inl h
        · exact Or.inr ⟨by omega, h.2⟩
      · rw [hsplit, List.range'_succ, List.flatMap_cons, hk6]
        simp [hc, Outcome.after, CudaIntegrationUtilities.iterationEvents]

/-- The OpenCL staged loop, in either mode of fetching the flag: started at
iteration `i` with the fuel of the source loop, it runs the iterations
`i, ..., k - 1` and returns, where `k - 1` is the first iteration from `i` on
in which the flag is tested and reads nonzero, and `k = 150` when there is none. -/
theorem opencl_stagedLoop_ok (c : Constraints) (dev : Device) (direct vel : Bool) (size : Nat) :
    ∀ fuel i, i + fuel = 150 → ∃ k, i ≤ k ∧ k ≤ 150 ∧ (i < 150 → i < k) ∧
      (∀ j, i ≤ j → j + 1 < k → ¬ ((j + 1) % 4 = 0 ∧ dev.converged j ≠ 0)) ∧
      (k = 150 ∨ (i < k ∧ k % 4 = 0 ∧ dev.converged (k - 1) ≠ 0)) ∧
      OpenCLIntegrationUtilities.stagedLoop c dev direct vel size fuel i
        = ⟨(List.range' i (k - i)).flatMap
            (OpenCLIntegrationUtilities.iterationEvents c direct vel size), none⟩ := by
  intro fuel
  induction fuel with
  | zero =>
    intro i hi
    refine ⟨150, by omega, le_refl _, fun h => by omega, fun j h1 h2 => by omega, Or.inl rfl, ?_⟩
    have : 150 - i = 0 := by omega
    simp [OpenCLIntegrationUtilities.stagedLoop, this]
  | succ fuel ih =>
    intro i hi
    have hlt : i < 150 := by omega
    obtain ⟨k, hk1, hk2, -, hk4, hk5, hk6⟩ := ih (i + 1) (by omega)
    have hsplit : k - i = (k - (i + 1)) + 1 := by omega
    simp only [OpenCLIntegrationUtilities.stagedLoop, if_pos hlt]
    by_cases hc : (i + 1) % 4 = 0
    · by_cases hconv : dev.converged i = 0
      · refine ⟨k, by omega, hk2, fun _ => by omega, ?_, ?_, ?_⟩
        · intro j h1 h2
          rcases Nat.eq_or_lt_of_le h1 with heq | hlt2
          · subst heq
            exact fun h => h.2 hconv
          · exact hk4 j hlt2 h2
        · rcases hk5 with h | h
          · exact Or.inl h
          · exact Or.inr ⟨by omega, h.2⟩
        · rw [hsplit, List.range'_succ, List.flatMap_cons, hk6]
          cases direct <;>
            simp [hc, hconv, Outcome.after, OpenCLIntegrationUtilities.iterationEvents]
      · refine ⟨i + 1, by omega, by omega, fun _ => by omega, fun j h1 h2 => by omega,
          Or.inr ⟨by omega, hc, by simpa using hconv⟩, ?_⟩
        have : i + 1 - i = 1 := by omega
        rw [this]
        cases direct <;> simp [hc, hconv, OpenCLIntegrationUtilities.iterationEvents]
    · refine ⟨k, by omega, hk2, fun _ => by omega, ?_, ?_, ?_⟩
      · intro j h1 h2
        rcases Nat.eq_or_lt_of_le h1 with heq | hlt2
        · subst heq
          exact fun h => hc h.1
        · exact hk4 j hlt2 h2
      · rcases hk5 with h | h
        · exact Or.inl h
        · exact Or.inr ⟨by omega, h.2⟩
      · rw [hsplit, List.range'_succ, List.flatMap_cons, hk6]
        simp [hc, Outcome.after, OpenCLIntegrationUtilities.iterationEvents]

theorem cuda_stagedLoop_forceLaunches (c : Constraints) (dev : Device) (vel : Bool)
    (size : Nat) : ∀ fuel i,
      (forceLaunches (CudaIntegrationUtilities.stagedLoop c dev vel size fuel i).trace).length
        ≤ fuel := by
  intro fuel
  induction fuel with
  | zero =>
    intro i
    simp [CudaIntegrationUtilities.stagedLoop, forceLaunches]
  | succ fuel ih =>
    intro i
    have h := ih (i + 1)
    unfold forceLaunches at h ⊢
    simp only [CudaIntegrationUtilities.stagedLoop]
    cases vel <;> split_ifs <;>
      simp [Outcome.after, List.filter_cons, ccmaForceLaunch, ccmaMultiplyLaunch,
        ccmaUpdateLaunch, Event.launches] at h ⊢ <;> omega

theorem opencl_stagedLoop_forceLaunches (c : Constraints) (dev : Device) (direct vel : Bool)
    (size : Nat) : ∀ fuel i,
      (forceLaunches
        (OpenCLIntegrationUtilities.stagedLoop c dev direct vel size fuel i).trace).length
        ≤ fuel := by
  intro fuel
  induction fuel with
  | zero =>
    intro i
    simp [OpenCLIntegrationUtilities.stagedLoop, forceLaunches]
  | succ fuel ih =>
    intro i
    have h := ih (i + 1)
    unfold forceLaunches at h ⊢
    simp only [OpenCLIntegrationUtilities.stagedLoop]
    cases vel <;> cases direct <;> split_ifs <;>
      simp [Outcome.after, List.filter_cons, ccmaForceLaunch, ccmaMultiplyLaunch,
        ccmaUpdateLaunch, Event.launches] at h ⊢ <;> omega

/-- The CCMA part of the CUDA `applyConstraintsImpl` in the staged case when no
event call fails: the direction kernel, then `k` complete iterations, and a
normal return. -/
theorem cuda_ccmaPart_ok (c : Constraints) (dev : Device) (vel : Bool) (size : Nat)
    (hccma : c.ccmaConstraintAtoms = some size) (hbig : 1024 < size)
    (hrec : ∀ i, dev.recordStatus i = CUDA_SUCCESS)
    (hsync : ∀ i, dev.synchronizeStatus i = CUDA_SUCCESS) :
    ∃ k, 1 ≤ k ∧ k ≤ 150 ∧
      (∀ j, j + 1 < k → ¬ ((j + 1) % 4 = 0 ∧ dev.converged j ≠ 0)) ∧
      (k = 150 ∨ (k % 4 = 0 ∧ dev.converged (k - 1) ≠ 0)) ∧
      CudaIntegrationUtilities.ccmaPart c dev vel
        = ⟨ccmaDirectionsLaunch size ::
            (List.range k).flatMap (CudaIntegrationUtilities.iterationEvents c vel size), none⟩ := by
  obtain ⟨k, -, hk2, hk3, hk4, hk5, hk6⟩ := cuda_stagedLoop_ok c dev vel size hrec hsync 150 0 rfl
  refine ⟨k, by omega, hk2, fun j h => hk4 j (Nat.zero_le _) h, ?_, ?_⟩
  · rcases hk5 with h | h
    · exact Or.inl h
    · exact Or.inr h.2
  · unfold CudaIntegrationUtilities.ccmaPart
    rw [hccma]
    simp only [if_neg (not_le.mpr hbig), hk6, Outcome.after, List.range_eq_range',
      Nat.sub_zero, ccmaDirectionsLaunch, List.singleton_append]

/-- The CCMA part of the OpenCL `applyConstraintsImpl` in the staged case: the
direction kernel, then `k` iterations, and a normal return. -/
theorem opencl_ccmaPart_ok (c : Constraints) (dev : Device) (direct vel : Bool) (size : Nat)
    (hccma : c.ccmaConstraintAtoms = some size) (hbig : 1024 < size) :
    ∃ k, 1 ≤ k ∧ k ≤ 150 ∧
      (∀ j, j + 1 < k → ¬ ((j + 1) % 4 = 0 ∧ dev.converged j ≠ 0)) ∧
      (k = 150 ∨ (k % 4 = 0 ∧ dev.converged (k - 1) ≠ 0)) ∧
      OpenCLIntegrationUtilities.ccmaPart c dev direct vel
        = ⟨ccmaDirectionsLaunch size ::
            (List.range k).flatMap
              (OpenCLIntegrationUtilities.iterationEvents c direct vel size), none⟩ := by
  obtain ⟨k, -, hk2, hk3, hk4, hk5, hk6⟩ := opencl_stagedLoop_ok c dev direct vel size 150 0 rfl
  refine ⟨k, by omega, hk2, fun j h => hk4 j (Nat.zero_le _) h, ?_, ?_⟩
  · rcases hk5 with h | h
    · exact Or.inl h
    · exact Or.inr h.2
  · unfold OpenCLIntegrationUtilities.ccmaPart
    rw [hccma]
    simp only [if_neg (not_le.mpr hbig), hk6, Outcome.after, List.range_eq_range',
      Nat.sub_zero, ccmaDirectionsLaunch, List.singleton_append]

/-- A trace made of the direction kernel and `k` iterations, each with one
update launch and a flag read exactly when `(i + 1) % 4 = 0`, contains `k`
iterations and satisfies the polling rule when `k` is the first multiple of 4
with a nonzero flag, or 150. -/
theorem stagedPolling_of_shape (converged : Nat → Int) (f : Nat → List Event) (size k : Nat)
    (hflag : ∀ i, flagReads (f i) = if (i + 1) % 4 = 0 then [i] else [])
    (hupd : ∀ i, ((f i).filter (Event.launches Kernel.ccmaUpdateKernel)).length = 1)
    (hk1 : 1 ≤ k) (hk2 : k ≤ 150)
    (hk4 : ∀ j, j + 1 < k → ¬ ((j + 1) % 4 = 0 ∧ converged j ≠ 0))
    (hk5 : k = 150 ∨ (k % 4 = 0 ∧ converged (k - 1) ≠ 0)) :
    iterationsDone (ccmaDirectionsLaunch size :: (List.range k).flatMap f) = k ∧
    StagedPolling converged (ccmaDirectionsLaunch size :: (List.range k).flatMap f) := by
  have hdone : iterationsDone (ccmaDirectionsLaunch size :: (List.range k).flatMap f) = k := by
    unfold iterationsDone
    rw [List.filter_cons]
    simp only [ccmaDirectionsLaunch, Event.launches]
    simpa using filter_flatMap_length hupd (List.range k)
  have hreads : flagReads (ccmaDirectionsLaunch size :: (List.range k).flatMap f)
      = (List.range k).filter (fun i => (i + 1) % 4 = 0) := by
    have h := flagReads_flatMap hflag (List.range k)
    unfold flagReads at h ⊢
    rw [List.filterMap_cons]
    simpa [ccmaDirectionsLaunch, Event.flagRead] using h
  refine ⟨hdone, ?_, ?_⟩
  · rw [hreads, hdone]
  · rw [hdone]
    by_cases hex : k % 4 = 0 ∧ converged (k - 1) ≠ 0
    · left
      refine ⟨k, hex.1, by omega, by omega, hex.2, ?_, rfl⟩
      intro m hm1 hm2 hm3
      by_contra hne
      exact hk4 (m - 1) (by omega) ⟨by omega, hne⟩
    · right
      have hk : k = 150 := by
        rcases hk5 with h | h
        · exact h
        · exact absurd h hex
      refine ⟨?_, hk⟩
      intro m hm1 hm2 hm3
      by_contra hne
      exact hk4 (m - 1) (by omega) ⟨by omega, hne⟩

theorem forceLaunches_settle_shake (c : Constraints) (vel : Bool) (t : List Event) :
    forceLaunches (settleLaunch c vel ++ shakeLaunch c vel ++ t) = forceLaunches t := by
  unfold forceLaunches settleLaunch shakeLaunch
  cases c.settleAtoms <;> cases c.shakeAtoms <;> cases vel <;>
    simp [List.filter_cons, Event.launches]

theorem iterationsDone_settle_shake (c : Constraints) (vel : Bool) (t : List Event) :
    iterationsDone (settleLaunch c vel ++ shakeLaunch c vel ++ t) = iterationsDone t := by
  unfold iterationsDone settleLaunch shakeLaunch
  cases c.settleAtoms <;> cases c.shakeAtoms <;> cases vel <;>
    simp [List.filter_cons, Event.launches]

theorem forceLaunches_directions (size : Nat) (t : List Event) :
    forceLaunches (Event.execute Kernel.ccmaDirectionsKernel [] size none :: t)
      = forceLaunches t := by
  unfold forceLaunches
  simp [List.filter_cons, Event.launches]

/-! ## Claims on the staged CCMA strategy -/

/-- C8, amended: staged CCMA launch sequence.  Whenever the staged strategy
runs and no event call fails (the OpenCL loop tests no status, so there this is
every run), the kernel launches of the CCMA part of `applyConstraintsImpl` are
the direction kernel once, followed by `k` iterations, `1 ≤ k ≤ 150`, each
launching the force, the multiply and the update kernel in that order with the
same iteration index `i = 0, ..., k - 1`.  In every run, failed calls
included, the force kernel is launched at most 150 times in one call. -/
theorem staged_launch_sequence (c : Constraints) (dev : Device) (vel : Bool) (size : Nat)
    (hccma : c.ccmaConstraintAtoms = some size) (hbig : 1024 < size) :
    ((∀ i, dev.recordStatus i = CUDA_SUCCESS) → (∀ i, dev.synchronizeStatus i = CUDA_SUCCESS) →
      StagedLaunchSequence c vel .ccmaConvergedDeviceMemory size
        (kernelLaunches (CudaIntegrationUtilities.ccmaPart c dev vel).trace)) ∧
    (∀ direct, StagedLaunchSequence c vel .ccmaConvergedHostBuffer size
        (kernelLaunches (OpenCLIntegrationUtilities.ccmaPart c dev direct vel).trace)) ∧
    (forceLaunches (CudaIntegrationUtilities.applyConstraintsImpl c dev vel).trace).length
      ≤ 150 ∧
    (∀ direct,
      (forceLaunches
        (OpenCLIntegrationUtilities.applyConstraintsImpl c dev direct vel).trace).length
        ≤ 150) := by
  have hdir : ∀ t, kernelLaunches (ccmaDirectionsLaunch size :: t)
      = ccmaDirectionsLaunch size :: kernelLaunches t := by
    intro t
    simp [kernelLaunches, ccmaDirectionsLaunch, Event.isExecute]
  refine ⟨?_, ?_, ?_, ?_⟩
  · intro hrec hsync
    obtain ⟨k, hk1, hk2, -, -, hk6⟩ := cuda_ccmaPart_ok c dev vel size hccma hbig hrec hsync
    refine ⟨k, hk1, hk2, ?_⟩
    rw [hk6, hdir, kernelLaunches_flatMap (cuda_iterationEvents_launches c vel size)]
  · intro direct
    obtain ⟨k, hk1, hk2, -, -, hk6⟩ := opencl_ccmaPart_ok c dev direct vel size hccma hbig
    refine ⟨k, hk1, hk2, ?_⟩
    rw [hk6, hdir, kernelLaunches_flatMap (opencl_iterationEvents_launches c direct vel size)]
  · unfold CudaIntegrationUtilities.applyConstraintsImpl CudaIntegrationUtilities.ccmaPart
    rw [hccma]
    simp only [if_neg (not_le.mpr hbig), Outcome.after, List.singleton_append]
    rw [forceLaunches_settle_shake, forceLaunches_directions]
    exact cuda_stagedLoop_forceLaunches c dev vel size 150 0
  · intro direct
    unfold OpenCLIntegrationUtilities.applyConstraintsImpl OpenCLIntegrationUtilities.ccmaPart
    rw [hccma]
    simp only [if_neg (not_le.mpr hbig), Outcome.after, List.singleton_append]
    rw [forceLaunches_settle_shake, forceLaunches_directions]
    exact opencl_stagedLoop_forceLaunches c dev direct vel size 150 0

/-- Witness of C8, amended: 2000 CCMA constraints on a device on which every
call succeeds and the flag reads nonzero in iteration 7. -/
theorem staged_launch_sequence_witness :
    StagedLaunchSequence (ccmaOnly .Single 2000 3000) true .ccmaConvergedDeviceMemory 2000
      (kernelLaunches (CudaIntegrationUtilities.ccmaPart (ccmaOnly .Single 2000 3000)
        (okDevice (fun i => if i = 7 then 1 else 0)) true).trace) :=
  (staged_launch_sequence (ccmaOnly .Single 2000 3000)
    (okDevice (fun i => if i = 7 then 1 else 0)) true 2000 rfl (by decide)).1
    (fun _ => rfl) (fun _ => rfl)

/-- Counterexample to C8 as stated: with 2000 CCMA constraints and
`cuEventRecord` returning status 700 in iteration 3, the CUDA
`applyConstraintsImpl` throws after the force kernel of that iteration; its 11
kernel launches end with a force launch that no multiply and update launch
follow, so they are not a sequence of whole iterations. -/
theorem staged_launch_sequence_record_failure :
    (CudaIntegrationUtilities.applyConstraintsImpl (ccmaOnly .Single 2000 3000)
        (recordFailure 3 700) true).error.isSome = true ∧
    (kernelLaunches (CudaIntegrationUtilities.applyConstraintsImpl (ccmaOnly .Single 2000 3000)
        (recordFailure 3 700) true).trace).length = 11 ∧
    (kernelLaunches (CudaIntegrationUtilities.applyConstraintsImpl (ccmaOnly .Single 2000 3000)
        (recordFailure 3 700) true).trace).getLast?
      = some (ccmaForceLaunch (ccmaOnly .Single 2000 3000) true .ccmaConvergedDeviceMemory 2000 3) ∧
    ¬ StagedLaunchSequence (ccmaOnly .Single 2000 3000) true .ccmaConvergedDeviceMemory 2000
      (kernelLaunches (CudaIntegrationUtilities.ccmaPart (ccmaOnly .Single 2000 3000)
        (recordFailure 3 700) true).trace) := by
  have hlen : (kernelLaunches (CudaIntegrationUtilities.ccmaPart (ccmaOnly .Single 2000 3000)
      (recordFailure 3 700) true).trace).length = 11 := by decide
  refine ⟨by decide, by decide, by decide, ?_⟩
  rintro ⟨k, -, -, h⟩
  have h2 := congrArg List.length h
  rw [hlen, List.length_cons, iterationLaunches_flatMap_length, List.length_range] at h2
  omega

/-- C9, amended: staged CCMA convergence polling.  Whenever the staged strategy
runs and no event call fails (the OpenCL loop tests no status, so there this is
every run, in either mode of fetching the flag), the trace of the CCMA part is
the direction kernel followed by whole iterations, the host reads the flag
exactly at the end of the iterations 4, 8, 12, ... and in no other, and the
number of iterations executed is the smallest multiple of 4 in `4, ..., 148`
at which the flag read nonzero, or 150 if no read was nonzero. -/
theorem staged_polling (c : Constraints) (dev : Device) (vel : Bool) (size : Nat)
    (hccma : c.ccmaConstraintAtoms = some size) (hbig : 1024 < size) :
    ((∀ i, dev.recordStatus i = CUDA_SUCCESS) → (∀ i, dev.synchronizeStatus i = CUDA_SUCCESS) →
      StagedPolling dev.converged (CudaIntegrationUtilities.ccmaPart c dev vel).trace ∧
      (CudaIntegrationUtilities.ccmaPart c dev vel).trace
        = ccmaDirectionsLaunch size ::
          (List.range (iterationsDone (CudaIntegrationUtilities.ccmaPart c dev vel).trace)).flatMap
            (CudaIntegrationUtilities.iterationEvents c vel size)) ∧
    (∀ direct,
      StagedPolling dev.converged (OpenCLIntegrationUtilities.ccmaPart c dev direct vel).trace ∧
      (OpenCLIntegrationUtilities.ccmaPart c dev direct vel).trace
        = ccmaDirectionsLaunch size ::
          (List.range
            (iterationsDone (OpenCLIntegrationUtilities.ccmaPart c dev direct vel).trace)).flatMap
            (OpenCLIntegrationUtilities.iterationEvents c direct vel size)) := by
  refine ⟨?_, ?_⟩
  · intro hrec hsync
    obtain ⟨k, hk1, hk2, hk4, hk5, hk6⟩ := cuda_ccmaPart_ok c dev vel size hccma hbig hrec hsync
    obtain ⟨hdone, hpoll⟩ := stagedPolling_of_shape dev.converged
      (CudaIntegrationUtilities.iterationEvents c vel size) size k
      (cuda_iterationEvents_flagReads c vel size) (cuda_iterationEvents_updates c vel size)
      hk1 hk2 hk4 hk5
    rw [hk6]
    exact ⟨hpoll, by rw [hdone]⟩
  · intro direct
    obtain ⟨k, hk1, hk2, hk4, hk5, hk6⟩ := opencl_ccmaPart_ok c dev direct vel size hccma hbig
    obtain ⟨hdone, hpoll⟩ := stagedPolling_of_shape dev.converged
      (OpenCLIntegrationUtilities.iterationEvents c direct vel size) size k
      (opencl_iterationEvents_flagReads c direct vel size)
      (opencl_iterationEvents_updates c direct vel size) hk1 hk2 hk4 hk5
    rw [hk6]
    exact ⟨hpoll, by rw [hdone]⟩

/-- Witness of C9, amended: 2000 CCMA constraints on a device on which every
call succeeds and the flag reads nonzero in iteration 11 (the twelfth). -/
theorem staged_polling_witness :
    StagedPolling (fun i => if i = 11 then 1 else 0)
      (CudaIntegrationUtilities.ccmaPart (ccmaOnly .Double 2000 3000)
        (okDevice (fun i => if i = 11 then 1 else 0)) false).trace :=
  ((staged_polling (ccmaOnly .Double 2000 3000)
    (okDevice (fun i => if i = 11 then 1 else 0)) false 2000 rfl (by decide)).1
    (fun _ => rfl) (fun _ => rfl)).1

/-- Counterexample to C9 as stated: with 2000 CCMA constraints and
`cuEventSynchronize` returning status 700 in iteration 3, the CUDA
`applyConstraintsImpl` throws after four iterations without reading the flag:
no flag read follows iteration 4, and the loop ends after 4 iterations, not
150, although no read was nonzero. -/
theorem staged_polling_synchronize_failure :
    (CudaIntegrationUtilities.applyConstraintsImpl (ccmaOnly .Single 2000 3000)
        (synchronizeFailure 3 700) true).error.isSome = true ∧
    iterationsDone (CudaIntegrationUtilities.applyConstraintsImpl (ccmaOnly .Single 2000 3000)
        (synchronizeFailure 3 700) true).trace = 4 ∧
    flagReads (CudaIntegrationUtilities.applyConstraintsImpl (ccmaOnly .Single 2000 3000)
        (synchronizeFailure 3 700) true).trace = [] ∧
    ¬ StagedPolling (synchronizeFailure 3 700).converged
      (CudaIntegrationUtilities.ccmaPart (ccmaOnly .Single 2000 3000)
        (synchronizeFailure 3 700) true).trace := by
  have hdone : iterationsDone (CudaIntegrationUtilities.ccmaPart (ccmaOnly .Single 2000 3000)
      (synchronizeFailure 3 700) true).trace = 4 := by decide
  refine ⟨by decide, by decide, by decide, ?_⟩
  rintro ⟨-, h | h⟩
  · obtain ⟨m, -, -, -, hne, -, -⟩ := h
    exact hne rfl
  · rw [hdone] at h
    omega

/-- C10: silent non-convergence.  If the staged strategy runs, every event
call succeeds and the flag reads zero at every check, `applyConstraintsImpl`
performs exactly 150 iterations and returns normally: it throws nothing, and
its operations are those of 150 whole iterations, none of which reports a
failure to converge.  The same holds for the OpenCL implementation. -/
theorem silent_nonconvergence (c : Constraints) (dev : Device) (vel : Bool) (size : Nat)
    (hccma : c.ccmaConstraintAtoms = some size) (hbig : 1024 < size)
    (hrec : ∀ i, dev.recordStatus i = CUDA_SUCCESS)
    (hsync : ∀ i, dev.synchronizeStatus i = CUDA_SUCCESS)
    (hflag : ∀ i, (i + 1) % 4 = 0 → dev.converged i = 0) :
    (CudaIntegrationUtilities.applyConstraintsImpl c dev vel).error = none ∧
    iterationsDone (CudaIntegrationUtilities.applyConstraintsImpl c dev vel).trace = 150 ∧
    (CudaIntegrationUtilities.applyConstraintsImpl c dev vel).trace
      = settleLaunch c vel ++ shakeLaunch c vel ++ ccmaDirectionsLaunch size ::
          (List.range 150).flatMap (CudaIntegrationUtilities.iterationEvents c vel size) ∧
    (∀ direct,
      (OpenCLIntegrationUtilities.applyConstraintsImpl c dev direct vel).error = none ∧
      iterationsDone (OpenCLIntegrationUtilities.applyConstraintsImpl c dev direct vel).trace
        = 150 ∧
      (OpenCLIntegrationUtilities.applyConstraintsImpl c dev direct vel).trace
        = settleLaunch c vel ++ shakeLaunch c vel ++ ccmaDirectionsLaunch size ::
            (List.range 150).flatMap
              (OpenCLIntegrationUtilities.iterationEvents c direct vel size)) := by
  have hk150 : ∀ k, (k = 150 ∨ (k % 4 = 0 ∧ dev.converged (k - 1) ≠ 0)) → 1 ≤ k → k = 150 := by
    intro k hk5 hk1
    rcases hk5 with h | h
    · exact h
    · exact absurd (hflag (k - 1) (by omega)) h.2
  obtain ⟨k, hk1, hk2, hk4, hk5, hk6⟩ := cuda_ccmaPart_ok c dev vel size hccma hbig hrec hsync
  obtain ⟨hdone, -⟩ := stagedPolling_of_shape dev.converged
    (CudaIntegrationUtilities.iterationEvents c vel size) size k
    (cuda_iterationEvents_flagReads c vel size) (cuda_iterationEvents_updates c vel size)
    hk1 hk2 hk4 hk5
  have hk := hk150 k hk5 hk1
  subst hk
  refine ⟨?_, ?_, ?_, ?_⟩
  · simp [CudaIntegrationUtilities.applyConstraintsImpl, Outcome.after, hk6]
  · simp only [CudaIntegrationUtilities.applyConstraintsImpl, Outcome.after, hk6]
    rw [iterationsDone_settle_shake, hdone]
  · simp only [CudaIntegrationUtilities.applyConstraintsImpl, Outcome.after, hk6]
  · intro direct
    obtain ⟨k, hk1, hk2, hk4, hk5, hk6⟩ := opencl_ccmaPart_ok c dev direct vel size hccma hbig
    obtain ⟨hdone, -⟩ := stagedPolling_of_shape dev.converged
      (OpenCLIntegrationUtilities.iterationEvents c direct vel size) size k
      (opencl_iterationEvents_flagReads c direct vel size)
      (opencl_iterationEvents_updates c direct vel size) hk1 hk2 hk4 hk5
    have hk := hk150 k hk5 hk1
    subst hk
    refine ⟨?_, ?_, ?_⟩
    · simp [OpenCLIntegrationUtilities.applyConstraintsImpl, Outcome.after, hk6]
    · simp only [OpenCLIntegrationUtilities.applyConstraintsImpl, Outcome.after, hk6]
      rw [iterationsDone_settle_shake, hdone]
    · simp only [OpenCLIntegrationUtilities.applyConstraintsImpl, Outcome.after, hk6]

/-- Witness of C10: 2000 CCMA constraints on a device on which every call
succeeds and the flag always reads 0. -/
theorem silent_nonconvergence_witness :
    (CudaIntegrationUtilities.applyConstraintsImpl (ccmaOnly .F16 2000 3000)
        (okDevice (fun _ => 0)) true).error = none ∧
    iterationsDone (CudaIntegrationUtilities.applyConstraintsImpl (ccmaOnly .F16 2000 3000)
        (okDevice (fun _ => 0)) true).trace = 150 := by
  have h := silent_nonconvergence (ccmaOnly .F16 2000 3000) (okDevice (fun _ => 0)) true 2000
    rfl (by decide) (fun _ => rfl) (fun _ => rfl) (fun _ _ => rfl)
  exact ⟨h.1, h.2.1⟩

/-! ## The accumulation loop and the tree reduction of `selectVerletStepSize` -/

theorem errorTerm_eq (p : Nat) (b : Buffers) (i : Nat) (err : ℚ) :
    errorTerm p b i err = err + particleError p b i := by
  unfold errorTerm particleError forceScale
  rw [Nat.mul_comm p 2]
  ring

/-- A strided loop that adds `t index` to an accumulator yields the sum of
`t` over the indices below `bound` in the thread's residue class. -/
theorem forStride_sum (t : Nat → ℚ) (bound size gid : Nat) (hgid : gid < size) :
    forStride (fun i acc => acc + t i) bound size bound gid 0
      = ∑ i ∈ (Finset.range bound).filter (fun i => i % size = gid), t i := by
  have h := strideThread_inv (fun i acc => acc + t i) bound size gid
    (fun D acc => ∃ F : Finset Nat, (↑F : Set Nat) = D ∧ acc = ∑ i ∈ F, t i) hgid
    (by
      rintro D i s - hi ⟨F, hF, hs⟩
      have hiF : i ∉ F := fun h => hi (by rw [← hF]; exact h)
      refine ⟨insert i F, by rw [Finset.coe_insert, hF], ?_⟩
      rw [Finset.sum_insert hiF, hs]
      ring)
    ∅ 0 (fun j hj => absurd hj (Set.not_mem_empty j)) ⟨∅, by simp, by simp⟩
  obtain ⟨F, hF, hs⟩ := h
  have hFeq : F = (Finset.range bound).filter (fun i => i % size = gid) := by
    apply Finset.coe_injective
    rw [hF]
    ext j
    simp
  rw [hs, hFeq]

theorem forStride_append (bound stride : Nat) :
    ∀ (fuel index : Nat) (acc : List Nat),
      forStride (fun i v => v ++ [i]) bound stride fuel index acc
        = acc ++ forStride (fun i v => v ++ [i]) bound stride fuel index [] := by
  intro fuel
  induction fuel with
  | zero => intro index acc; simp [forStride]
  | succ fuel ih =>
    intro index acc
    simp only [forStride]
    split_ifs
    · rw [ih (index + stride) (acc ++ [index]), ih (index + stride) ([] ++ [index])]
      simp
    · simp

/-- A strided loop is the fold of its body over the indices it visits. -/
theorem forStride_eq_foldl {σ : Type} (body : Nat → σ → σ) (bound stride : Nat) :
    ∀ (fuel index : Nat) (s : σ),
      forStride body bound stride fuel index s
        = (forStride (fun i v => v ++ [i]) bound stride fuel index []).foldl
            (fun st i => body i st) s := by
  intro fuel
  induction fuel with
  | zero => intro index s; simp [forStride]
  | succ fuel ih =>
    intro index s
    simp only [forStride]
    split_ifs
    · rw [ih (index + stride) (body index s),
        forStride_append bound stride fuel (index + stride) ([] ++ [index])]
      simp
    · simp

theorem foldl_add_eq_sum (t : Nat → ℚ) (l : List Nat) (a : ℚ) :
    l.foldl (fun acc i => acc + t i) a = a + (l.map t).sum := by
  induction l generalizing a with
  | nil => simp
  | cons x l ih =>
    simp only [List.foldl_cons, List.map_cons, List.sum_cons]
    rw [ih]
    ring

/-- The indices a thread visits in its strided loop: each index below
`numAtoms` of its residue class, once. -/
theorem threadIndices_spec (localSize numAtoms localId : Nat) (hlid : localId < localSize) :
    (threadIndices localSize numAtoms localId).Nodup ∧
    ∀ j, j ∈ threadIndices localSize numAtoms localId ↔ j < numAtoms ∧ j % localSize = localId := by
  have h := strideThread_inv (fun i v => v ++ [i]) numAtoms localSize localId
    (fun D (acc : List Nat) => acc.Nodup ∧ ∀ j, j ∈ acc ↔ j ∈ D) hlid
    (by
      rintro D i s - hi ⟨hnd, hmem⟩
      refine ⟨?_, ?_⟩
      · rw [List.nodup_append]
        refine ⟨hnd, List.nodup_singleton i, ?_⟩
        intro a ha hb
        rw [List.mem_singleton] at hb
        subst hb
        exact hi ((hmem a).1 ha)
      · intro j
        simp only [List.mem_append, List.mem_singleton, Set.mem_insert_iff, hmem]
        tauto)
    ∅ [] (fun j hj => absurd hj (Set.not_mem_empty j)) ⟨List.nodup_nil, by simp⟩
  refine ⟨h.1, fun j => ?_⟩
  rw [threadIndices, h.2 j]
  simp

theorem threadError_eq_sum (localSize numAtoms p : Nat) (b : Buffers) (localId : Nat)
    (hlid : localId < localSize) :
    threadError localSize numAtoms p b localId
      = ∑ i ∈ (Finset.range numAtoms).filter (fun i => i % localSize = localId),
          particleError p b i := by
  unfold threadError
  have hbody : errorTerm p b = fun i acc => acc + particleError p b i := by
    funext i acc
    exact errorTerm_eq p b i acc
  rw [hbody]
  exact forStride_sum _ numAtoms localSize localId hlid

theorem threadError_eq_list_sum (localSize numAtoms p : Nat) (b : Buffers) (localId : Nat) :
    threadError localSize numAtoms p b localId
      = ((threadIndices localSize numAtoms localId).map (particleError p b)).sum := by
  unfold threadError threadIndices
  have hbody : errorTerm p b = fun i acc => acc + particleError p b i := by
    funext i acc
    exact errorTerm_eq p b i acc
  rw [hbody, forStride_eq_foldl, foldl_add_eq_sum]
  simp

theorem foldl_store_apply {α : Type} (f : Nat → α) (e0 : Nat → α) (g j : Nat) :
    (List.range g).foldl (fun e lid => store e lid (f lid)) e0 j
      = if j < g then f j else e0 j := by
  induction g with
  | zero => simp
  | succ g ih =>
    rw [List.range_succ, List.foldl_append]
    simp only [List.foldl_cons, List.foldl_nil, store]
    by_cases hj : j = g
    · subst hj
      simp
    · rw [if_neg hj, ih]
      by_cases hlt : j < g
      · rw [if_pos hlt, if_pos (by omega)]
      · rw [if_neg hlt, if_neg (by omega)]

theorem initialError_apply (localSize numAtoms p : Nat) (b : Buffers) (j : Nat) :
    initialError localSize numAtoms p b j
      = if j < localSize then threadError localSize numAtoms p b j else 0 := by
  unfold initialError runThreads
  exact foldl_store_apply _ _ localSize j

/-- One round of the reduction, entry by entry: the threads run one after the
other give what the simultaneous update gives. -/
theorem reduceRound_apply (localSize offset : Nat) (e : Nat → ℚ) (j : Nat) :
    reduceRound localSize offset e j
      = if j + offset < localSize ∧ j &&& (2 * offset - 1) = 0 then e j + e (j + offset)
        else e j := by
  have key : ∀ g, g ≤ localSize → ∀ j,
      (List.range g).foldl (fun e lid =>
        if lid + offset < localSize ∧ lid &&& (2 * offset - 1) = 0 then
          store e lid (e lid + e (lid + offset))
        else e) e j
        = if j < g ∧ j + offset < localSize ∧ j &&& (2 * offset - 1) = 0 then
            e j + e (j + offset)
          else e j := by
    intro g
    induction g with
    | zero => intro _ j; simp
    | succ g ih =>
      intro hg j
      rw [List.range_succ, List.foldl_append]
      simp only [List.foldl_cons, List.foldl_nil]
      have ihg := ih (by omega)
      by_cases hc : g + offset < localSize ∧ g &&& (2 * offset - 1) = 0
      · rw [if_pos hc]
        by_cases hj : j = g
        · subst hj
          simp only [store, if_true]
          rw [ihg j, ihg (j + offset), if_neg (by omega), if_neg (by omega),
            if_pos ⟨by omega, hc⟩]
        · simp only [store, if_neg hj]
          rw [ihg j]
          by_cases hlt : j < g
          · simp [hlt, show j < g + 1 by omega]
          · simp [hlt, show ¬ j < g + 1 by omega]
      · rw [if_neg hc, ihg j]
        by_cases hj : j = g
        · subst hj
          rw [if_neg (by omega), if_neg (fun h => hc h.2)]
        · by_cases hlt : j < g
          · simp [hlt, show j < g + 1 by omega]
          · simp [hlt, show ¬ j < g + 1 by omega]
  have h := key localSize (le_refl _) j
  unfold reduceRound runThreads
  rw [h]
  by_cases hc : j + offset < localSize ∧ j &&& (2 * offset - 1) = 0
  · rw [if_pos hc, if_pos ⟨by omega, hc⟩]
  · rw [if_neg hc, if_neg (fun h => hc h.2)]

/-- The reduction loop started at offset `2^k` on an array whose entries at the
multiples of `2^k` hold the sums of the blocks of `e0` that start there leaves
the sum of `e0` over all threads in `error[0]`. -/
theorem reduceLoop_sum (localSize : Nat) (hpos : 0 < localSize) (e0 : Nat → ℚ) :
    ∀ (fuel k : Nat) (e : Nat → ℚ), localSize ≤ 2 ^ k * 2 ^ fuel →
      (∀ j, j < localSize → j % 2 ^ k = 0 →
        e j = ∑ t ∈ Finset.Ico j (min (j + 2 ^ k) localSize), e0 t) →
      reduceLoop localSize fuel (2 ^ k) e 0 = ∑ t ∈ Finset.range localSize, e0 t := by
  intro fuel
  induction fuel with
  | zero =>
    intro k e hfuel hinv
    simp only [reduceLoop]
    rw [hinv 0 hpos (Nat.zero_mod _), Finset.range_eq_Ico]
    congr 2
    simp at hfuel
    omega
  | succ fuel ih =>
    intro k e hfuel hinv
    simp only [reduceLoop]
    split_ifs with hlt
    · have hpow : 2 ^ k * 2 = 2 ^ (k + 1) := by ring
      rw [hpow]
      apply ih (k + 1)
      · calc localSize ≤ 2 ^ k * 2 ^ (fuel + 1) := hfuel
          _ = 2 ^ (k + 1) * 2 ^ fuel := by ring
      · intro j hj hmod
        have hmodk : j % 2 ^ k = 0 := by
          have hdvd : 2 ^ k ∣ j := Dvd.dvd.trans (pow_dvd_pow 2 (Nat.le_succ k))
            (Nat.dvd_of_mod_eq_zero hmod)
          exact Nat.mod_eq_zero_of_dvd hdvd
        have hand : j &&& (2 * 2 ^ k - 1) = 0 := by
          have : 2 * 2 ^ k = 2 ^ (k + 1) := by ring
          rw [this, Nat.and_pow_two_sub_one_eq_mod, hmod]
        have h2 : 2 ^ (k + 1) = 2 ^ k + 2 ^ k := by ring
        rw [reduceRound_apply]
        by_cases hc : j + 2 ^ k < localSize
        · rw [if_pos ⟨hc, hand⟩, hinv j hj hmodk, hinv (j + 2 ^ k) hc (by
            simp [Nat.add_mod, hmodk]), min_eq_left (by omega)]
          have hmin : min (j + 2 ^ k + 2 ^ k) localSize = min (j + 2 ^ (k + 1)) localSize := by
            rw [h2]
            congr 1
            omega
          rw [hmin]
          exact Finset.sum_Ico_consecutive e0 (by omega) (le_min (by omega) (by omega))
        · rw [if_neg (fun h => hc h.1), hinv j hj hmodk, min_eq_right (by omega),
            min_eq_right (by omega)]
    · rw [hinv 0 hpos (Nat.zero_mod _), Finset.range_eq_Ico]
      congr 2
      omega

/-- The tree reduction leaves the sum of the error terms of all particles in
`error[0]`, for every work-group size from 1 on. -/
theorem reducedError_eq_errorSum (localSize numAtoms p : Nat) (b : Buffers)
    (hpos : 0 < localSize) :
    reducedError localSize numAtoms p b 0 = errorSum numAtoms p b := by
  unfold reducedError
  have h := reduceLoop_sum localSize hpos (initialError localSize numAtoms p b) localSize 0
    (initialError localSize numAtoms p b)
    (by
      have := Nat.lt_two_pow localSize
      simp
      omega)
    (by
      intro j hj _
      have : min (j + 2 ^ 0) localSize = j + 1 := by
        simp
        omega
      rw [this]
      simp)
  simp only [pow_zero] at h
  rw [h]
  have h1 : ∑ t ∈ Finset.range localSize, initialError localSize numAtoms p b t
      = ∑ t ∈ Finset.range localSize,
          ∑ i ∈ (Finset.range numAtoms).filter (fun i => i % localSize = t),
            particleError p b i := by
    apply Finset.sum_congr rfl
    intro t ht
    have hlt : t < localSize := Finset.mem_range.mp ht
    rw [initialError_apply, if_pos hlt, threadError_eq_sum _ _ _ _ _ hlt]
  rw [h1]
  unfold errorSum
  exact Finset.sum_fiberwise_of_maps_to
    (fun i _ => Finset.mem_range.mpr (Nat.mod_lt i hpos)) _

theorem roundAccesses_lt (localSize offset : Nat) :
    ∀ idx ∈ roundAccesses localSize offset, idx < localSize := by
  intro idx hidx
  unfold roundAccesses at hidx
  rw [List.mem_flatMap] at hidx
  obtain ⟨lid, -, h⟩ := hidx
  split_ifs at h with hc
  · simp only [List.mem_cons, List.mem_singleton, List.not_mem_nil, or_false] at h
    rcases h with h | h <;> omega
  · simp at h

theorem reduceAccesses_lt (localSize : Nat) :
    ∀ (fuel offset : Nat), ∀ idx ∈ reduceAccesses localSize fuel offset, idx < localSize := by
  intro fuel
  induction fuel with
  | zero => intro offset idx h; simp [reduceAccesses] at h
  | succ fuel ih =>
    intro offset idx h
    simp only [reduceAccesses] at h
    split_ifs at h
    · rw [List.mem_append] at h
      rcases h with h | h
      · exact roundAccesses_lt _ _ _ h
      · exact ih _ _ h
    · simp at h

theorem errorAccesses_lt (localSize : Nat) (hpos : 0 < localSize) :
    ∀ idx ∈ errorAccesses localSize, idx < localSize := by
  intro idx h
  unfold errorAccesses at h
  simp only [List.mem_append, List.mem_range, List.mem_singleton] at h
  rcases h with (h | h) | h
  · exact h
  · exact reduceAccesses_lt _ _ _ _ h
  · omega

theorem Outcome.after_nil (o : Outcome) : Outcome.after [] o = o := by
  cases o
  rfl

theorem Outcome.after_after (a b : List Event) (o : Outcome) :
    Outcome.after a (Outcome.after b o) = Outcome.after (a ++ b) o := by
  simp [Outcome.after]

/-- An iteration of the CUDA loop in which no event call fails and the flag,
if read, is zero: all its operations are issued and the loop goes on. -/
theorem cuda_stagedLoop_step (c : Constraints) (dev : Device) (vel : Bool) (size fuel i : Nat)
    (hi : i < 150)
    (hok : (i + 1) % 4 = 0 → dev.recordStatus i = CUDA_SUCCESS ∧
      dev.synchronizeStatus i = CUDA_SUCCESS ∧ dev.converged i = 0) :
    CudaIntegrationUtilities.stagedLoop c dev vel size (fuel + 1) i
      = Outcome.after (CudaIntegrationUtilities.iterationEvents c vel size i)
          (CudaIntegrationUtilities.stagedLoop c dev vel size fuel (i + 1)) := by
  simp only [CudaIntegrationUtilities.stagedLoop, if_pos hi,
    CudaIntegrationUtilities.iterationEvents]
  by_cases hc : (i + 1) % 4 = 0
  · obtain ⟨h1, h2, h3⟩ := hok hc
    simp [hc, h1, h2, h3]
  · simp [hc]

/-- The CUDA loop up to a check that is reached: while no event call fails and
no flag reads nonzero, whole iterations are issued. -/
theorem cuda_stagedLoop_whole_iterations (c : Constraints) (dev : Device) (vel : Bool) (size : Nat) :
    ∀ (n i fuel : Nat), i + n ≤ 150 →
      (∀ j, i ≤ j → j < i + n → (j + 1) % 4 = 0 → dev.recordStatus j = CUDA_SUCCESS ∧
        dev.synchronizeStatus j = CUDA_SUCCESS ∧ dev.converged j = 0) →
      CudaIntegrationUtilities.stagedLoop c dev vel size (fuel + n) i
        = Outcome.after
            ((List.range' i n).flatMap (CudaIntegrationUtilities.iterationEvents c vel size))
            (CudaIntegrationUtilities.stagedLoop c dev vel size fuel (i + n)) := by
  intro n
  induction n with
  | zero =>
    intro i fuel _ _
    simp [Outcome.after_nil]
  | succ n ih =>
    intro i fuel hle hok
    have hstep := cuda_stagedLoop_step c dev vel size (fuel + n) i (by omega)
      (hok i (le_refl _) (by omega))
    have hrest := ih (i + 1) fuel (by omega) (fun j h1 h2 => hok j (by omega) (by omega))
    rw [show fuel + (n + 1) = fuel + n + 1 by omega, hstep, hrest, Outcome.after_after,
      List.range'_succ, List.flatMap_cons, show i + 1 + n = i + (n + 1) by omega]

theorem cuda_stagedLoop_record_failure (c : Constraints) (dev : Device) (vel : Bool)
    (size fuel i : Nat) (hi : i < 150) (hc : (i + 1) % 4 = 0)
    (hfail : dev.recordStatus i ≠ CUDA_SUCCESS) :
    CudaIntegrationUtilities.stagedLoop c dev vel size (fuel + 1) i
      = ⟨[ccmaForceLaunch c vel .ccmaConvergedDeviceMemory size i, .eventRecord, .eventRecord,
            .eventRecord],
          some (checkResultMessage dev (dev.recordAgain i 1) (dev.recordAgain i 2)
            "Error recording event for CCMA" 177)⟩ := by
  simp only [CudaIntegrationUtilities.stagedLoop, if_pos hi, if_pos hc, if_pos hfail]

theorem cuda_stagedLoop_synchronize_failure (c : Constraints) (dev : Device) (vel : Bool)
    (size fuel i : Nat) (hi : i < 150) (hc : (i + 1) % 4 = 0)
    (hrec : dev.recordStatus i = CUDA_SUCCESS)
    (hfail : dev.synchronizeStatus i ≠ CUDA_SUCCESS) :
    CudaIntegrationUtilities.stagedLoop c dev vel size (fuel + 1) i
      = ⟨[ccmaForceLaunch c vel .ccmaConvergedDeviceMemory size i, .eventRecord,
            ccmaMultiplyLaunch size i, ccmaUpdateLaunch c vel i, .eventSynchronize,
            .eventSynchronize, .eventSynchronize],
          some (checkResultMessage dev (dev.synchronizeAgain i 1) (dev.synchronizeAgain i 2)
            "Error synchronizing on event for CCMA" 183)⟩ := by
  simp only [CudaIntegrationUtilities.stagedLoop, if_pos hi, if_pos hc, hrec, ne_eq,
    not_true_eq_false, if_false, if_pos hfail]

/-- Every operation of the CUDA staged loop, on any device, is a launch of one
of the three loop kernels with the arguments of the call, or an event call. -/
theorem cuda_stagedLoop_events (c : Constraints) (dev : Device) (vel : Bool) (size : Nat) :
    ∀ (fuel i : Nat), ∀ e ∈ (CudaIntegrationUtilities.stagedLoop c dev vel size fuel i).trace,
      StagedEvent c vel .ccmaConvergedDeviceMemory size e := by
  intro fuel
  induction fuel with
  | zero =>
    intro i e he
    simp [CudaIntegrationUtilities.stagedLoop] at he
  | succ fuel ih =>
    intro i
    have hf : StagedEvent c vel .ccmaConvergedDeviceMemory size
        (ccmaForceLaunch c vel .ccmaConvergedDeviceMemory size i) := Or.inl ⟨i, rfl⟩
    have hm : StagedEvent c vel .ccmaConvergedDeviceMemory size (ccmaMultiplyLaunch size i) :=
      Or.inr (Or.inl ⟨i, rfl⟩)
    have hu : StagedEvent c vel .ccmaConvergedDeviceMemory size (ccmaUpdateLaunch c vel i) :=
      Or.inr (Or.inr (Or.inl ⟨i, rfl⟩))
    have hr : StagedEvent c vel .ccmaConvergedDeviceMemory size .eventRecord :=
      Or.inr (Or.inr (Or.inr rfl))
    have hs : StagedEvent c vel .ccmaConvergedDeviceMemory size .eventSynchronize :=
      Or.inr (Or.inr (Or.inr rfl))
    have hq : StagedEvent c vel .ccmaConvergedDeviceMemory size (.readConverged i) :=
      Or.inr (Or.inr (Or.inr rfl))
    simp only [CudaIntegrationUtilities.stagedLoop]
    split_ifs <;>
      simp [Outcome.after, List.forall_mem_append, hf, hm, hu, hr, hs, hq] <;>
      exact ih (i + 1)

theorem opencl_stagedLoop_events (c : Constraints) (dev : Device) (direct vel : Bool)
    (size : Nat) :
    ∀ (fuel i : Nat),
      ∀ e ∈ (OpenCLIntegrationUtilities.stagedLoop c dev direct vel size fuel i).trace,
        StagedEvent c vel .ccmaConvergedHostBuffer size e := by
  intro fuel
  induction fuel with
  | zero =>
    intro i e he
    simp [OpenCLIntegrationUtilities.stagedLoop] at he
  | succ fuel ih =>
    intro i
    have hf : StagedEvent c vel .ccmaConvergedHostBuffer size
        (ccmaForceLaunch c vel .ccmaConvergedHostBuffer size i) := Or.inl ⟨i, rfl⟩
    have hm : StagedEvent c vel .ccmaConvergedHostBuffer size (ccmaMultiplyLaunch size i) :=
      Or.inr (Or.inl ⟨i, rfl⟩)
    have hu : StagedEvent c vel .ccmaConvergedHostBuffer size (ccmaUpdateLaunch c vel i) :=
      Or.inr (Or.inr (Or.inl ⟨i, rfl⟩))
    have hr : StagedEvent c vel .ccmaConvergedHostBuffer size .enqueueReadBuffer :=
      Or.inr (Or.inr (Or.inr rfl))
    have hs : StagedEvent c vel .ccmaConvergedHostBuffer size .eventWait :=
      Or.inr (Or.inr (Or.inr rfl))
    have hb : StagedEvent c vel .ccmaConvergedHostBuffer size .mapConvergedBuffer :=
      Or.inr (Or.inr (Or.inr rfl))
    have hq : StagedEvent c vel .ccmaConvergedHostBuffer size (.readConverged i) :=
      Or.inr (Or.inr (Or.inr rfl))
    simp only [OpenCLIntegrationUtilities.stagedLoop]
    cases direct <;> split_ifs <;>
      simp [Outcome.after, List.forall_mem_append, hf, hm, hu, hr, hs, hb, hq] <;>
      exact ih (i + 1)


/-! ## The operations of a whole call -/

theorem cuda_trace_class (c : Constraints) (dev : Device) (vel : Bool) :
    ∀ e ∈ (CudaIntegrationUtilities.applyConstraintsImpl c dev vel).trace,
      e ∈ settleLaunch c vel ∨ e ∈ shakeLaunch c vel ∨ e = ccmaFullLaunch c vel ∨
      (∃ size, e = ccmaDirectionsLaunch size) ∨
      (∃ size, StagedEvent c vel .ccmaConvergedDeviceMemory size e) := by
  intro e he
  unfold CudaIntegrationUtilities.applyConstraintsImpl CudaIntegrationUtilities.ccmaPart at he
  simp only [Outcome.after, List.mem_append] at he
  rcases he with (he | he) | he
  · exact Or.inl he
  · exact Or.inr (Or.inl he)
  · cases hcc : c.ccmaConstraintAtoms with
    | none => simp [hcc] at he
    | some size =>
      rw [hcc] at he
      simp only at he
      split_ifs at he
      · simp only [List.mem_singleton] at he
        exact Or.inr (Or.inr (Or.inl he))
      · simp only [List.singleton_append, List.mem_cons] at he
        rcases he with he | he
        · exact Or.inr (Or.inr (Or.inr (Or.inl ⟨size, he⟩)))
        · exact Or.inr (Or.inr (Or.inr (Or.inr
            ⟨size, cuda_stagedLoop_events c dev vel size 150 0 e he⟩)))

theorem opencl_trace_class (c : Constraints) (dev : Device) (direct vel : Bool) :
    ∀ e ∈ (OpenCLIntegrationUtilities.applyConstraintsImpl c dev direct vel).trace,
      e ∈ settleLaunch c vel ∨ e ∈ shakeLaunch c vel ∨ e = ccmaFullLaunch c vel ∨
      (∃ size, e = ccmaDirectionsLaunch size) ∨
      (∃ size, StagedEvent c vel .ccmaConvergedHostBuffer size e) := by
  intro e he
  unfold OpenCLIntegrationUtilities.applyConstraintsImpl OpenCLIntegrationUtilities.ccmaPart
    at he
  simp only [Outcome.after, List.mem_append] at he
  rcases he with (he | he) | he
  · exact Or.inl he
  · exact Or.inr (Or.inl he)
  · cases hcc : c.ccmaConstraintAtoms with
    | none => simp [hcc] at he
    | some size =>
      rw [hcc] at he
      simp only at he
      split_ifs at he
      · simp only [List.mem_singleton] at he
        exact Or.inr (Or.inr (Or.inl he))
      · simp only [List.singleton_append, List.mem_cons] at he
        rcases he with he | he
        · exact Or.inr (Or.inr (Or.inr (Or.inl ⟨size, he⟩)))
        · exact Or.inr (Or.inr (Or.inr (Or.inr
            ⟨size, opencl_stagedLoop_events c dev direct vel size 150 0 e he⟩)))

theorem tolArg_bits (p : PrecisionLevel) : (tolArg p).bits = precisionBits p := by
  cases p <;> rfl

/-- Each operation a call can issue passes the tolerance, in the slot of its
kernel, with the width of the precision mode. -/
theorem tolerance_of_class (c : Constraints) (vel : Bool) (flag : DeviceBuffer) (e : Event)
    (h : e ∈ settleLaunch c vel ∨ e ∈ shakeLaunch c vel ∨ e = ccmaFullLaunch c vel ∨
      (∃ size, e = ccmaDirectionsLaunch size) ∨ (∃ size, StagedEvent c vel flag size e)) :
    ∀ k slot, e.kernel = some k → toleranceSlot k = some slot →
      e.arg slot = some (Arg.tol (tolArg c.precision)) := by
  intro k slot hk hslot
  rcases h with h | h | h | ⟨size, h⟩ | ⟨size, h | h | h | h⟩
  · unfold settleLaunch at h
    cases hs : c.settleAtoms <;> rw [hs] at h <;> simp only [List.mem_singleton,
      List.not_mem_nil] at h
    subst h
    cases vel <;> simp [Event.kernel] at hk <;> subst hk <;> simp [toleranceSlot] at hslot <;>
      subst hslot <;> simp [Event.arg, List.lookup]
  · unfold shakeLaunch at h
    cases hs : c.shakeAtoms <;> rw [hs] at h <;> simp only [List.mem_singleton,
      List.not_mem_nil] at h
    subst h
    cases vel <;> simp [Event.kernel] at hk <;> subst hk <;> simp [toleranceSlot] at hslot <;>
      subst hslot <;> simp [Event.arg, List.lookup]
  · subst h
    simp [ccmaFullLaunch, Event.kernel] at hk
    subst hk
    simp [toleranceSlot] at hslot
    subst hslot
    simp [ccmaFullLaunch, Event.arg, List.lookup]
  · subst h
    simp [ccmaDirectionsLaunch, Event.kernel] at hk
    subst hk
    simp [toleranceSlot] at hslot
  · obtain ⟨i, rfl⟩ := h
    cases vel <;> simp [ccmaForceLaunch, Event.kernel] at hk <;> subst hk <;>
      simp [toleranceSlot] at hslot <;> subst hslot <;>
      simp [ccmaForceLaunch, Event.arg, List.lookup]
  · obtain ⟨i, rfl⟩ := h
    simp [ccmaMultiplyLaunch, Event.kernel] at hk
    subst hk
    simp [toleranceSlot] at hslot
  · obtain ⟨i, rfl⟩ := h
    simp [ccmaUpdateLaunch, Event.kernel] at hk
    subst hk
    simp [toleranceSlot] at hslot
  · rw [h] at hk
    simp at hk

/-- Each operation a call can issue launches the variant selected by
`constrainVelocities`, gives the full kernel that flag and the update kernel
the matching buffer. -/
theorem target_of_class (c : Constraints) (vel : Bool) (flag : DeviceBuffer) (e : Event)
    (h : e ∈ settleLaunch c vel ∨ e ∈ shakeLaunch c vel ∨ e = ccmaFullLaunch c vel ∨
      (∃ size, e = ccmaDirectionsLaunch size) ∨ (∃ size, StagedEvent c vel flag size e)) :
    ∀ k, e.kernel = some k →
      (vel = true → k.isPositionVariant = false) ∧
      (vel = false → k.isVelocityVariant = false) ∧
      (k = Kernel.ccmaFullKernel → e.arg 0 = some (Arg.int (if vel then 1 else 0))) ∧
      (k = Kernel.ccmaUpdateKernel →
        e.arg 4 = some (Arg.buffer (if vel then DeviceBuffer.velm else DeviceBuffer.posDelta))) := by
  intro k hk
  rcases h with h | h | h | ⟨size, h⟩ | ⟨size, h | h | h | h⟩
  · unfold settleLaunch at h
    cases hs : c.settleAtoms <;> rw [hs] at h <;> simp only [List.mem_singleton,
      List.not_mem_nil] at h
    subst h
    cases vel <;> simp [Event.kernel] at hk <;> subst hk <;>
      simp [Kernel.isPositionVariant, Kernel.isVelocityVariant]
  · unfold shakeLaunch at h
    cases hs : c.shakeAtoms <;> rw [hs] at h <;> simp only [List.mem_singleton,
      List.not_mem_nil] at h
    subst h
    cases vel <;> simp [Event.kernel] at hk <;> subst hk <;>
      simp [Kernel.isPositionVariant, Kernel.isVelocityVariant]
  · subst h
    simp [ccmaFullLaunch, Event.kernel] at hk
    subst hk
    simp [ccmaFullLaunch, Event.arg, List.lookup, Kernel.isPositionVariant,
      Kernel.isVelocityVariant]
  · subst h
    simp [ccmaDirectionsLaunch, Event.kernel] at hk
    subst hk
    simp [Kernel.isPositionVariant, Kernel.isVelocityVariant]
  · obtain ⟨i, rfl⟩ := h
    cases vel <;> simp [ccmaForceLaunch, Event.kernel] at hk <;> subst hk <;>
      simp [Kernel.isPositionVariant, Kernel.isVelocityVariant]
  · obtain ⟨i, rfl⟩ := h
    simp [ccmaMultiplyLaunch, Event.kernel] at hk
    subst hk
    simp [Kernel.isPositionVariant, Kernel.isVelocityVariant]
  · obtain ⟨i, rfl⟩ := h
    simp [ccmaUpdateLaunch, Event.kernel] at hk
    subst hk
    simp [ccmaUpdateLaunch, Event.arg, List.lookup, Kernel.isPositionVariant,
      Kernel.isVelocityVariant]
  · rw [h] at hk
    simp at hk

/-! ## Claims on the error estimate of `selectVerletStepSize` -/

theorem rawStepSize_eq (A : Arith) (localSize numAtoms p : Nat) (errorTol : ℚ) (b : Buffers)
    (hpos : 0 < localSize) :
    rawStepSize A localSize numAtoms p errorTol b
      = A.sqrt (errorTol / A.sqrt (errorSum numAtoms p b / ((numAtoms * 3 : Nat) : ℚ))) := by
  unfold rawStepSize totalError meanSquareError
  rw [reducedError_eq_errorSum localSize numAtoms p b hpos]

theorem errorSum_congr (numAtoms p1 p2 : Nat) (b1 b2 : Buffers)
    (hforce : ∀ i, i < numAtoms → b1.force i = b2.force i ∧
      b1.force (i + p1) = b2.force (i + p2) ∧ b1.force (i + 2 * p1) = b2.force (i + 2 * p2))
    (hmass : ∀ i, i < numAtoms → (b1.velm i).w = (b2.velm i).w) :
    errorSum numAtoms p1 b1 = errorSum numAtoms p2 b2 := by
  unfold errorSum
  apply Finset.sum_congr rfl
  intro i hi
  have hlt := Finset.mem_range.mp hi
  obtain ⟨h1, h2, h3⟩ := hforce i hlt
  unfold particleError
  rw [h1, h2, h3, hmass i hlt]

/-- C12: purity of the step-size selection.  Two runs of
`selectVerletStepSize` with the same arithmetic that agree on `numAtoms`, on
the three force components and the inverse mass of every particle below
`numAtoms`, on `errorTol`, `maxStepSize` and `dt[0].y` write the same
`dt[0].y`, whatever their velocities `velm.xyz`, their `dt[0].x` and their
work-group sizes (from 1 to 256) are; and a run changes nothing but `dt[0].y`. -/
theorem selectVerletStepSize_pure (A : Arith) (localSize1 localSize2 numAtoms p1 p2 : Nat)
    (maxStepSize errorTol : ℚ) (b1 b2 : Buffers)
    (hsize1 : 1 ≤ localSize1 ∧ localSize1 ≤ 256) (hsize2 : 1 ≤ localSize2 ∧ localSize2 ≤ 256)
    (hforce : ∀ i, i < numAtoms → b1.force i = b2.force i ∧
      b1.force (i + p1) = b2.force (i + p2) ∧ b1.force (i + 2 * p1) = b2.force (i + 2 * p2))
    (hmass : ∀ i, i < numAtoms → (b1.velm i).w = (b2.velm i).w)
    (hdt : b1.dt.y = b2.dt.y) :
    (selectVerletStepSize A localSize1 numAtoms p1 maxStepSize errorTol b1).dt.y
      = (selectVerletStepSize A localSize2 numAtoms p2 maxStepSize errorTol b2).dt.y ∧
    (selectVerletStepSize A localSize1 numAtoms p1 maxStepSize errorTol b1).dt.x = b1.dt.x ∧
    (selectVerletStepSize A localSize1 numAtoms p1 maxStepSize errorTol b1).posq = b1.posq ∧
    (selectVerletStepSize A localSize1 numAtoms p1 maxStepSize errorTol b1).posqCorrection
      = b1.posqCorrection ∧
    (selectVerletStepSize A localSize1 numAtoms p1 maxStepSize errorTol b1).velm = b1.velm ∧
    (selectVerletStepSize A localSize1 numAtoms p1 maxStepSize errorTol b1).posDelta
      = b1.posDelta ∧
    (selectVerletStepSize A localSize1 numAtoms p1 maxStepSize errorTol b1).force = b1.force := by
  refine ⟨?_, rfl, rfl, rfl, rfl, rfl, rfl⟩
  simp only [selectVerletStepSize]
  rw [rawStepSize_eq A localSize1 numAtoms p1 errorTol b1 (by omega),
    rawStepSize_eq A localSize2 numAtoms p2 errorTol b2 (by omega),
    errorSum_congr numAtoms p1 p2 b1 b2 hforce hmass, hdt]

/-- Witness of C12: the one-particle system run by 1 thread and by 3 threads,
with different velocities and different `dt[0].x`. -/
theorem selectVerletStepSize_pure_witness :
    (selectVerletStepSize (exactArith false true) 1 1 1 (1 / 100) (1 / 250000)
        (unitBuffers ⟨1 / 1000, 1 / 1000⟩)).dt.y
      = (selectVerletStepSize (exactArith false true) 3 1 1 (1 / 100) (1 / 250000)
        { unitBuffers ⟨7, 1 / 1000⟩ with velm := fun _ => ⟨4, 5, 6, 1⟩ }).dt.y :=
  (selectVerletStepSize_pure (exactArith false true) 1 3 1 1 1 (1 / 100) (1 / 250000)
    (unitBuffers ⟨1 / 1000, 1 / 1000⟩)
    { unitBuffers ⟨7, 1 / 1000⟩ with velm := fun _ => ⟨4, 5, 6, 1⟩ }
    (by decide) (by decide) (fun _ _ => ⟨rfl, rfl, rfl⟩) (fun _ _ => rfl) rfl).1

/-- C13, amended: raw candidate formula.  For a work group of 1 to 256
threads, the candidate computed before any limiting is
`sqrt(errorTol / rmsError)`, where `rmsError` is the square root of the sum over
all particles `i < numAtoms` of `(fx^2 + fy^2 + fz^2) * invMass_i^2` (forces
converted by the factor `2^-32`) divided by `numAtoms * 3`, three times the
particle count. -/
theorem rawStepSize_formula (A : Arith) (localSize numAtoms p : Nat) (errorTol : ℚ) (b : Buffers)
    (hsize : 1 ≤ localSize ∧ localSize ≤ 256) :
    rawStepSize A localSize numAtoms p errorTol b
      = A.sqrt (errorTol / totalError A localSize numAtoms p b) ∧
    totalError A localSize numAtoms p b
      = A.sqrt (errorSum numAtoms p b / ((numAtoms * 3 : Nat) : ℚ)) := by
  refine ⟨rfl, ?_⟩
  unfold totalError meanSquareError
  rw [reducedError_eq_errorSum localSize numAtoms p b (by omega)]

/-- Witness of C13, amended: the one-particle system with unit force
components, where the error sum is 3 and `rmsError` is `sqrt(3 / 3) = 1`. -/
theorem rawStepSize_formula_witness :
    totalError (exactArith false true) 2 1 1 (unitBuffers ⟨0, 0⟩)
      = ratSqrt (errorSum 1 1 (unitBuffers ⟨0, 0⟩) / ((1 * 3 : Nat) : ℚ)) :=
  (rawStepSize_formula (exactArith false true) 2 1 1 1 (unitBuffers ⟨0, 0⟩) (by decide)).2

/-- Counterexample to C13 as stated: for one particle with unit force
components and unit inverse mass the error sum is 3; the kernel takes the root
of `3 / (1 * 3) = 1`, so its `rmsError` is 1 and its square is not the
`3 / 1 = 3` that normalizing by the particle count would give. -/
theorem rawStepSize_normalizer_counterexample :
    errorSum 1 1 (unitBuffers ⟨0, 0⟩) = 3 ∧
    meanSquareError 1 1 1 (unitBuffers ⟨0, 0⟩) = 1 ∧
    totalError (exactArith false true) 1 1 1 (unitBuffers ⟨0, 0⟩) = 1 ∧
    (totalError (exactArith false true) 1 1 1 (unitBuffers ⟨0, 0⟩)) ^ 2
      ≠ errorSum 1 1 (unitBuffers ⟨0, 0⟩) / ((1 : Nat) : ℚ) := by
  have hsum : errorSum 1 1 (unitBuffers ⟨0, 0⟩) = 3 := by
    simp [errorSum, particleError, unitBuffers]
    norm_num
  have hmean : meanSquareError 1 1 1 (unitBuffers ⟨0, 0⟩) = 1 := by
    unfold meanSquareError
    rw [reducedError_unitBuffers]
    norm_num
  have htotal : totalError (exactArith false true) 1 1 1 (unitBuffers ⟨0, 0⟩) = 1 := by
    unfold totalError
    rw [hmean]
    have := ratSqrt_mul_self 1 (by norm_num)
    simpa [exactArith] using this
  refine ⟨hsum, hmean, htotal, ?_⟩
  rw [htotal, hsum]
  norm_num

/-- C16: parallel reduction.  For every work-group size from 1 to 256, powers
of two or not, and every `numAtoms`: each particle index below `numAtoms` is
handled by exactly one thread (thread `index % LOCAL_SIZE`) and once by it, a
thread's `err` is the sum of the error terms of the particles it handles, after
the tree reduction `error[0]` is the sum of the error terms of all particles,
and every index at which `error[]` is accessed is below 256. -/
theorem parallel_reduction (localSize numAtoms p : Nat) (b : Buffers)
    (hsize : 1 ≤ localSize ∧ localSize ≤ 256) :
    (∀ i, i < numAtoms → ∀ localId, localId < localSize →
      (i ∈ threadIndices localSize numAtoms localId ↔ localId = i % localSize)) ∧
    (∀ localId, localId < localSize → (threadIndices localSize numAtoms localId).Nodup ∧
      ∀ i ∈ threadIndices localSize numAtoms localId, i < numAtoms) ∧
    (∀ localId, threadError localSize numAtoms p b localId
      = ((threadIndices localSize numAtoms localId).map (particleError p b)).sum) ∧
    reducedError localSize numAtoms p b 0 = errorSum numAtoms p b ∧
    ∀ idx ∈ errorAccesses localSize, idx < 256 := by
  refine ⟨?_, ?_, ?_, ?_, ?_⟩
  · intro i hi localId hlid
    rw [(threadIndices_spec localSize numAtoms localId hlid).2 i]
    constructor
    · exact fun h => h.2.symm
    · exact fun h => ⟨hi, h.symm⟩
  · intro localId hlid
    refine ⟨(threadIndices_spec localSize numAtoms localId hlid).1, fun i hmem => ?_⟩
    exact (((threadIndices_spec localSize numAtoms localId hlid).2 i).1 hmem).1
  · exact threadError_eq_list_sum localSize numAtoms p b
  · exact reducedError_eq_errorSum localSize numAtoms p b (by omega)
  · intro idx hidx
    have := errorAccesses_lt localSize (by omega) idx hidx
    omega

/-- Witness of C16: five particles on a work group of three threads. -/
theorem parallel_reduction_witness :
    reducedError 3 5 32 pushedParticle 0 = errorSum 5 32 pushedParticle ∧
    ∀ idx ∈ errorAccesses 3, idx < 256 :=
  ⟨(parallel_reduction 3 5 32 pushedParticle (by decide)).2.2.2.1,
    (parallel_reduction 3 5 32 pushedParticle (by decide)).2.2.2.2⟩

/-! ## Claim on the order of the limiting rules -/

theorem zipWith_energy_sum (masses : List ℚ) :
    ∀ (vels : List (ℚ × ℚ × ℚ)), vels.length = masses.length →
      (List.zipWith (fun m v => m * (v.1 ^ 2 + v.2.1 ^ 2 + v.2.2 ^ 2)) masses vels).sum
        = ∑ i ∈ Finset.range masses.length,
            masses.getD i 0 * (velDataOf vels i 0 * velDataOf vels i 0
              + velDataOf vels i 1 * velDataOf vels i 1
              + velDataOf vels i 2 * velDataOf vels i 2) := by
  induction masses with
  | nil =>
    intro vels _
    simp
  | cons m ms ih =>
    intro vels hlen
    cases vels with
    | nil => simp at hlen
    | cons v vs =>
      have hlen' : vs.length = ms.length := by simpa using hlen
      rw [List.zipWith_cons_cons, List.sum_cons, ih vs hlen', List.length_cons,
        Finset.sum_range_succ']
      simp only [velDataOf, List.getD_cons_succ, List.getD_cons_zero]
      ring

theorem execute_eq_sum (masses : List ℚ) (velData : Nat → Nat → ℚ) :
    BrookCalcKineticEnergyKernel.execute masses velData
      = (1 / 2 : ℚ) * ∑ i ∈ Finset.range masses.length,
          masses.getD i 0 * (velData i 0 * velData i 0 + velData i 1 * velData i 1
            + velData i 2 * velData i 2) := by
  unfold BrookCalcKineticEnergyKernel.execute
  simp only
  rw [forStride_sum _ masses.length 1 0 (by decide)]
  congr 1
  apply Finset.sum_congr
  · ext i
    simp [Nat.mod_one]
  · intro i _
    rfl

/-- C14: kinetic energy.  For masses and velocities of equal length,
`BrookCalcKineticEnergyKernel::execute` returns
`0.5 * sum_i m_i * (vx_i^2 + vy_i^2 + vz_i^2)`; it returns 0 for an empty system,
and a non-negative value whenever no mass is negative. -/
theorem kineticEnergy_execute (masses : List ℚ) (vels : List (ℚ × ℚ × ℚ))
    (hlen : vels.length = masses.length) :
    BrookCalcKineticEnergyKernel.execute masses (velDataOf vels) = kineticEnergy masses vels ∧
    BrookCalcKineticEnergyKernel.execute [] (velDataOf []) = 0 ∧
    ((∀ m ∈ masses, 0 ≤ m) → 0 ≤ BrookCalcKineticEnergyKernel.execute masses (velDataOf vels)) := by
  refine ⟨?_, ?_, ?_⟩
  · rw [execute_eq_sum, kineticEnergy, zipWith_energy_sum masses vels hlen]
  · simp [BrookCalcKineticEnergyKernel.execute, forStride]
  · intro hm
    rw [execute_eq_sum]
    apply mul_nonneg (by norm_num)
    apply Finset.sum_nonneg
    intro i hi
    have hlt : i < masses.length := Finset.mem_range.mp hi
    have hmem : masses.getD i 0 ∈ masses := by
      rw [List.getD_eq_getElem _ _ hlt]
      exact List.getElem_mem hlt
    apply mul_nonneg (hm _ hmem)
    have h0 := mul_self_nonneg (velDataOf vels i 0)
    have h1 := mul_self_nonneg (velDataOf vels i 1)
    have h2 := mul_self_nonneg (velDataOf vels i 2)
    linarith

/-- Witness of C14: masses 2 and 4 with velocities `(1, 2, 2)` and `(0, 3, 4)`
have the kinetic energy `0.5 * (2 * 9 + 4 * 25) = 59`. -/
theorem kineticEnergy_execute_witness :
    BrookCalcKineticEnergyKernel.execute [2, 4] (velDataOf [(1, 2, 2), (0, 3, 4)]) = 59 := by
  rw [(kineticEnergy_execute [2, 4] [(1, 2, 2), (0, 3, 4)] rfl).1]
  norm_num [kineticEnergy]

/-! ## Claim on massless particles -/

theorem part1Body_of_massless (A : Arith) (p : Nat) (st : Vec2) (i : Nat) (s : Buffers)
    (hw : (s.velm i).w = 0) : part1Body A p st i s = s := by
  unfold part1Body
  simp [hw]

theorem part2Body_of_massless (A : Arith) (st : Vec2) (i : Nat) (s : Buffers)
    (hw : (s.velm i).w = 0) : part2Body A st i s = s := by
  unfold part2Body
  simp [hw]

/-- C20: massless particles are frozen.  For a particle whose inverse mass
`velm.w` is zero, and for every buffer entry with index `≥ numAtoms`, neither
`integrateVerletPart1` nor `integrateVerletPart2` changes the entry of the
position buffers, of the velocity buffer or of `posDelta`, whatever the forces,
deltas, step sizes and grid sizes are. -/
theorem massless_frozen (A : Arith) (globalSize numAtoms p : Nat) (b : Buffers) (j : Nat)
    (h : (b.velm j).w = 0 ∨ numAtoms ≤ j) :
    ((integrateVerletPart1 A globalSize numAtoms p b).posq j = b.posq j ∧
      (integrateVerletPart1 A globalSize numAtoms p b).posqCorrection j = b.posqCorrection j ∧
      (integrateVerletPart1 A globalSize numAtoms p b).velm j = b.velm j ∧
      (integrateVerletPart1 A globalSize numAtoms p b).posDelta j = b.posDelta j) ∧
    ((integrateVerletPart2 A globalSize numAtoms b).posq j = b.posq j ∧
      (integrateVerletPart2 A globalSize numAtoms b).posqCorrection j = b.posqCorrection j ∧
      (integrateVerletPart2 A globalSize numAtoms b).velm j = b.velm j ∧
      (integrateVerletPart2 A globalSize numAtoms b).posDelta j = b.posDelta j) := by
  rcases Nat.eq_zero_or_pos globalSize with h0 | hpos
  · subst h0
    simp [integrateVerletPart1, integrateVerletPart2, runThreads]
  · obtain ⟨-, q1, c1, -, e1⟩ := integrateVerletPart1_spec A globalSize numAtoms p b hpos
    obtain ⟨-, d2, -, e2⟩ := integrateVerletPart2_spec A globalSize numAtoms b hpos
    by_cases hj : j < numAtoms
    · have hw : (b.velm j).w = 0 := by
        rcases h with h | h
        · exact h
        · omega
      obtain ⟨v1, p1⟩ := (e1 j).1 hj
      obtain ⟨v2, p2, k2⟩ := (e2 j).1 hj
      rw [part1Body_of_massless A p b.dt j b hw] at v1 p1
      rw [part2Body_of_massless A b.dt j b hw] at v2 p2 k2
      exact ⟨⟨by rw [q1], by rw [c1], v1, p1⟩, ⟨p2, k2, v2, by rw [d2]⟩⟩
    · obtain ⟨v1, p1⟩ := (e1 j).2 hj
      obtain ⟨v2, p2, k2⟩ := (e2 j).2 hj
      exact ⟨⟨by rw [q1], by rw [c1], v1, p1⟩, ⟨p2, k2, v2, by rw [d2]⟩⟩

/-- Witness of C20: the massless first particle of `frozenPair` keeps its
velocity and its delta in both kernels, although a force acts on it. -/
theorem massless_frozen_witness :
    (integrateVerletPart1 (exactArith false true) 2 2 32 frozenPair).velm 0 = ⟨5, 6, 7, 0⟩ ∧
    (integrateVerletPart2 (exactArith false true) 2 2 frozenPair).posq 0 = ⟨1, 2, 3, 4⟩ := by
  have h := massless_frozen (exactArith false true) 2 2 32 frozenPair 0 (Or.inl (by simp [frozenPair]))
  refine ⟨?_, ?_⟩
  · rw [h.1.2.2.1]
    simp [frozenPair]
  · rw [h.2.1]
    simp [frozenPair]

/-! ## Claims on errors, strategy and arguments of `applyConstraintsImpl` -/

theorem cuda_applyConstraintsImpl_staged (c : Constraints) (dev : Device) (vel : Bool)
    (size : Nat) (hccma : c.ccmaConstraintAtoms = some size) (hbig : 1024 < size) :
    CudaIntegrationUtilities.applyConstraintsImpl c dev vel
      = Outcome.after (settleLaunch c vel ++ shakeLaunch c vel ++ [ccmaDirectionsLaunch size])
          (CudaIntegrationUtilities.stagedLoop c dev vel size 150 0) := by
  unfold CudaIntegrationUtilities.applyConstraintsImpl CudaIntegrationUtilities.ccmaPart
  rw [hccma]
  simp only [if_neg (not_le.mpr hbig), Outcome.after_after, ccmaDirectionsLaunch]

theorem opencl_applyConstraintsImpl_staged (c : Constraints) (dev : Device) (direct vel : Bool)
    (size : Nat) (hccma : c.ccmaConstraintAtoms = some size) (hbig : 1024 < size) :
    OpenCLIntegrationUtilities.applyConstraintsImpl c dev direct vel
      = Outcome.after (settleLaunch c vel ++ shakeLaunch c vel ++ [ccmaDirectionsLaunch size])
          (OpenCLIntegrationUtilities.stagedLoop c dev direct vel size 150 0) := by
  unfold OpenCLIntegrationUtilities.applyConstraintsImpl OpenCLIntegrationUtilities.ccmaPart
  rw [hccma]
  simp only [if_neg (not_le.mpr hbig), Outcome.after_after, ccmaDirectionsLaunch]

/-- The outcome of a failed event call.  In the CUDA staged loop, let `i`
be an iteration with a check that is reached (before it no event call failed
and no flag read nonzero).  If `cuEventRecord` returns a status other than
`CUDA_SUCCESS` there, `applyConstraintsImpl` throws right after the force launch
of that iteration; if `cuEventSynchronize` does, it throws right after that
call; in both cases only calls on the event follow the failed call and no
kernel is launched any more.  The message is the one `CHECK_RESULT2` builds:
the call's prefix, the backend's error string, the status code in parentheses,
the file and the line of the call site (177 or 183), error string and code being
those of the calls the macro makes again for the message.  If every status is
`CUDA_SUCCESS`, nothing is thrown. -/
theorem cuda_event_failure_outcome (c : Constraints) (dev : Device) (vel : Bool) (size : Nat)
    (hccma : c.ccmaConstraintAtoms = some size) (hbig : 1024 < size) :
    ((∀ i, dev.recordStatus i = CUDA_SUCCESS) → (∀ i, dev.synchronizeStatus i = CUDA_SUCCESS) →
      (CudaIntegrationUtilities.applyConstraintsImpl c dev vel).error = none) ∧
    ∀ i, i < 150 → (i + 1) % 4 = 0 →
      (∀ j, j < i → (j + 1) % 4 = 0 → dev.recordStatus j = CUDA_SUCCESS ∧
        dev.synchronizeStatus j = CUDA_SUCCESS ∧ dev.converged j = 0) →
      (dev.recordStatus i ≠ CUDA_SUCCESS →
        CudaIntegrationUtilities.applyConstraintsImpl c dev vel
          = ⟨settleLaunch c vel ++ shakeLaunch c vel ++ [ccmaDirectionsLaunch size]
              ++ ((List.range i).flatMap (CudaIntegrationUtilities.iterationEvents c vel size)
                ++ [ccmaForceLaunch c vel .ccmaConvergedDeviceMemory size i, Event.eventRecord,
                  Event.eventRecord, Event.eventRecord]),
            some (checkResultMessage dev (dev.recordAgain i 1) (dev.recordAgain i 2)
              "Error recording event for CCMA" 177)⟩) ∧
      (dev.recordStatus i = CUDA_SUCCESS → dev.synchronizeStatus i ≠ CUDA_SUCCESS →
        CudaIntegrationUtilities.applyConstraintsImpl c dev vel
          = ⟨settleLaunch c vel ++ shakeLaunch c vel ++ [ccmaDirectionsLaunch size]
              ++ ((List.range i).flatMap (CudaIntegrationUtilities.iterationEvents c vel size)
                ++ [ccmaForceLaunch c vel .ccmaConvergedDeviceMemory size i, Event.eventRecord,
                  ccmaMultiplyLaunch size i, ccmaUpdateLaunch c vel i, Event.eventSynchronize,
                  Event.eventSynchronize, Event.eventSynchronize]),
            some (checkResultMessage dev (dev.synchronizeAgain i 1) (dev.synchronizeAgain i 2)
              "Error synchronizing on event for CCMA" 183)⟩) := by
  refine ⟨?_, ?_⟩
  · intro hrec hsync
    obtain ⟨k, -, -, -, -, hk6⟩ := cuda_ccmaPart_ok c dev vel size hccma hbig hrec hsync
    simp [CudaIntegrationUtilities.applyConstraintsImpl, Outcome.after, hk6]
  · intro i hi hcheck hprev
    obtain ⟨f, hf⟩ : ∃ f, 150 = f + 1 + i := ⟨149 - i, by omega⟩
    have hpre := cuda_stagedLoop_whole_iterations c dev vel size i 0 (f + 1) (by omega)
      (fun j _ hj => hprev j (by omega))
    rw [← hf, Nat.zero_add, ← List.range_eq_range'] at hpre
    rw [cuda_applyConstraintsImpl_staged c dev vel size hccma hbig, hpre]
    refine ⟨?_, ?_⟩
    · intro hfail
      rw [cuda_stagedLoop_record_failure c dev vel size f i hi hcheck hfail]
      simp [Outcome.after]
    · intro hrec hfail
      rw [cuda_stagedLoop_synchronize_failure c dev vel size f i hi hcheck hrec hfail]
      simp [Outcome.after]

/-- The outcome for 2000 CCMA constraints and `cuEventRecord` returning status
700 in iteration 3 on a device that returns 700 again in the repeated calls. -/
theorem cuda_event_failure_outcome_example :
    (CudaIntegrationUtilities.applyConstraintsImpl (ccmaOnly .Single 2000 3000)
        (recordFailure 3 700) true).error
      = some ("Error recording event for CCMA: an illegal memory access was encountered (700)"
          ++ " at CudaIntegrationUtilities.cpp:177") ∧
    kernelLaunches (CudaIntegrationUtilities.applyConstraintsImpl (ccmaOnly .Single 2000 3000)
        (recordFailure 3 700) true).trace
      = ccmaDirectionsLaunch 2000 ::
          ((List.range 3).flatMap
            (iterationLaunches (ccmaOnly .Single 2000 3000) true .ccmaConvergedDeviceMemory 2000)
            ++ [ccmaForceLaunch (ccmaOnly .Single 2000 3000) true .ccmaConvergedDeviceMemory
              2000 3]) := by
  have h := ((cuda_event_failure_outcome (ccmaOnly .Single 2000 3000) (recordFailure 3 700) true 2000
    rfl (by decide)).2 3 (by decide) (by decide) (by decide)).1 (by decide)
  rw [h]
  exact ⟨by decide, by decide⟩

/-- C11: the message of a failed event call.  With 2000 CCMA constraints and
`cuEventRecord` returning status 700 in iteration 3, the CUDA
`applyConstraintsImpl` throws after the force launch of that iteration and
launches no further kernel; `CHECK_RESULT2` names its argument three times, so
the call is made again for the error string and once more for the code, and on
a device on which those calls succeed the message reads `no error (0)`: it holds
neither the error string nor the code of the failure. -/
theorem device_errors_misreported :
    (transientRecordFailure 3 700).recordStatus 3 = 700 ∧
    (CudaIntegrationUtilities.applyConstraintsImpl (ccmaOnly .Single 2000 3000)
        (transientRecordFailure 3 700) true).error
      = some ("Error recording event for CCMA: no error (0)"
          ++ " at CudaIntegrationUtilities.cpp:177") ∧
    (kernelLaunches (CudaIntegrationUtilities.applyConstraintsImpl (ccmaOnly .Single 2000 3000)
        (transientRecordFailure 3 700) true).trace).length = 11 ∧
    (CudaIntegrationUtilities.applyConstraintsImpl (ccmaOnly .Single 2000 3000)
        (transientRecordFailure 3 700) true).trace.getLast? = some Event.eventRecord := by
  refine ⟨by decide, by decide, by decide, by decide⟩

/-- C17: CCMA strategy selection.  When the CCMA constraints are initialized
with count `n`, `applyConstraintsImpl` runs one strategy, chosen by `n` alone.
For `n ≤ 1024` the CCMA part is one launch of `ccmaFullKernel` with 128
threads in a work group of 128, and no kernel of the staged strategy is
launched.  For `n > 1024` it is the direction kernel followed by operations
of the staged loop, and `ccmaFullKernel` is not launched.  This holds on every
device and for both implementations. -/
theorem ccma_strategy_selection (c : Constraints) (dev : Device) (vel : Bool) (n : Nat)
    (hccma : c.ccmaConstraintAtoms = some n) :
    (n ≤ 1024 →
      CudaIntegrationUtilities.applyConstraintsImpl c dev vel
        = ⟨settleLaunch c vel ++ shakeLaunch c vel ++
            [Event.execute Kernel.ccmaFullKernel
              [(0, Arg.int (if vel then 1 else 0)), (14, Arg.tol (tolArg c.precision))]
              128 (some 128)], none⟩ ∧
      (∀ direct, OpenCLIntegrationUtilities.applyConstraintsImpl c dev direct vel
        = ⟨settleLaunch c vel ++ shakeLaunch c vel ++
            [Event.execute Kernel.ccmaFullKernel
              [(0, Arg.int (if vel then 1 else 0)), (14, Arg.tol (tolArg c.precision))]
              128 (some 128)], none⟩)) ∧
    (1024 < n →
      (∃ rest, (CudaIntegrationUtilities.applyConstraintsImpl c dev vel).trace
          = settleLaunch c vel ++ shakeLaunch c vel ++ ccmaDirectionsLaunch n :: rest ∧
        ∀ e ∈ rest, StagedEvent c vel .ccmaConvergedDeviceMemory n e) ∧
      (∀ direct, ∃ rest, (OpenCLIntegrationUtilities.applyConstraintsImpl c dev direct vel).trace
          = settleLaunch c vel ++ shakeLaunch c vel ++ ccmaDirectionsLaunch n :: rest ∧
        ∀ e ∈ rest, StagedEvent c vel .ccmaConvergedHostBuffer n e)) ∧
    (∀ e ∈ (CudaIntegrationUtilities.applyConstraintsImpl c dev vel).trace, ∀ k,
      e.kernel = some k →
        (k = Kernel.ccmaFullKernel → n ≤ 1024) ∧ (k.isStaged = true → 1024 < n)) ∧
    (∀ direct, ∀ e ∈ (OpenCLIntegrationUtilities.applyConstraintsImpl c dev direct vel).trace,
      ∀ k, e.kernel = some k →
        (k = Kernel.ccmaFullKernel → n ≤ 1024) ∧ (k.isStaged = true → 1024 < n)) := by
  have hsettle : ∀ e ∈ settleLaunch c vel ++ shakeLaunch c vel, ∀ k, e.kernel = some k →
      k ≠ Kernel.ccmaFullKernel ∧ k.isStaged = false := by
    intro e he k hk
    rw [List.mem_append] at he
    rcases he with h | h
    · unfold settleLaunch at h
      cases hs : c.settleAtoms <;> rw [hs] at h <;> simp only [List.mem_singleton,
        List.not_mem_nil] at h
      subst h
      cases vel <;> simp [Event.kernel] at hk <;> subst hk <;> simp [Kernel.isStaged]
    · unfold shakeLaunch at h
      cases hs : c.shakeAtoms <;> rw [hs] at h <;> simp only [List.mem_singleton,
        List.not_mem_nil] at h
      subst h
      cases vel <;> simp [Event.kernel] at hk <;> subst hk <;> simp [Kernel.isStaged]
  have hstaged : ∀ flag (e : Event), StagedEvent c vel flag n e → ∀ k, e.kernel = some k →
      k ≠ Kernel.ccmaFullKernel ∧ k.isStaged = true := by
    intro flag e he k hk
    rcases he with ⟨i, rfl⟩ | ⟨i, rfl⟩ | ⟨i, rfl⟩ | he
    · cases vel <;> simp [ccmaForceLaunch, Event.kernel] at hk <;> subst hk <;>
        simp [Kernel.isStaged]
    · simp [ccmaMultiplyLaunch, Event.kernel] at hk
      subst hk
      simp [Kernel.isStaged]
    · simp [ccmaUpdateLaunch, Event.kernel] at hk
      subst hk
      simp [Kernel.isStaged]
    · rw [he] at hk
      simp at hk
  have hfullC : n ≤ 1024 → CudaIntegrationUtilities.applyConstraintsImpl c dev vel
      = ⟨settleLaunch c vel ++ shakeLaunch c vel ++ [ccmaFullLaunch c vel], none⟩ := by
    intro hn
    unfold CudaIntegrationUtilities.applyConstraintsImpl CudaIntegrationUtilities.ccmaPart
    rw [hccma]
    simp only [if_pos hn, Outcome.after]
  have hfullO : n ≤ 1024 → ∀ direct,
      OpenCLIntegrationUtilities.applyConstraintsImpl c dev direct vel
        = ⟨settleLaunch c vel ++ shakeLaunch c vel ++ [ccmaFullLaunch c vel], none⟩ := by
    intro hn direct
    unfold OpenCLIntegrationUtilities.applyConstraintsImpl OpenCLIntegrationUtilities.ccmaPart
    rw [hccma]
    simp only [if_pos hn, Outcome.after]
  have hstC : 1024 < n → (CudaIntegrationUtilities.applyConstraintsImpl c dev vel).trace
      = settleLaunch c vel ++ shakeLaunch c vel ++ ccmaDirectionsLaunch n ::
          (CudaIntegrationUtilities.stagedLoop c dev vel n 150 0).trace := by
    intro hn
    rw [cuda_applyConstraintsImpl_staged c dev vel n hccma hn]
    simp [Outcome.after]
  have hstO : 1024 < n → ∀ direct,
      (OpenCLIntegrationUtilities.applyConstraintsImpl c dev direct vel).trace
        = settleLaunch c vel ++ shakeLaunch c vel ++ ccmaDirectionsLaunch n ::
            (OpenCLIntegrationUtilities.stagedLoop c dev direct vel n 150 0).trace := by
    intro hn direct
    rw [opencl_applyConstraintsImpl_staged c dev direct vel n hccma hn]
    simp [Outcome.after]
  have hexcl : ∀ (T rest : List Event) (flag : DeviceBuffer),
      (n ≤ 1024 → T = settleLaunch c vel ++ shakeLaunch c vel ++ [ccmaFullLaunch c vel]) →
      (1024 < n → T = settleLaunch c vel ++ shakeLaunch c vel ++ ccmaDirectionsLaunch n :: rest) →
      (∀ e ∈ rest, StagedEvent c vel flag n e) →
      ∀ e ∈ T, ∀ k, e.kernel = some k →
        (k = Kernel.ccmaFullKernel → n ≤ 1024) ∧ (k.isStaged = true → 1024 < n) := by
    intro T rest flag h1 h2 hrest e he k hk
    rcases Nat.lt_or_ge 1024 n with hn | hn
    · refine ⟨fun hkf => ?_, fun _ => hn⟩
      exfalso
      rw [h2 hn, List.mem_append, List.mem_cons] at he
      rcases he with he | he | he
      · exact (hsettle e he k hk).1 hkf
      · subst he
        simp [ccmaDirectionsLaunch, Event.kernel] at hk
        subst hk
        simp at hkf
      · exact (hstaged flag e (hrest e he) k hk).1 hkf
    · refine ⟨fun _ => hn, fun hks => ?_⟩
      exfalso
      rw [h1 hn, List.mem_append, List.mem_singleton] at he
      rcases he with he | he
      · rw [(hsettle e he k hk).2] at hks
        simp at hks
      · subst he
        simp [ccmaFullLaunch, Event.kernel] at hk
        subst hk
        simp [Kernel.isStaged] at hks
  refine ⟨fun hn => ⟨hfullC hn, hfullO hn⟩, fun hn => ⟨?_, fun direct => ?_⟩, ?_, ?_⟩
  · exact ⟨_, hstC hn, cuda_stagedLoop_events c dev vel n 150 0⟩
  · exact ⟨_, hstO hn direct, opencl_stagedLoop_events c dev direct vel n 150 0⟩
  · exact hexcl _ _ .ccmaConvergedDeviceMemory (fun hn => by rw [hfullC hn]) hstC
      (cuda_stagedLoop_events c dev vel n 150 0)
  · intro direct
    exact hexcl _ _ .ccmaConvergedHostBuffer (fun hn => by rw [hfullO hn direct])
      (fun hn => hstO hn direct) (opencl_stagedLoop_events c dev direct vel n 150 0)

/-- Witness of C17: 1024 CCMA constraints take the single kernel, 1025 the
staged strategy. -/
theorem ccma_strategy_selection_witness :
    kernelLaunches (CudaIntegrationUtilities.applyConstraintsImpl (ccmaOnly .Double 1024 3000)
        (okDevice (fun _ => 1)) false).trace
      = [Event.execute Kernel.ccmaFullKernel [(0, Arg.int 0), (14, Arg.tol .asDouble)] 128
          (some 128)] ∧
    (kernelLaunches (CudaIntegrationUtilities.applyConstraintsImpl (ccmaOnly .Double 1025 3000)
        (okDevice (fun _ => 1)) false).trace).head?
      = some (ccmaDirectionsLaunch 1025) := by
  have h := (ccma_strategy_selection (ccmaOnly .Double 1024 3000) (okDevice (fun _ => 1)) false
    1024 rfl).1 (by decide)
  rw [h.1]
  exact ⟨by decide, by decide⟩

/-- C18: precision dispatch of the tolerance.  In every call of either
implementation, every launch of a SETTLE, SHAKE, full CCMA or CCMA force kernel
carries the tolerance in its slot (1, 1, 14 and 7) with the width of the
precision mode: 64 bits for Double and for Mixed, 32 for Single, 16 for F16; the
mapping is the same at all sites and no mode leaves the slot without a value. -/
theorem tolerance_precision_dispatch (c : Constraints) (dev : Device) (vel : Bool) :
    (∀ p, (tolArg p).bits = precisionBits p) ∧
    (∀ e ∈ (CudaIntegrationUtilities.applyConstraintsImpl c dev vel).trace, ∀ k slot,
      e.kernel = some k → toleranceSlot k = some slot →
        ∃ t, e.arg slot = some (Arg.tol t) ∧ t.bits = precisionBits c.precision) ∧
    (∀ direct, ∀ e ∈ (OpenCLIntegrationUtilities.applyConstraintsImpl c dev direct vel).trace,
      ∀ k slot, e.kernel = some k → toleranceSlot k = some slot →
        ∃ t, e.arg slot = some (Arg.tol t) ∧ t.bits = precisionBits c.precision) := by
  refine ⟨tolArg_bits, ?_, ?_⟩
  · intro e he k slot hk hslot
    exact ⟨tolArg c.precision,
      tolerance_of_class c vel _ e (cuda_trace_class c dev vel e he) k slot hk hslot,
      tolArg_bits _⟩
  · intro direct e he k slot hk hslot
    exact ⟨tolArg c.precision,
      tolerance_of_class c vel _ e (opencl_trace_class c dev direct vel e he) k slot hk hslot,
      tolArg_bits _⟩

/-- Witness of C18: the tolerance arguments of the solver launches of a system
with all three solver groups, in half precision with the full CCMA kernel and
in mixed precision with the staged strategy stopped after four iterations. -/
theorem tolerance_precision_dispatch_witness :
    (kernelLaunches (CudaIntegrationUtilities.applyConstraintsImpl (allSolvers .F16 500)
        (okDevice (fun _ => 1)) true).trace).map
        (fun e => (e.kernel.bind toleranceSlot).bind (fun slot => e.arg slot))
      = [some (Arg.tol .asHalf), some (Arg.tol .asHalf), some (Arg.tol .asHalf)] ∧
    ((kernelLaunches (OpenCLIntegrationUtilities.applyConstraintsImpl (allSolvers .Mixed 2000)
        (okDevice (fun _ => 1)) false false).trace).map
        (fun e => (e.kernel.bind toleranceSlot).bind (fun slot => e.arg slot))).take 4
      = [some (Arg.tol .asDouble), some (Arg.tol .asDouble), none, some (Arg.tol .asDouble)] ∧
    (∀ e ∈ (CudaIntegrationUtilities.applyConstraintsImpl (allSolvers .F16 500)
        (okDevice (fun _ => 1)) true).trace, ∀ k slot,
      e.kernel = some k → toleranceSlot k = some slot →
        ∃ t, e.arg slot = some (Arg.tol t) ∧ t.bits = 16) :=
  ⟨by decide, by decide,
    (tolerance_precision_dispatch (allSolvers .F16 500) (okDevice (fun _ => 1)) true).2.1⟩

/-- C19: target selection by `constrainVelocities`.  In a call with
`constrainVelocities = true` no position variant of the SETTLE, SHAKE and CCMA
force kernels is launched, the full CCMA kernel receives the flag 1 and the
update kernel the velocity buffer; with `false` no velocity variant is
launched, the flag is 0 and the update kernel receives `posDelta`.  So no call
launches a velocity variant and a position variant together. -/
theorem target_selection (c : Constraints) (dev : Device) (vel : Bool) :
    (∀ e ∈ (CudaIntegrationUtilities.applyConstraintsImpl c dev vel).trace, ∀ k,
      e.kernel = some k →
        (vel = true → k.isPositionVariant = false) ∧
        (vel = false → k.isVelocityVariant = false) ∧
        (k = Kernel.ccmaFullKernel → e.arg 0 = some (Arg.int (if vel then 1 else 0))) ∧
        (k = Kernel.ccmaUpdateKernel →
          e.arg 4
            = some (Arg.buffer (if vel then DeviceBuffer.velm else DeviceBuffer.posDelta)))) ∧
    (∀ direct, ∀ e ∈ (OpenCLIntegrationUtilities.applyConstraintsImpl c dev direct vel).trace,
      ∀ k, e.kernel = some k →
        (vel = true → k.isPositionVariant = false) ∧
        (vel = false → k.isVelocityVariant = false) ∧
        (k = Kernel.ccmaFullKernel → e.arg 0 = some (Arg.int (if vel then 1 else 0))) ∧
        (k = Kernel.ccmaUpdateKernel →
          e.arg 4
            = some (Arg.buffer (if vel then DeviceBuffer.velm else DeviceBuffer.posDelta)))) := by
  refine ⟨?_, ?_⟩
  · intro e he k hk
    exact target_of_class c vel _ e (cuda_trace_class c dev vel e he) k hk
  · intro direct e he k hk
    exact target_of_class c vel _ e (opencl_trace_class c dev direct vel e he) k hk

/-- Witness of C19: the kernels launched for a system with all three solver
groups, with `constrainVelocities` true (single CCMA kernel) and false (staged
strategy stopped after four iterations). -/
theorem target_selection_witness :
    (kernelLaunches (CudaIntegrationUtilities.applyConstraintsImpl (allSolvers .Single 500)
        (okDevice (fun _ => 1)) true).trace).map Event.kernel
      = [some Kernel.settleVelKernel, some Kernel.shakeVelKernel, some Kernel.ccmaFullKernel] ∧
    ((kernelLaunches (CudaIntegrationUtilities.applyConstraintsImpl (allSolvers .Single 2000)
        (okDevice (fun _ => 1)) false).trace).map Event.kernel).take 6
      = [some Kernel.settlePosKernel, some Kernel.shakePosKernel,
          some Kernel.ccmaDirectionsKernel, some Kernel.ccmaPosForceKernel,
          some Kernel.ccmaMultiplyKernel, some Kernel.ccmaUpdateKernel] ∧
    (∀ e ∈ (CudaIntegrationUtilities.applyConstraintsImpl (allSolvers .Single 2000)
        (okDevice (fun _ => 1)) false).trace, ∀ k, e.kernel = some k →
      k.isVelocityVariant = false) :=
  ⟨by decide, by decide, fun e he k hk =>
    ((target_selection (allSolvers .Single 2000) (okDevice (fun _ => 1)) false).1 e he k hk).2.1
      rfl⟩

/-! ## Claim on the reciprocal correction -/

/-- C21: first-order reciprocal correction.  In a build without
double-precision support, for every step size `dt[0].y ≠ 0` and whatever the
single-precision reciprocal `oneOverDt` is, `correction` is
`(1 - oneOverDt * dt) / dt` and the velocity expression
`delta * oneOverDt + delta * correction` equals `delta / dt`; a build with
double-precision support and an exact `(float)` cast computes the same
velocity, and the kernel stores `posDelta / dt` for every particle
`index < numAtoms` with nonzero inverse mass. -/
theorem reciprocal_correction (A : Arith) (hsingle : A.supportsDoublePrecision = false)
    (stepSize : Vec2) (hdt : stepSize.y ≠ 0) (delta : ℚ) :
    oneOverDt A stepSize = A.recipFloat stepSize.y ∧
    correction A stepSize = (1 - A.recipFloat stepSize.y * stepSize.y) / stepSize.y ∧
    delta * oneOverDt A stepSize + delta * correction A stepSize = delta / stepSize.y ∧
    newVelocity A stepSize delta = delta / stepSize.y ∧
    (∀ D : Arith, D.supportsDoublePrecision = true → (∀ x, D.toFloat x = x) →
      newVelocity D stepSize delta = newVelocity A stepSize delta) ∧
    (∀ (globalSize numAtoms index : Nat) (b : Buffers), 0 < globalSize → index < numAtoms →
      b.dt = stepSize → (b.velm index).w ≠ 0 →
      (integrateVerletPart2 A globalSize numAtoms b).velm index
        = ⟨(b.posDelta index).x / stepSize.y, (b.posDelta index).y / stepSize.y,
            (b.posDelta index).z / stepSize.y, (b.velm index).w⟩) := by
  have hone : oneOverDt A stepSize = A.recipFloat stepSize.y := by
    unfold oneOverDt
    rw [hsingle]
    simp
  have hcorr : correction A stepSize
      = (1 - A.recipFloat stepSize.y * stepSize.y) / stepSize.y := by
    unfold correction
    rw [hone]
  have hsum : delta * oneOverDt A stepSize + delta * correction A stepSize
      = delta / stepSize.y := by
    rw [hcorr, hone]
    field_simp
    ring
  have hnew : ∀ d : ℚ, newVelocity A stepSize d = d / stepSize.y := by
    intro d
    unfold newVelocity
    rw [hsingle]
    simp only [Bool.false_eq_true, if_false]
    rw [hcorr, hone]
    field_simp
    ring
  refine ⟨hone, hcorr, hsum, hnew delta, ?_, ?_⟩
  · intro D _ hfloat
    rw [hnew delta, newVelocity_of_ne_zero D hfloat stepSize hdt delta]
  · intro globalSize numAtoms index b hsize hindex hb hmass
    obtain ⟨-, -, -, p2⟩ := integrateVerletPart2_spec A globalSize numAtoms b hsize
    rw [((p2 index).1 hindex).1, part2Body_velm_self A _ _ _ hmass, hb]
    simp only [hnew]

/-- Witness of C21: the reciprocal of `dt = 1/2` is taken to be 3 instead of 2;
the velocity for `delta = 5` is still `5 / (1/2)`. -/
theorem reciprocal_correction_witness :
    oneOverDt crudeReciprocal ⟨1, 1 / 2⟩ = 3 ∧
    newVelocity crudeReciprocal ⟨1, 1 / 2⟩ 5 = 5 / (1 / 2) :=
  ⟨rfl, (reciprocal_correction crudeReciprocal rfl ⟨1, 1 / 2⟩ (by norm_num) 5).2.2.2.1⟩

/-! ## Claim on the previous-step bookkeeping -/

theorem forStride_preserves {σ : Type} (body : Nat → σ → σ) (bound stride : Nat)
    (P : σ → Prop) (hbody : ∀ i s, P s → P (body i s)) :
    ∀ (fuel index : Nat) (s : σ), P s → P (forStride body bound stride fuel index s) := by
  intro fuel
  induction fuel with
  | zero =>
    intro index s hs
    exact hs
  | succ fuel ih =>
    intro index s hs
    unfold forStride
    split_ifs
    · exact ih _ _ (hbody _ _ hs)
    · exact hs

theorem part2Thread_dt (A : Arith) (globalSize numAtoms gid : Nat) (s : Buffers) :
    (part2Thread A globalSize numAtoms gid s).dt
      = if gid = 0 then ⟨s.dt.y, s.dt.y⟩ else s.dt := by
  unfold part2Thread
  simp only
  have hbody : ∀ (d : Vec2) (i : Nat) (t : Buffers), t.dt = d → (part2Body A s.dt i t).dt = d := by
    intro d i t ht
    unfold part2Body
    simp only
    split_ifs <;> exact ht
  by_cases hg : gid = 0
  · rw [if_pos hg, if_pos hg]
    exact forStride_preserves _ _ _ (fun t : Buffers => t.dt = (⟨s.dt.y, s.dt.y⟩ : Vec2))
      (hbody _) _ _ _ rfl
  · rw [if_neg hg, if_neg hg]
    exact forStride_preserves _ _ _ (fun t : Buffers => t.dt = s.dt) (hbody _) _ _ _ rfl

theorem integrateVerletPart2_dt (A : Arith) (globalSize numAtoms : Nat) (b : Buffers)
    (hsize : 0 < globalSize) :
    (integrateVerletPart2 A globalSize numAtoms b).dt = ⟨b.dt.y, b.dt.y⟩ := by
  unfold integrateVerletPart2 runThreads
  have h : ∀ g, ((List.range (g + 1)).foldl
      (fun st id => part2Thread A globalSize numAtoms id st) b).dt = ⟨b.dt.y, b.dt.y⟩ := by
    intro g
    induction g with
    | zero =>
      simp [List.range_succ, part2Thread_dt]
    | succ g ih =>
      rw [List.range_succ, List.foldl_append, List.foldl_cons, List.foldl_nil, part2Thread_dt,
        if_neg (Nat.succ_ne_zero g), ih]
  obtain ⟨g, rfl⟩ : ∃ g, globalSize = g + 1 := ⟨globalSize - 1, by omega⟩
  exact h g

/-- C23: previous-step bookkeeping.  `integrateVerletPart2` sets `dt[0].x` to
the value of `dt[0].y` and leaves `dt[0].y` unchanged.  Hence, in any later state
whose `dt[0]` is still the one the kernel left, the velocity timestep
`0.5*(dt.x + dt.y)` of `integrateVerletPart1` is `dt[0].y`: that kernel leaves
`dt[0]` as it is and advances the velocity of every particle with nonzero
inverse mass by `dt[0].y * force * invMass`. -/
theorem previous_step_bookkeeping (A : Arith) (globalSize numAtoms : Nat) (b : Buffers)
    (hsize : 0 < globalSize) :
    (integrateVerletPart2 A globalSize numAtoms b).dt.x = b.dt.y ∧
    (integrateVerletPart2 A globalSize numAtoms b).dt.y = b.dt.y ∧
    ∀ (size1 paddedNumAtoms : Nat) (next : Buffers), 0 < size1 →
      next.dt = (integrateVerletPart2 A globalSize numAtoms b).dt →
      (1 / 2 : ℚ) * (next.dt.x + next.dt.y) = b.dt.y ∧
      (integrateVerletPart1 A size1 numAtoms paddedNumAtoms next).dt = next.dt ∧
      ∀ index, index < numAtoms → (next.velm index).w ≠ 0 →
        (integrateVerletPart1 A size1 numAtoms paddedNumAtoms next).velm index
          = ⟨(next.velm index).x
                + b.dt.y / 4294967296 * (next.force index : ℚ) * (next.velm index).w,
              (next.velm index).y
                + b.dt.y / 4294967296 * (next.force (index + paddedNumAtoms) : ℚ)
                  * (next.velm index).w,
              (next.velm index).z
                + b.dt.y / 4294967296 * (next.force (index + paddedNumAtoms * 2) : ℚ)
                  * (next.velm index).w,
              (next.velm index).w⟩ := by
  have hdt := integrateVerletPart2_dt A globalSize numAtoms b hsize
  refine ⟨by rw [hdt], by rw [hdt], ?_⟩
  intro size1 paddedNumAtoms next hsize1 hnext
  rw [hdt] at hnext
  have hhalf : (1 / 2 : ℚ) * (next.dt.x + next.dt.y) = b.dt.y := by
    rw [hnext]
    ring
  obtain ⟨p1dt, -, -, -, p1⟩ := integrateVerletPart1_spec A size1 numAtoms paddedNumAtoms next hsize1
  refine ⟨hhalf, p1dt, ?_⟩
  intro index hindex hmass
  rw [((p1 index).1 hindex).1, part1Body_velm_self A _ _ _ _ hmass, hhalf]

/-- Witness of C23: a step with `dt[0] = (1, 1/2)` on one particle leaves
`dt[0] = (1/2, 1/2)`. -/
theorem previous_step_bookkeeping_witness :
    (integrateVerletPart2 (exactArith false true) 3 1
        (freeParticle ⟨1, 1 / 2⟩ ⟨1, 2, 3, 7⟩ ⟨1, 1, 2, 5⟩)).dt.x = 1 / 2 ∧
    (integrateVerletPart2 (exactArith false true) 3 1
        (freeParticle ⟨1, 1 / 2⟩ ⟨1, 2, 3, 7⟩ ⟨1, 1, 2, 5⟩)).dt.y = 1 / 2 :=
  ⟨(previous_step_bookkeeping (exactArith false true) 3 1
      (freeParticle ⟨1, 1 / 2⟩ ⟨1, 2, 3, 7⟩ ⟨1, 1, 2, 5⟩) (by decide)).1,
    (previous_step_bookkeeping (exactArith false true) 3 1
      (freeParticle ⟨1, 1 / 2⟩ ⟨1, 2, 3, 7⟩ ⟨1, 1, 2, 5⟩) (by decide)).2.1⟩

/-! ## Further claims on the limiting stage -/

theorem limitStepSize_of_nonpos (A : Arith) (c old max : ℚ) (hold : old ≤ 0) :
    limitStepSize A c old max = min c max := by
  have hgrow : ¬ old > 0 := not_lt.mpr hold
  have hband : ¬ (c > old ∧ c < (11 / 10 : ℚ) * old) := by
    rintro ⟨h1, h2⟩
    have h3 : old < (11 / 10 : ℚ) * old := lt_trans h1 h2
    linarith
  unfold limitStepSize
  simp only [if_neg hgrow, if_neg hband]
  by_cases h : c > max
  · rw [if_pos h, min_eq_right (le_of_lt h)]
  · rw [if_neg h, min_eq_left (not_lt.mp h)]

theorem ratSqrt_pos (x : ℚ) (hx : 0 < x) : 0 < ratSqrt x := by
  unfold ratSqrt
  have hnum : 0 < x.num := Rat.num_pos.mpr hx
  have h1 : 0 < x.num.toNat := by
    have := Int.toNat_of_nonneg (le_of_lt hnum)
    omega
  have h2 : 0 < Nat.sqrt x.num.toNat := Nat.sqrt_pos.mpr h1
  have h3 : 0 < Nat.sqrt x.den := Nat.sqrt_pos.mpr x.den_pos
  have h4 : (0 : ℚ) < (Nat.sqrt x.num.toNat : ℚ) := by exact_mod_cast h2
  have h5 : (0 : ℚ) < (Nat.sqrt x.den : ℚ) := by exact_mod_cast h3
  exact div_pos h4 h5

theorem particleError_nonneg (p : Nat) (b : Buffers) (i : Nat) : 0 ≤ particleError p b i := by
  unfold particleError
  positivity

theorem particleError_pos (p : Nat) (b : Buffers) (i : Nat) (hmass : (b.velm i).w ≠ 0)
    (hforce : b.force i ≠ 0 ∨ b.force (i + p) ≠ 0 ∨ b.force (i + p * 2) ≠ 0) :
    0 < particleError p b i := by
  unfold particleError
  rw [Nat.mul_comm 2 p]
  have hw : 0 < (b.velm i).w ^ 2 := by positivity
  apply mul_pos _ hw
  rcases hforce with h | h | h
  · have h1 : ((b.force i : ℚ) / 2 ^ 32) ≠ 0 := by
      have : (b.force i : ℚ) ≠ 0 := by exact_mod_cast h
      positivity
    positivity
  · have h1 : ((b.force (i + p) : ℚ) / 2 ^ 32) ≠ 0 := by
      have : (b.force (i + p) : ℚ) ≠ 0 := by exact_mod_cast h
      positivity
    positivity
  · have h1 : ((b.force (i + p * 2) : ℚ) / 2 ^ 32) ≠ 0 := by
      have : (b.force (i + p * 2) : ℚ) ≠ 0 := by exact_mod_cast h
      positivity
    positivity

theorem errorSum_pos (numAtoms p : Nat) (b : Buffers) (i : Nat) (hi : i < numAtoms)
    (hmass : (b.velm i).w ≠ 0)
    (hforce : b.force i ≠ 0 ∨ b.force (i + p) ≠ 0 ∨ b.force (i + p * 2) ≠ 0) :
    0 < errorSum numAtoms p b := by
  unfold errorSum
  exact Finset.sum_pos' (fun j _ => particleError_nonneg p b j)
    ⟨i, Finset.mem_range.mpr hi, particleError_pos p b i hmass hforce⟩

/-- C24: first-step behaviour.  When the previous step size `dt[0].y` is zero
or negative, `selectVerletStepSize` writes exactly `min candidate maxStepSize`,
where `candidate = SQRT(errorTol / totalError)`: neither the growth limiter nor
the hysteresis rule changes the value, whatever the casts do. -/
theorem selectVerletStepSize_first_step (A : Arith) (localSize numAtoms paddedNumAtoms : Nat)
    (maxStepSize errorTol : ℚ) (b : Buffers) (hprev : b.dt.y ≤ 0) :
    (selectVerletStepSize A localSize numAtoms paddedNumAtoms maxStepSize errorTol b).dt.y
      = min (A.sqrt (errorTol / totalError A localSize numAtoms paddedNumAtoms b))
          maxStepSize := by
  simp only [selectVerletStepSize]
  rw [limitStepSize_of_nonpos A _ _ _ hprev]
  rfl

/-- Witness of C24: with no previous step size, a candidate of 0.003 is written
unchanged under `maxStepSize = 0.01`. -/
theorem selectVerletStepSize_first_step_witness :
    (selectVerletStepSize (exactArith false true) 1 1 1 (1 / 100) ((3 / 1000) * (3 / 1000))
        (unitBuffers ⟨0, 0⟩)).dt.y = 3 / 1000 := by
  have hraw := rawStepSize_unitBuffers false true ⟨0, 0⟩ (3 / 1000) (by norm_num)
  have h := selectVerletStepSize_first_step (exactArith false true) 1 1 1 (1 / 100)
    ((3 / 1000) * (3 / 1000)) (unitBuffers ⟨0, 0⟩) (by norm_num [unitBuffers])
  unfold rawStepSize at hraw
  rw [h, hraw]
  norm_num

/-- C25, as amended: the limiting stage.  For every build, previous step size
and `maxStepSize`: the step size written is at most the raw candidate as the
growth limiter casts it, `(float) c` for a positive previous step size and `c`
itself otherwise, so it is at most `c` whenever the previous step size is not
positive or the cast does not round `c` up; and when the cast is monotone, of two
states with the same previous step size whose raw candidates are `c1 ≤ c2`, the
first gets a step size at most that of the second. -/
theorem selectVerletStepSize_monotone (A : Arith)
    (localSize numAtoms paddedNumAtoms : Nat) (maxStepSize errorTol : ℚ) (b : Buffers) :
    (selectVerletStepSize A localSize numAtoms paddedNumAtoms maxStepSize errorTol b).dt.y
      ≤ (if b.dt.y > 0 then
          A.toFloat (rawStepSize A localSize numAtoms paddedNumAtoms errorTol b)
        else rawStepSize A localSize numAtoms paddedNumAtoms errorTol b) ∧
    ((b.dt.y ≤ 0 ∨ A.toFloat (rawStepSize A localSize numAtoms paddedNumAtoms errorTol b)
          ≤ rawStepSize A localSize numAtoms paddedNumAtoms errorTol b) →
      (selectVerletStepSize A localSize numAtoms paddedNumAtoms maxStepSize errorTol b).dt.y
        ≤ rawStepSize A localSize numAtoms paddedNumAtoms errorTol b) ∧
    ((∀ x y, x ≤ y → A.toFloat x ≤ A.toFloat y) →
      (∀ c1 c2 : ℚ, c1 ≤ c2 →
        limitStepSize A c1 b.dt.y maxStepSize ≤ limitStepSize A c2 b.dt.y maxStepSize) ∧
      ∀ (localSize2 numAtoms2 paddedNumAtoms2 : Nat) (errorTol2 : ℚ) (b2 : Buffers),
        b2.dt.y = b.dt.y →
        rawStepSize A localSize numAtoms paddedNumAtoms errorTol b
          ≤ rawStepSize A localSize2 numAtoms2 paddedNumAtoms2 errorTol2 b2 →
        (selectVerletStepSize A localSize numAtoms paddedNumAtoms maxStepSize errorTol b).dt.y
          ≤ (selectVerletStepSize A localSize2 numAtoms2 paddedNumAtoms2 maxStepSize errorTol2
              b2).dt.y) := by
  have hle := limitStepSize_le_cast A
    (rawStepSize A localSize numAtoms paddedNumAtoms errorTol b) b.dt.y maxStepSize
  refine ⟨?_, ?_, ?_⟩
  · simp only [selectVerletStepSize]
    exact hle
  · intro h
    simp only [selectVerletStepSize]
    rcases h with h | h
    · rw [if_neg (not_lt.mpr h)] at hle
      exact hle
    · by_cases hp : b.dt.y > 0
      · rw [if_pos hp] at hle
        exact le_trans hle h
      · rw [if_neg hp] at hle
        exact hle
  · intro hmono
    refine ⟨fun c1 c2 hc => limitStepSize_mono A hmono c1 c2 _ _ hc, ?_⟩
    intro localSize2 numAtoms2 paddedNumAtoms2 errorTol2 b2 hdt hraw
    simp only [selectVerletStepSize]
    rw [hdt]
    exact limitStepSize_mono A hmono _ _ _ _ hraw

/-- Witness of C25: with exact casts, after a previous step of 0.001 the
candidate 0.00105 gives a value at most the candidate and at most what the
candidate 0.003 gives. -/
theorem selectVerletStepSize_monotone_witness :
    (selectVerletStepSize (exactArith false true) 1 1 1 (1 / 100) ((21 / 20000) * (21 / 20000))
        (unitBuffers ⟨1 / 1000, 1 / 1000⟩)).dt.y
      ≤ rawStepSize (exactArith false true) 1 1 1 ((21 / 20000) * (21 / 20000))
          (unitBuffers ⟨1 / 1000, 1 / 1000⟩) ∧
    limitStepSize (exactArith false true) (21 / 20000) (1 / 1000) (1 / 100)
      ≤ limitStepSize (exactArith false true) (3 / 1000) (1 / 1000) (1 / 100) :=
  ⟨(selectVerletStepSize_monotone (exactArith false true) 1 1 1 (1 / 100)
      ((21 / 20000) * (21 / 20000)) (unitBuffers ⟨1 / 1000, 1 / 1000⟩)).2.1
      (Or.inr (le_refl _)),
    ((selectVerletStepSize_monotone (exactArith false true) 1 1 1 (1 / 100)
      ((21 / 20000) * (21 / 20000)) (unitBuffers ⟨1 / 1000, 1 / 1000⟩)).2.2
      (fun _ _ h => h)).1 (21 / 20000) (3 / 1000) (by norm_num)⟩

/-- Counterexample to C25 as stated: in a build with double-precision support
whose `(float)` cast rounds to the nearest multiple of `2^-32`, previous step
size 0.001, raw candidate 0.0015 and `maxStepSize = 0.01`: the kernel writes
`(float) 0.0015 = 6442451 / 2^32 = 0.00150000001...`, more than the raw
candidate. -/
theorem selectVerletStepSize_monotone_counterexample :
    rawStepSize gridArith 1 1 1 ((3 / 2000) * (3 / 2000)) (unitBuffers ⟨1 / 1000, 1 / 1000⟩)
      = 3 / 2000 ∧
    (selectVerletStepSize gridArith 1 1 1 (1 / 100) ((3 / 2000) * (3 / 2000))
        (unitBuffers ⟨1 / 1000, 1 / 1000⟩)).dt.y = 6442451 / 4294967296 ∧
    ¬ (selectVerletStepSize gridArith 1 1 1 (1 / 100) ((3 / 2000) * (3 / 2000))
        (unitBuffers ⟨1 / 1000, 1 / 1000⟩)).dt.y
      ≤ rawStepSize gridArith 1 1 1 ((3 / 2000) * (3 / 2000))
          (unitBuffers ⟨1 / 1000, 1 / 1000⟩) := by
  have hraw := rawStepSize_unitBuffers_of_sqrt gridArith rfl ⟨1 / 1000, 1 / 1000⟩ (3 / 2000)
    (by norm_num)
  have hsel : (selectVerletStepSize gridArith 1 1 1 (1 / 100) ((3 / 2000) * (3 / 2000))
      (unitBuffers ⟨1 / 1000, 1 / 1000⟩)).dt.y = 6442451 / 4294967296 := by
    simp only [selectVerletStepSize, hraw]
    norm_num [limitStepSize, gridArith, unitBuffers]
  refine ⟨hraw, hsel, ?_⟩
  rw [hsel, hraw]
  norm_num

/-- C26, as amended: step-size positivity.  For every build whose `SQRT` is
positive on positive numbers: if `numAtoms ≥ 1`, `errorTol > 0`,
`maxStepSize > 0`, the previous step size is `≥ 0` and some particle
`index < numAtoms` has a nonzero inverse mass and a nonzero force component, then
both divisors of line 161 and 162, `numAtoms*3` and `totalError`, are nonzero
(`totalError` is positive) and the raw candidate is positive; the step size
written to `dt[0].y` is positive provided that, when the previous step size is
positive, the casts of line 165 give positive values for the candidate and for
twice the previous step size (no underflow to zero). -/
theorem selectVerletStepSize_positive (A : Arith)
    (hsqrt : ∀ x, 0 < x → 0 < A.sqrt x) (localSize numAtoms paddedNumAtoms : Nat)
    (maxStepSize errorTol : ℚ) (b : Buffers) (hlocal : 0 < localSize) (hatoms : 1 ≤ numAtoms)
    (htol : 0 < errorTol) (hmax : 0 < maxStepSize) (hprev : 0 ≤ b.dt.y)
    (index : Nat) (hindex : index < numAtoms) (hmass : (b.velm index).w ≠ 0)
    (hforce : b.force index ≠ 0 ∨ b.force (index + paddedNumAtoms) ≠ 0 ∨
      b.force (index + paddedNumAtoms * 2) ≠ 0) :
    ((numAtoms * 3 : Nat) : ℚ) ≠ 0 ∧
    0 < totalError A localSize numAtoms paddedNumAtoms b ∧
    0 < rawStepSize A localSize numAtoms paddedNumAtoms errorTol b ∧
    ((0 < b.dt.y →
        0 < A.toFloat (rawStepSize A localSize numAtoms paddedNumAtoms errorTol b) ∧
        0 < A.toFloat (b.dt.y * 2)) →
      0 < (selectVerletStepSize A localSize numAtoms paddedNumAtoms maxStepSize errorTol
        b).dt.y) := by
  have hdiv : (0 : ℚ) < ((numAtoms * 3 : Nat) : ℚ) := by
    have : 0 < numAtoms * 3 := by omega
    exact_mod_cast this
  have hsum := errorSum_pos numAtoms paddedNumAtoms b index hindex hmass hforce
  have htotal : 0 < totalError A localSize numAtoms paddedNumAtoms b := by
    unfold totalError meanSquareError
    rw [reducedError_eq_errorSum localSize numAtoms paddedNumAtoms b hlocal]
    exact hsqrt _ (div_pos hsum hdiv)
  have hraw : 0 < rawStepSize A localSize numAtoms paddedNumAtoms errorTol b := by
    unfold rawStepSize
    exact hsqrt _ (div_pos htol htotal)
  refine ⟨ne_of_gt hdiv, htotal, hraw, ?_⟩
  intro hcast
  simp only [selectVerletStepSize]
  exact limitStepSize_pos A _ _ _ hraw hprev hmax hcast

/-- Witness of C26: the one-particle system with unit force and unit inverse
mass, no previous step size, `errorTol = 1/4` and `maxStepSize = 1`. -/
theorem selectVerletStepSize_positive_witness :
    0 < (selectVerletStepSize (exactArith false true) 1 1 1 1 (1 / 4) (unitBuffers ⟨0, 0⟩)).dt.y :=
  (selectVerletStepSize_positive (exactArith false true)
    (fun x hx => ratSqrt_pos x hx) 1 1 1 1 (1 / 4) (unitBuffers ⟨0, 0⟩) (by decide) (by decide)
    (by norm_num) (by norm_num) (by norm_num [unitBuffers]) 0 (by decide)
    (by norm_num [unitBuffers]) (Or.inl (by norm_num [unitBuffers]))).2.2.2
    (fun h => absurd h (by norm_num [unitBuffers]))

/-- Counterexample to C26 as stated: in a build with double-precision support
whose `(float)` cast gives 0 for the values of magnitude below `2^-150`, as
single precision does, the one-particle system with unit force and unit inverse
mass, previous step size 1, `maxStepSize = 1` and `errorTol = 2^-320` has the
positive raw candidate `2^-160`, the cast of line 165 makes it 0, and the kernel
writes 0 to `dt[0].y`. -/
theorem selectVerletStepSize_positive_counterexample :
    (0 : ℚ) < (1 / 2 ^ 160) * (1 / 2 ^ 160) ∧
    (0 : ℚ) ≤ (unitBuffers ⟨1, 1⟩).dt.y ∧
    ((unitBuffers ⟨1, 1⟩).velm 0).w ≠ 0 ∧ (unitBuffers ⟨1, 1⟩).force 0 ≠ 0 ∧
    rawStepSize underflowArith 1 1 1 ((1 / 2 ^ 160) * (1 / 2 ^ 160)) (unitBuffers ⟨1, 1⟩)
      = 1 / 2 ^ 160 ∧
    (selectVerletStepSize underflowArith 1 1 1 1 ((1 / 2 ^ 160) * (1 / 2 ^ 160))
        (unitBuffers ⟨1, 1⟩)).dt.y = 0 ∧
    ¬ 0 < (selectVerletStepSize underflowArith 1 1 1 1 ((1 / 2 ^ 160) * (1 / 2 ^ 160))
        (unitBuffers ⟨1, 1⟩)).dt.y := by
  have hraw := rawStepSize_unitBuffers_of_sqrt underflowArith rfl ⟨1, 1⟩ (1 / 2 ^ 160)
    (by norm_num)
  have hsel : (selectVerletStepSize underflowArith 1 1 1 1 ((1 / 2 ^ 160) * (1 / 2 ^ 160))
      (unitBuffers ⟨1, 1⟩)).dt.y = 0 := by
    simp only [selectVerletStepSize, hraw]
    norm_num [limitStepSize, underflowArith, unitBuffers]
  refine ⟨by norm_num, by norm_num [unitBuffers], by norm_num [unitBuffers],
    by norm_num [unitBuffers], hraw, hsel, ?_⟩
  rw [hsel]
  norm_num

/-! ## Claim on the mixed-precision position split -/

theorem part2Body_mixed_self (A : Arith) (hmixed : A.useMixedPrecision = true) (st : Vec2)
    (i : Nat) (s : Buffers) (hw : (s.velm i).w ≠ 0) :
    (part2Body A st i s).posq i
      = ⟨A.toReal ((s.posq i).x + (s.posqCorrection i).x + (s.posDelta i).x),
          A.toReal ((s.posq i).y + (s.posqCorrection i).y + (s.posDelta i).y),
          A.toReal ((s.posq i).z + (s.posqCorrection i).z + (s.posDelta i).z),
          A.toReal (s.posq i).w⟩ ∧
    (part2Body A st i s).posqCorrection i
      = ⟨A.toReal ((s.posq i).x + (s.posqCorrection i).x + (s.posDelta i).x
            - A.toReal ((s.posq i).x + (s.posqCorrection i).x + (s.posDelta i).x)),
          A.toReal ((s.posq i).y + (s.posqCorrection i).y + (s.posDelta i).y
            - A.toReal ((s.posq i).y + (s.posqCorrection i).y + (s.posDelta i).y)),
          A.toReal ((s.posq i).z + (s.posqCorrection i).z + (s.posDelta i).z
            - A.toReal ((s.posq i).z + (s.posqCorrection i).z + (s.posDelta i).z)),
          0⟩ := by
  unfold part2Body loadPos
  simp [hw, store, hmixed]

/-- C27, as amended: mixed-precision position split.  In a mixed-precision
build, for every conversion `round` to the low-precision type and every particle
`index < numAtoms` with nonzero inverse mass, write `p` for
`(old posq + old posqCorrection) + posDelta` in x, y and z.  After
`integrateVerletPart2`, `posq.xyz` is `round p`, `posqCorrection.xyz` is
`round (p - round p)` and `posqCorrection.w` is 0; the sum
`posq + posqCorrection` equals `p` in each component whose difference
`p - round p` is a value of the low-precision type (one that `round` returns
unchanged); and `posq.w`, a value of the low-precision type, is unchanged. -/
theorem mixed_precision_split (A : Arith) (hmixed : A.useMixedPrecision = true)
    (globalSize numAtoms : Nat) (b : Buffers) (index : Nat) (hsize : 0 < globalSize)
    (hindex : index < numAtoms) (hmass : (b.velm index).w ≠ 0)
    (hw : A.toReal (b.posq index).w = (b.posq index).w) :
    (integrateVerletPart2 A globalSize numAtoms b).posq index
      = ⟨A.toReal ((b.posq index).x + (b.posqCorrection index).x + (b.posDelta index).x),
          A.toReal ((b.posq index).y + (b.posqCorrection index).y + (b.posDelta index).y),
          A.toReal ((b.posq index).z + (b.posqCorrection index).z + (b.posDelta index).z),
          (b.posq index).w⟩ ∧
    (integrateVerletPart2 A globalSize numAtoms b).posqCorrection index
      = ⟨A.toReal ((b.posq index).x + (b.posqCorrection index).x + (b.posDelta index).x
            - A.toReal ((b.posq index).x + (b.posqCorrection index).x + (b.posDelta index).x)),
          A.toReal ((b.posq index).y + (b.posqCorrection index).y + (b.posDelta index).y
            - A.toReal ((b.posq index).y + (b.posqCorrection index).y + (b.posDelta index).y)),
          A.toReal ((b.posq index).z + (b.posqCorrection index).z + (b.posDelta index).z
            - A.toReal ((b.posq index).z + (b.posqCorrection index).z + (b.posDelta index).z)),
          0⟩ ∧
    (A.toReal ((b.posq index).x + (b.posqCorrection index).x + (b.posDelta index).x
          - A.toReal ((b.posq index).x + (b.posqCorrection index).x + (b.posDelta index).x))
        = (b.posq index).x + (b.posqCorrection index).x + (b.posDelta index).x
          - A.toReal ((b.posq index).x + (b.posqCorrection index).x + (b.posDelta index).x) →
      ((integrateVerletPart2 A globalSize numAtoms b).posq index).x
          + ((integrateVerletPart2 A globalSize numAtoms b).posqCorrection index).x
        = (b.posq index).x + (b.posqCorrection index).x + (b.posDelta index).x) ∧
    (A.toReal ((b.posq index).y + (b.posqCorrection index).y + (b.posDelta index).y
          - A.toReal ((b.posq index).y + (b.posqCorrection index).y + (b.posDelta index).y))
        = (b.posq index).y + (b.posqCorrection index).y + (b.posDelta index).y
          - A.toReal ((b.posq index).y + (b.posqCorrection index).y + (b.posDelta index).y) →
      ((integrateVerletPart2 A globalSize numAtoms b).posq index).y
          + ((integrateVerletPart2 A globalSize numAtoms b).posqCorrection index).y
        = (b.posq index).y + (b.posqCorrection index).y + (b.posDelta index).y) ∧
    (A.toReal ((b.posq index).z + (b.posqCorrection index).z + (b.posDelta index).z
          - A.toReal ((b.posq index).z + (b.posqCorrection index).z + (b.posDelta index).z))
        = (b.posq index).z + (b.posqCorrection index).z + (b.posDelta index).z
          - A.toReal ((b.posq index).z + (b.posqCorrection index).z + (b.posDelta index).z) →
      ((integrateVerletPart2 A globalSize numAtoms b).posq index).z
          + ((integrateVerletPart2 A globalSize numAtoms b).posqCorrection index).z
        = (b.posq index).z + (b.posqCorrection index).z + (b.posDelta index).z) := by
  obtain ⟨-, -, -, p2⟩ := integrateVerletPart2_spec A globalSize numAtoms b hsize
  obtain ⟨-, p2p, p2c⟩ := (p2 index).1 hindex
  obtain ⟨hp, hc⟩ := part2Body_mixed_self A hmixed b.dt index b hmass
  rw [p2p, p2c, hp, hc, hw]
  refine ⟨rfl, rfl, ?_, ?_, ?_⟩
  · intro h
    simp only [h]
    ring
  · intro h
    simp only [h]
    ring
  · intro h
    simp only [h]
    ring

/-- Witness of C27: with exact conversions the particle at the origin moved by
1/2 in x ends with `posq + posqCorrection = 1/2` in x. -/
theorem mixed_precision_split_witness :
    ((integrateVerletPart2 (exactArith true true) 2 1 halfParticle).posq 0).x
      + ((integrateVerletPart2 (exactArith true true) 2 1 halfParticle).posqCorrection 0).x
      = 1 / 2 := by
  have h := (mixed_precision_split (exactArith true true) rfl 2 1 halfParticle 0 (by decide)
    (by decide) (by norm_num [halfParticle]) rfl).2.2.1 rfl
  rw [h]
  norm_num [halfParticle]

/-- Counterexample to C27 as stated: when the conversion to the low-precision
type rounds down to an integer, the particle at the origin moved by 1/2 in x
ends with `posq.x = 0` and `posqCorrection.x = 0`, whose sum is not 1/2. -/
theorem mixed_precision_split_counterexample :
    floorArith.useMixedPrecision = true ∧ (halfParticle.velm 0).w ≠ 0 ∧
    ((integrateVerletPart2 floorArith 1 1 halfParticle).posq 0).x
      + ((integrateVerletPart2 floorArith 1 1 halfParticle).posqCorrection 0).x
      ≠ ((halfParticle.posq 0).x + (halfParticle.posqCorrection 0).x)
          + (halfParticle.posDelta 0).x := by
  obtain ⟨-, -, -, p2⟩ := integrateVerletPart2_spec floorArith 1 1 halfParticle (by decide)
  obtain ⟨-, p2p, p2c⟩ := (p2 0).1 (by decide)
  obtain ⟨hp, hc⟩ := part2Body_mixed_self floorArith rfl halfParticle.dt 0 halfParticle
    (by norm_num [halfParticle])
  refine ⟨rfl, by norm_num [halfParticle], ?_⟩
  rw [p2p, p2c, hp, hc]
  norm_num [halfParticle, floorArith]

/-! ## The solver groups of a call -/

theorem launchGroups_append (a b : List Event) :
    launchGroups (a ++ b) = launchGroups a ++ launchGroups b := by
  unfold launchGroups
  rw [List.filterMap_append]

theorem groupLaunches_append (g : Nat) (a b : List Event) :
    groupLaunches g (a ++ b) = groupLaunches g a ++ groupLaunches g b := by
  unfold groupLaunches
  rw [List.filter_append]

theorem groupLaunches_of_other (g : Nat) (hg : g ≠ 2) (R : List Event)
    (hR : ∀ e ∈ R, ∀ k, e.kernel = some k → k.solverGroup = 2) : groupLaunches g R = [] := by
  unfold groupLaunches
  rw [List.filter_eq_nil_iff]
  intro e he
  cases hk : e.kernel with
  | none => simp
  | some k =>
    have h2 := hR e he k hk
    simp only [Option.map_some', h2, Option.some.injEq, decide_eq_true_eq]
    exact fun h => hg h.symm

theorem launchGroups_of_ccma (R : List Event)
    (hR : ∀ e ∈ R, ∀ k, e.kernel = some k → k.solverGroup = 2) :
    ∀ g ∈ launchGroups R, g = 2 := by
  intro g hg
  unfold launchGroups at hg
  rw [List.mem_filterMap] at hg
  obtain ⟨e, he, hmap⟩ := hg
  cases hk : e.kernel with
  | none => rw [hk] at hmap; simp at hmap
  | some k =>
    rw [hk] at hmap
    simp only [Option.map_some', Option.some.injEq] at hmap
    rw [← hmap]
    exact hR e he k hk

theorem pairwise_le_of_const (l : List Nat) (g : Nat) (h : ∀ x ∈ l, x = g) :
    l.Pairwise (fun a b => a ≤ b) := by
  rw [List.pairwise_iff_forall_sublist]
  intro a b hab
  have ha := h a (hab.subset (List.mem_cons_self _ _))
  have hb := h b (hab.subset (List.mem_cons_of_mem _ (List.mem_cons_self _ _)))
  omega

theorem dispatchOrder_of_parts (c : Constraints) (vel : Bool) (R : List Event)
    (hR : ∀ e ∈ R, ∀ k, e.kernel = some k → k.solverGroup = 2)
    (hnone : c.ccmaConstraintAtoms = none → R = [])
    (hsome : ∀ n, c.ccmaConstraintAtoms = some n → groupLaunches 2 R ≠ []) :
    DispatchOrder c vel (settleLaunch c vel ++ shakeLaunch c vel ++ R) := by
  have hs0 : ∀ g ∈ launchGroups (settleLaunch c vel), g = 0 := by
    intro g hg
    cases hs : c.settleAtoms <;> cases vel <;>
      simp [settleLaunch, hs, launchGroups, Event.kernel, Kernel.solverGroup] at hg <;>
      exact hg
  have hh1 : ∀ g ∈ launchGroups (shakeLaunch c vel), g = 1 := by
    intro g hg
    cases hs : c.shakeAtoms <;> cases vel <;>
      simp [shakeLaunch, hs, launchGroups, Event.kernel, Kernel.solverGroup] at hg <;>
      exact hg
  have hr2 := launchGroups_of_ccma R hR
  refine ⟨?_, ?_, ?_, ?_, ?_⟩
  · rw [launchGroups_append, launchGroups_append, List.pairwise_append, List.pairwise_append]
    refine ⟨⟨pairwise_le_of_const _ 0 hs0, pairwise_le_of_const _ 1 hh1, ?_⟩,
      pairwise_le_of_const _ 2 hr2, ?_⟩
    · intro a ha b hb
      have := hs0 a ha
      have := hh1 b hb
      omega
    · intro a ha b hb
      have hb2 := hr2 b hb
      rcases List.mem_append.mp ha with h | h
      · have := hs0 a h
        omega
      · have := hh1 a h
        omega
  · rw [groupLaunches_append, groupLaunches_append, groupLaunches_of_other 0 (by decide) R hR]
    cases hs : c.settleAtoms <;> cases hh : c.shakeAtoms <;> cases vel <;>
      simp [settleLaunch, shakeLaunch, hs, hh, groupLaunches, Event.kernel, Kernel.solverGroup]
  · rw [groupLaunches_append, groupLaunches_append, groupLaunches_of_other 1 (by decide) R hR]
    cases hs : c.settleAtoms <;> cases hh : c.shakeAtoms <;> cases vel <;>
      simp [settleLaunch, shakeLaunch, hs, hh, groupLaunches, Event.kernel, Kernel.solverGroup]
  · have hfront : groupLaunches 2 (settleLaunch c vel ++ shakeLaunch c vel) = [] := by
      cases hs : c.settleAtoms <;> cases hh : c.shakeAtoms <;> cases vel <;>
        simp [settleLaunch, shakeLaunch, hs, hh, groupLaunches, Event.kernel, Kernel.solverGroup]
    rw [groupLaunches_append, hfront, List.nil_append]
    constructor
    · intro h hcc
      rw [hnone hcc] at h
      exact h rfl
    · intro h
      cases hcc : c.ccmaConstraintAtoms with
      | none => exact absurd hcc h
      | some n => exact hsome n hcc
  · intro hs hh hcc
    rw [hnone hcc]
    simp [settleLaunch, shakeLaunch, hs, hh]

theorem stagedEvent_group (c : Constraints) (vel : Bool) (flag : DeviceBuffer) (size : Nat)
    (e : Event) (h : StagedEvent c vel flag size e) :
    ∀ k, e.kernel = some k → k.solverGroup = 2 := by
  intro k hk
  rcases h with ⟨i, rfl⟩ | ⟨i, rfl⟩ | ⟨i, rfl⟩ | h
  · cases vel <;> simp [ccmaForceLaunch, Event.kernel] at hk <;> rw [← hk] <;> rfl
  · simp [ccmaMultiplyLaunch, Event.kernel] at hk
    rw [← hk]
    rfl
  · simp [ccmaUpdateLaunch, Event.kernel] at hk
    rw [← hk]
    rfl
  · rw [h] at hk
    exact absurd hk (by simp)

theorem cuda_ccmaPart_groups (c : Constraints) (dev : Device) (vel : Bool) :
    (∀ e ∈ (CudaIntegrationUtilities.ccmaPart c dev vel).trace,
      ∀ k, e.kernel = some k → k.solverGroup = 2) ∧
    (c.ccmaConstraintAtoms = none → (CudaIntegrationUtilities.ccmaPart c dev vel).trace = []) ∧
    (∀ n, c.ccmaConstraintAtoms = some n →
      groupLaunches 2 (CudaIntegrationUtilities.ccmaPart c dev vel).trace ≠ []) := by
  unfold CudaIntegrationUtilities.ccmaPart
  cases hcc : c.ccmaConstraintAtoms with
  | none => simp
  | some size =>
    by_cases hsmall : size ≤ 1024
    · simp only [hsmall, if_true]
      refine ⟨?_, by simp, fun n _ => by simp [groupLaunches, ccmaFullLaunch, Event.kernel,
        Kernel.solverGroup]⟩
      intro e he k hk
      simp only [List.mem_singleton] at he
      rw [he] at hk
      simp [ccmaFullLaunch, Event.kernel] at hk
      rw [← hk]
      rfl
    · simp only [hsmall, if_false, Outcome.after]
      refine ⟨?_, by simp, fun n _ => by simp [groupLaunches, Event.kernel, Kernel.solverGroup]⟩
      intro e he k hk
      rcases List.mem_append.mp he with h | h
      · simp only [List.mem_singleton] at h
        rw [h] at hk
        simp [Event.kernel] at hk
        rw [← hk]
        rfl
      · exact stagedEvent_group c vel _ size e (cuda_stagedLoop_events c dev vel size _ _ e h) k hk

theorem opencl_ccmaPart_groups (c : Constraints) (dev : Device) (direct vel : Bool) :
    (∀ e ∈ (OpenCLIntegrationUtilities.ccmaPart c dev direct vel).trace,
      ∀ k, e.kernel = some k → k.solverGroup = 2) ∧
    (c.ccmaConstraintAtoms = none →
      (OpenCLIntegrationUtilities.ccmaPart c dev direct vel).trace = []) ∧
    (∀ n, c.ccmaConstraintAtoms = some n →
      groupLaunches 2 (OpenCLIntegrationUtilities.ccmaPart c dev direct vel).trace ≠ []) := by
  unfold OpenCLIntegrationUtilities.ccmaPart
  cases hcc : c.ccmaConstraintAtoms with
  | none => simp
  | some size =>
    by_cases hsmall : size ≤ 1024
    · simp only [hsmall, if_true]
      refine ⟨?_, by simp, fun n _ => by simp [groupLaunches, ccmaFullLaunch, Event.kernel,
        Kernel.solverGroup]⟩
      intro e he k hk
      simp only [List.mem_singleton] at he
      rw [he] at hk
      simp [ccmaFullLaunch, Event.kernel] at hk
      rw [← hk]
      rfl
    · simp only [hsmall, if_false, Outcome.after]
      refine ⟨?_, by simp, fun n _ => by simp [groupLaunches, Event.kernel, Kernel.solverGroup]⟩
      intro e he k hk
      rcases List.mem_append.mp he with h | h
      · simp only [List.mem_singleton] at h
        rw [h] at hk
        simp [Event.kernel] at hk
        rw [← hk]
        rfl
      · exact stagedEvent_group c vel _ size e
          (opencl_stagedLoop_events c dev direct vel size _ _ e h) k hk

/-- C28: solver dispatch order.  In every call of the CUDA and of the OpenCL
`applyConstraintsImpl`, on every device and in either mode, the kernel launches
come in the order SETTLE, SHAKE, CCMA; the SETTLE kernel and the SHAKE kernel are
launched exactly once, with the group size as work size, when their atom array
is initialized and not at all otherwise; a CCMA kernel is launched exactly when
the CCMA array is initialized; and with no array initialized the call issues
nothing. -/
theorem solver_dispatch_order (c : Constraints) (dev : Device) (direct vel : Bool) :
    DispatchOrder c vel (CudaIntegrationUtilities.applyConstraintsImpl c dev vel).trace ∧
    DispatchOrder c vel
      (OpenCLIntegrationUtilities.applyConstraintsImpl c dev direct vel).trace := by
  obtain ⟨c1, c2, c3⟩ := cuda_ccmaPart_groups c dev vel
  obtain ⟨o1, o2, o3⟩ := opencl_ccmaPart_groups c dev direct vel
  exact ⟨dispatchOrder_of_parts c vel _ c1 c2 c3, dispatchOrder_of_parts c vel _ o1 o2 o3⟩

/-! ## The launches of the two backends -/

theorem solverLaunches_append (a b : List Event) :
    solverLaunches (a ++ b) = solverLaunches a ++ solverLaunches b := by
  unfold solverLaunches kernelLaunches
  rw [List.filter_append, List.map_append]

theorem iterationsDone_append (a b : List Event) :
    iterationsDone (a ++ b) = iterationsDone a + iterationsDone b := by
  unfold iterationsDone
  rw [List.filter_append, List.length_append]

theorem solverLaunches_cons (e : Event) (l : List Event) :
    solverLaunches (e :: l) = solverLaunches [e] ++ solverLaunches l :=
  solverLaunches_append [e] l

theorem iterationsDone_cons (e : Event) (l : List Event) :
    iterationsDone (e :: l) = iterationsDone [e] + iterationsDone l :=
  iterationsDone_append [e] l

theorem solverLaunches_flatMap_congr {f g : Nat → List Event}
    (h : ∀ i, solverLaunches (f i) = solverLaunches (g i)) (l : List Nat) :
    solverLaunches (l.flatMap f) = solverLaunches (l.flatMap g) := by
  induction l with
  | nil => rfl
  | cons a l ih =>
    rw [List.flatMap_cons, List.flatMap_cons, solverLaunches_append, solverLaunches_append, h a, ih]

theorem iterationEvents_solverLaunches (c : Constraints) (direct vel : Bool) (size i : Nat) :
    solverLaunches (CudaIntegrationUtilities.iterationEvents c vel size i)
      = solverLaunches (OpenCLIntegrationUtilities.iterationEvents c direct vel size i) := by
  unfold CudaIntegrationUtilities.iterationEvents OpenCLIntegrationUtilities.iterationEvents
  by_cases h : (i + 1) % 4 = 0 <;> cases direct <;> cases vel <;>
    simp [h, solverLaunches, kernelLaunches, Event.isExecute, Event.withoutFlagBuffer,
      Arg.isFlagBuffer, ccmaForceLaunch, ccmaMultiplyLaunch, ccmaUpdateLaunch]

/-- The number of iterations of the staged loop is determined by the flag
readings. -/
theorem staged_iterations_unique (converged : Nat → Int) (k m : Nat)
    (hk1 : ∀ j, j + 1 < k → ¬ ((j + 1) % 4 = 0 ∧ converged j ≠ 0))
    (hk2 : k = 150 ∨ (k % 4 = 0 ∧ converged (k - 1) ≠ 0)) (hk3 : 1 ≤ k) (hk4 : k ≤ 150)
    (hm1 : ∀ j, j + 1 < m → ¬ ((j + 1) % 4 = 0 ∧ converged j ≠ 0))
    (hm2 : m = 150 ∨ (m % 4 = 0 ∧ converged (m - 1) ≠ 0)) (hm3 : 1 ≤ m) (hm4 : m ≤ 150) :
    k = m := by
  rcases Nat.lt_trichotomy k m with h | h | h
  · exfalso
    rcases hk2 with h2 | ⟨h2, h3⟩
    · omega
    · apply hm1 (k - 1) (by omega)
      have : k - 1 + 1 = k := by omega
      rw [this]
      exact ⟨h2, h3⟩
  · exact h
  · exfalso
    rcases hm2 with h2 | ⟨h2, h3⟩
    · omega
    · apply hk1 (m - 1) (by omega)
      have : m - 1 + 1 = m := by omega
      rw [this]
      exact ⟨h2, h3⟩

theorem ccmaPart_consistent (c : Constraints) (dev : Device) (direct vel : Bool)
    (hrec : ∀ i, dev.recordStatus i = CUDA_SUCCESS)
    (hsync : ∀ i, dev.synchronizeStatus i = CUDA_SUCCESS) :
    solverLaunches (CudaIntegrationUtilities.ccmaPart c dev vel).trace
      = solverLaunches (OpenCLIntegrationUtilities.ccmaPart c dev direct vel).trace ∧
    iterationsDone (CudaIntegrationUtilities.ccmaPart c dev vel).trace
      = iterationsDone (OpenCLIntegrationUtilities.ccmaPart c dev direct vel).trace ∧
    (CudaIntegrationUtilities.ccmaPart c dev vel).error = none ∧
    (OpenCLIntegrationUtilities.ccmaPart c dev direct vel).error = none := by
  cases hcc : c.ccmaConstraintAtoms with
  | none =>
    simp [CudaIntegrationUtilities.ccmaPart, OpenCLIntegrationUtilities.ccmaPart, hcc]
  | some size =>
    by_cases hsmall : size ≤ 1024
    · simp [CudaIntegrationUtilities.ccmaPart, OpenCLIntegrationUtilities.ccmaPart, hcc, hsmall]
    · have hbig : 1024 < size := not_le.mp hsmall
      obtain ⟨k, hk3, hk4, hk1, hk2, hcuda⟩ := cuda_ccmaPart_ok c dev vel size hcc hbig hrec hsync
      obtain ⟨m, hm3, hm4, hm1, hm2, hopencl⟩ := opencl_ccmaPart_ok c dev direct vel size hcc hbig
      have hkm := staged_iterations_unique dev.converged k m hk1 hk2 hk3 hk4 hm1 hm2 hm3 hm4
      subst hkm
      rw [hcuda, hopencl]
      refine ⟨?_, ?_, rfl, rfl⟩
      · simp only
        rw [solverLaunches_cons, solverLaunches_cons _ (List.flatMap _ _),
          solverLaunches_flatMap_congr (iterationEvents_solverLaunches c direct vel size)]
      · simp only
        rw [iterationsDone_cons, iterationsDone_cons _ (List.flatMap _ _)]
        unfold iterationsDone
        rw [filter_flatMap_length (cuda_iterationEvents_updates c vel size),
          filter_flatMap_length (opencl_iterationEvents_updates c direct vel size)]

/-- C22, as amended: backend consistency of constraint orchestration.  For
every precision mode, every value of `constrainVelocities`, every combination of
initialized solver groups, every CCMA constraint count and every sequence of
convergence-flag readings, provided no call of `cuEventRecord` or
`cuEventSynchronize` fails: the CUDA and the OpenCL `applyConstraintsImpl` (the
latter in either mode) return normally, issue the same sequence of kernel
launches with the same work sizes and the same arguments, the tolerance and the
iteration index among them and only the buffer receiving the convergence flag
left aside, and run the same number of iterations. -/
theorem backend_consistency (c : Constraints) (dev : Device) (direct vel : Bool)
    (hrec : ∀ i, dev.recordStatus i = CUDA_SUCCESS)
    (hsync : ∀ i, dev.synchronizeStatus i = CUDA_SUCCESS) :
    solverLaunches (CudaIntegrationUtilities.applyConstraintsImpl c dev vel).trace
      = solverLaunches (OpenCLIntegrationUtilities.applyConstraintsImpl c dev direct vel).trace ∧
    iterationsDone (CudaIntegrationUtilities.applyConstraintsImpl c dev vel).trace
      = iterationsDone (OpenCLIntegrationUtilities.applyConstraintsImpl c dev direct vel).trace ∧
    (CudaIntegrationUtilities.applyConstraintsImpl c dev vel).error = none ∧
    (OpenCLIntegrationUtilities.applyConstraintsImpl c dev direct vel).error = none := by
  obtain ⟨h1, h2, h3, h4⟩ := ccmaPart_consistent c dev direct vel hrec hsync
  unfold CudaIntegrationUtilities.applyConstraintsImpl
    OpenCLIntegrationUtilities.applyConstraintsImpl
  simp only [Outcome.after]
  refine ⟨?_, ?_, h3, h4⟩
  · simp only [solverLaunches_append, h1]
  · simp only [iterationsDone_append, h2]

/-- Witness of C22: SETTLE, SHAKE and 2000 CCMA constraints in half precision,
the flag reading nonzero in iteration 7: both backends run 8 iterations. -/
theorem backend_consistency_witness :
    solverLaunches (CudaIntegrationUtilities.applyConstraintsImpl (allSolvers .F16 2000)
        (okDevice (fun i => if i = 7 then 1 else 0)) true).trace
      = solverLaunches (OpenCLIntegrationUtilities.applyConstraintsImpl (allSolvers .F16 2000)
        (okDevice (fun i => if i = 7 then 1 else 0)) false true).trace ∧
    iterationsDone (OpenCLIntegrationUtilities.applyConstraintsImpl (allSolvers .F16 2000)
        (okDevice (fun i => if i = 7 then 1 else 0)) false true).trace = 8 := by
  have h := backend_consistency (allSolvers .F16 2000)
    (okDevice (fun i => if i = 7 then 1 else 0)) false true (fun _ => rfl) (fun _ => rfl)
  exact ⟨h.1, by decide⟩

/-- Counterexample to C22 as stated: with 2000 CCMA constraints, the flag
always reading 0 and `cuEventRecord` returning status 700 in iteration 3, the
CUDA `applyConstraintsImpl` throws after 11 kernel launches and 3 whole
iterations, while the OpenCL one, given the same flag readings, issues 451
launches in 150 iterations. -/
theorem backend_consistency_counterexample :
    (solverLaunches (CudaIntegrationUtilities.applyConstraintsImpl (ccmaOnly .Single 2000 3000)
        (recordFailure 3 700) true).trace).length = 11 ∧
    (solverLaunches (OpenCLIntegrationUtilities.applyConstraintsImpl (ccmaOnly .Single 2000 3000)
        (recordFailure 3 700) true true).trace).length = 451 ∧
    iterationsDone (CudaIntegrationUtilities.applyConstraintsImpl (ccmaOnly .Single 2000 3000)
        (recordFailure 3 700) true).trace = 3 ∧
    iterationsDone (OpenCLIntegrationUtilities.applyConstraintsImpl (ccmaOnly .Single 2000 3000)
        (recordFailure 3 700) true true).trace = 150 ∧
    solverLaunches (CudaIntegrationUtilities.applyConstraintsImpl (ccmaOnly .Single 2000 3000)
        (recordFailure 3 700) true).trace
      ≠ solverLaunches (OpenCLIntegrationUtilities.applyConstraintsImpl
          (ccmaOnly .Single 2000 3000) (recordFailure 3 700) true true).trace := by
  have h1 : (solverLaunches (CudaIntegrationUtilities.applyConstraintsImpl
      (ccmaOnly .Single 2000 3000) (recordFailure 3 700) true).trace).length = 11 := by decide
  have h2 : (solverLaunches (OpenCLIntegrationUtilities.applyConstraintsImpl
      (ccmaOnly .Single 2000 3000) (recordFailure 3 700) true true).trace).length = 451 := by
    set_option maxRecDepth 20000 in decide
  refine ⟨h1, h2, by decide, by set_option maxRecDepth 20000 in decide, ?_⟩
  intro h
  rw [h, h2] at h1
  exact absurd h1 (by decide)

/-! ## The scratch array of `executeEnergy` -/

/-- C29: scratch-array sizing in `executeEnergy`.  The length `arraySize` of
`energyArray` is at least `numBonds`, `numAngles`, `numPeriodicTorsions` and
`numRBTorsions` for all counts, but `num14` is not among the values the maximum
is taken over: for a system of 8 atoms with 7 bonds, no angle and torsion terms
and 9 pairs of 1-4 atoms, `arraySize` is 8, less than the 9 terms of the last
call of `calculateForce` that is handed the array. -/
theorem executeEnergy_scratch_array :
    (∀ k : ForceFieldCounts,
      k.numBonds ≤ executeEnergyArraySize k ∧ k.numAngles ≤ executeEnergyArraySize k ∧
      k.numPeriodicTorsions ≤ executeEnergyArraySize k ∧
      k.numRBTorsions ≤ executeEnergyArraySize k ∧ k.numAtoms ≤ executeEnergyArraySize k) ∧
    executeEnergyArraySize ⟨8, 7, 0, 0, 0, 9⟩ = 8 ∧
    executeEnergyTermCounts ⟨8, 7, 0, 0, 0, 9⟩ = [7, 0, 0, 0, 9] ∧
    ¬ ∀ n ∈ executeEnergyTermCounts ⟨8, 7, 0, 0, 0, 9⟩, n ≤ executeEnergyArraySize ⟨8, 7, 0, 0, 0, 9⟩ := by
  refine ⟨?_, by decide, by decide, by decide⟩
  intro k
  unfold executeEnergyArraySize
  simp only [le_max_iff, le_refl, true_or, or_true, and_self]

/-! ## `copyToArray` -/

theorem RowArray.write_some {α : Type} (a : RowArray α) (i j : Nat) (v : α) (hi : i < a.length)
    (hj : j < a.width) :
    a.write i j v = some { a with
      entry := fun i2 j2 => if i2 = i ∧ j2 = j then some v else a.entry i2 j2 } := by
  unfold RowArray.write
  rw [if_pos ⟨hi, hj⟩]

/-- The inner loop of `copyToArray` on a row that fits: row `i` holds the
converted entries of `row`, and nothing else has changed. -/
theorem copyRow_spec {α β : Type} (convert : β → α) (row : List β) (i : Nat) (a : RowArray α)
    (hi : i < a.length) (hrow : row.length ≤ a.width) :
    ∃ r : RowArray α, copyRow convert row i (some a) = some r ∧ r.length = a.length ∧
      r.width = a.width ∧
      (∀ j, j < row.length → r.entry i j = (row.get? j).map convert) ∧
      (∀ i2 j, (i2 ≠ i ∨ row.length ≤ j) → r.entry i2 j = a.entry i2 j) := by
  let Inv : Set Nat → Option (RowArray α) → Prop := fun D st =>
    ∃ r : RowArray α, st = some r ∧ r.length = a.length ∧ r.width = a.width ∧
      (∀ j, j ∈ D → r.entry i j = (row.get? j).map convert) ∧
      (∀ i2 j, (i2 ≠ i ∨ j ∉ D) → r.entry i2 j = a.entry i2 j)
  have hstep : ∀ D j st, j < row.length → j ∉ D → Inv D st →
      Inv (insert j D)
        ((fun j st => st.bind (fun a => (row.get? j).bind (fun v => a.write i j (convert v))))
          j st) := by
    rintro D j st hj hjD ⟨r, rfl, hl, hw, hin, hout⟩
    have hget : row.get? j = some (row.get ⟨j, hj⟩) := List.get?_eq_get hj
    refine ⟨{ r with entry := fun i2 j2 =>
        if i2 = i ∧ j2 = j then some (convert (row.get ⟨j, hj⟩)) else r.entry i2 j2 },
      ?_, hl, hw, ?_, ?_⟩
    · simp only [Option.some_bind, hget]
      exact RowArray.write_some r i j _ (by rw [hl]; exact hi) (by rw [hw]; omega)
    · intro j2 hj2
      by_cases h : j2 = j
      · subst h
        simp only [and_self, if_true, hget, Option.map_some']
      · have hmem : j2 ∈ D := by
          rcases hj2 with h2 | h2
          · exact absurd h2 h
          · exact h2
        simp only [h, and_false, if_false]
        exact hin j2 hmem
    · intro i2 j2 h
      have hne : ¬ (i2 = i ∧ j2 = j) := by
        rintro ⟨h1, h2⟩
        rcases h with h | h
        · exact h h1
        · exact h (by rw [h2]; exact Set.mem_insert _ _)
      simp only [hne, if_false]
      apply hout
      rcases h with h | h
      · exact Or.inl h
      · exact Or.inr (fun hmem => h (Set.mem_insert_of_mem _ hmem))
  have h := strideThread_inv _ row.length 1 0 Inv (by decide) hstep ∅ (some a)
    (fun j hj => absurd hj (Set.not_mem_empty j))
    ⟨a, rfl, rfl, rfl, fun j hj => absurd hj (Set.not_mem_empty j), fun _ _ _ => rfl⟩
  obtain ⟨r, hr, hl, hw, hin, hout⟩ := h
  refine ⟨r, hr, hl, hw, ?_, ?_⟩
  · intro j hj
    exact hin j (Or.inr ⟨hj, Nat.mod_one j⟩)
  · intro i2 j h
    apply hout
    rcases h with h | h
    · exact Or.inl h
    · refine Or.inr ?_
      rintro (hmem | ⟨hlt, -⟩)
      · exact absurd hmem (Set.not_mem_empty j)
      · omega

/-- C30: `copyToArray` under the rectangularity precondition.  For every vector
in which no row is longer than the first, `copyToArray` makes no store outside
the rows it allocated and returns an array of `vec.size()` rows of width
`vec[0].size()` (of no rows for an empty vector, whose first row is never read)
with `array[i][j] = vec[i][j]`, converted to the element type of the array, for
every `i < vec.size()` and `j < vec[i].size()`; every other entry is left
unwritten. -/
theorem copyToArray_faithful {α β : Type} (convert : β → α) (vec : List (List β))
    (hrect : ∀ row ∈ vec, row.length ≤ (vec.getD 0 []).length) :
    ∃ array : RowArray α, copyToArray convert vec = some array ∧
      array.length = vec.length ∧ array.width = (vec.getD 0 []).length ∧
      (∀ i j, array.entry i j = ((vec.getD i []).get? j).map convert) ∧
      (∀ (i j : Nat) (hi : i < vec.length) (hj : j < (vec.get ⟨i, hi⟩).length),
        array.entry i j = some (convert ((vec.get ⟨i, hi⟩).get ⟨j, hj⟩))) ∧
      (vec = [] → copyToArray convert vec = some ⟨0, 0, fun _ _ => none⟩) := by
  have hmain : ∃ array : RowArray α, copyToArray convert vec = some array ∧
      array.length = vec.length ∧ array.width = (vec.getD 0 []).length ∧
      (∀ i j, array.entry i j = ((vec.getD i []).get? j).map convert) := by
    cases hvec : vec with
    | nil => exact ⟨⟨0, 0, fun _ _ => none⟩, rfl, rfl, rfl, fun i j => by simp⟩
    | cons first rest =>
      rw [← hvec]
      have hfirst : (vec.getD 0 []).length = first.length := by rw [hvec]; rfl
      let Inv : Set Nat → Option (RowArray α) → Prop := fun D st =>
        ∃ r : RowArray α, st = some r ∧ r.length = vec.length ∧ r.width = first.length ∧
          (∀ i j, i ∈ D → r.entry i j = ((vec.getD i []).get? j).map convert) ∧
          (∀ i j, i ∉ D → r.entry i j = none)
      have hstep : ∀ D i st, i < vec.length → i ∉ D → Inv D st →
          Inv (insert i D) ((fun i st => copyRow convert (vec.getD i []) i st) i st) := by
        rintro D i st hi hiD ⟨r, rfl, hl, hw, hin, hout⟩
        have hmem : vec.getD i [] ∈ vec := by
          rw [List.getD_eq_getElem vec [] hi]
          exact List.getElem_mem hi
        obtain ⟨r2, hr2, hl2, hw2, hin2, hout2⟩ := copyRow_spec convert (vec.getD i []) i r
          (by rw [hl]; exact hi) (by rw [hw, ← hfirst]; exact hrect _ hmem)
        refine ⟨r2, hr2, hl2.trans hl, hw2.trans hw, ?_, ?_⟩
        · intro i2 j hi2
          by_cases h : i2 = i
          · subst h
            by_cases hj : j < (vec.getD i2 []).length
            · exact hin2 j hj
            · rw [hout2 i2 j (Or.inr (not_lt.mp hj)), hout i2 j hiD,
                List.get?_eq_none.mpr (not_lt.mp hj)]
              rfl
          · have hD : i2 ∈ D := by
              rcases hi2 with h2 | h2
              · exact absurd h2 h
              · exact h2
            rw [hout2 i2 j (Or.inl h)]
            exact hin i2 j hD
        · intro i2 j hi2
          have hne : i2 ≠ i := fun h => hi2 (by rw [h]; exact Set.mem_insert _ _)
          rw [hout2 i2 j (Or.inl hne)]
          exact hout i2 j (fun hmem2 => hi2 (Set.mem_insert_of_mem _ hmem2))
      have h := strideThread_inv _ vec.length 1 0 Inv (by decide) hstep ∅
        (some (allocateArray α vec.length first.length))
        (fun j hj => absurd hj (Set.not_mem_empty j))
        ⟨_, rfl, rfl, rfl, fun i j hi => absurd hi (Set.not_mem_empty i), fun _ _ _ => rfl⟩
      obtain ⟨r, hr, hl, hw, hin, hout⟩ := h
      refine ⟨r, ?_, hl, hw.trans hfirst.symm, ?_⟩
      · rw [← hr]
        conv_lhs => rw [hvec]
        unfold copyToArray
        simp only
        rw [← hvec]
      · intro i j
        by_cases hi : i < vec.length
        · exact hin i j (Or.inr ⟨hi, Nat.mod_one i⟩)
        · have hnot : i ∉ (∅ ∪ {j | j < vec.length ∧ j % 1 = 0} : Set Nat) := by
            rintro (hmem | ⟨hlt, -⟩)
            · exact absurd hmem (Set.not_mem_empty i)
            · exact hi hlt
          rw [hout i j hnot, List.getD_eq_default vec [] (not_lt.mp hi)]
          rfl
  obtain ⟨array, h1, h2, h3, h4⟩ := hmain
  refine ⟨array, h1, h2, h3, h4, ?_, ?_⟩
  · intro i j hi hj
    rw [h4 i j, List.getD_eq_getElem vec [] hi]
    have : (vec[i]).get? j = some ((vec.get ⟨i, hi⟩).get ⟨j, hj⟩) := List.get?_eq_get hj
    rw [this]
    rfl
  · intro hnil
    rw [hnil]
    rfl

/-- Witness of C30: a vector of two rows of two and one entries. -/
theorem copyToArray_faithful_witness :
    ∃ array : RowArray Int, copyToArray (fun v : Int => v) [[4, 5], [6]] = some array ∧
      array.length = 2 ∧ array.width = 2 ∧ array.entry 0 1 = some 5 ∧ array.entry 1 0 = some 6 ∧
      array.entry 1 1 = none := by
  obtain ⟨array, h1, h2, h3, h4, -, -⟩ := copyToArray_faithful (fun v : Int => v) [[4, 5], [6]]
    (by decide)
  exact ⟨array, h1, h2, h3, by rw [h4]; rfl, by rw [h4]; rfl, by rw [h4]; rfl⟩

end OpenMM
